import Mathlib

/-!
# Arwen VM host and Mandos account JSON: a shallow embedding

Part I  embeds `arwen/host/arwen.go`: the host's state-stack fan-out
(`InitState`, `PushState`, `PopState`, `ClearStateStack`) and the panic-catching
entry points (`TryCatch`, `RunSmartContractCreate`, `RunSmartContractCall`).

Part II embeds `mandos-go/json/parse/parseAccounts.go` and
`mandos-go/json/write/writeAccount.go` over an ordered-JSON value type.

Go values are modelled as follows: `[]byte` is `List Nat`, a Go `error` is a
`GoError` (its message), a `(value, error)` result is an `Except GoError value`,
a pointer that may be nil is an `Option`, and a function that may panic returns
an `Outcome`.
-/

namespace Arwen

/-! ## Part I. Definitions: the host (`arwen/host/arwen.go`) -/

/-- A Go `error` value, identified by its message. -/
structure GoError where
  msg : String
deriving DecidableEq, Repr

/-- The six contexts composed into `vmHost` (its `...Context` fields). -/
inductive ContextId where
  | blockchain
  | runtime
  | output
  | metering
  | storage
  | bigInt
deriving DecidableEq, Repr

/-- The state-stack methods the host invokes on its contexts. `ClearInstanceStack`
belongs to the runtime context only. -/
inductive Method where
  | InitState
  | PushState
  | PopState
  | ClearStateStack
  | ClearInstanceStack
deriving DecidableEq, Repr

/-- The context implementations are injected into the host (they are interface
values in the source). `σ` is the state of one context, `ο` the type of the
ordinary operations a context offers besides its state-stack methods. A method
of one context acts on that context's state only. -/
structure Contexts (σ ο : Type) where
  method : ContextId → Method → σ → σ
  apply : ContextId → ο → σ → σ

/-- The mutable part of `vmHost`: the `ethInput` buffer and the six contexts.
The hooks and the import table are fixed at construction and never written. -/
structure vmHost (σ : Type) where
  ethInput : Option (List Nat)
  blockchainContext : σ
  runtimeContext : σ
  outputContext : σ
  meteringContext : σ
  storageContext : σ
  bigIntContext : σ

/-- The context stored in the host under a given id (the accessors
`Blockchain()`, `Runtime()`, `Output()`, `Metering()`, `Storage()`, `BigInt()`). -/
def vmHost.context {σ : Type} (host : vmHost σ) : ContextId → σ
  | .blockchain => host.blockchainContext
  | .runtime => host.runtimeContext
  | .output => host.outputContext
  | .metering => host.meteringContext
  | .storage => host.storageContext
  | .bigInt => host.bigIntContext

/-- Run a state transformer on one context of the host. -/
def vmHost.update {σ : Type} (host : vmHost σ) (c : ContextId) (f : σ → σ) : vmHost σ :=
  match c with
  | .blockchain => { host with blockchainContext := f host.blockchainContext }
  | .runtime => { host with runtimeContext := f host.runtimeContext }
  | .output => { host with outputContext := f host.outputContext }
  | .metering => { host with meteringContext := f host.meteringContext }
  | .storage => { host with storageContext := f host.storageContext }
  | .bigInt => { host with bigIntContext := f host.bigIntContext }

/-- One statement of a host state-stack method body: a method call on a
context, or the assignment `host.ethInput = nil`. -/
inductive Stmt where
  | call (c : ContextId) (m : Method)
  | setEthInputNil
deriving DecidableEq, Repr

/-- Execute one statement on the host. -/
def Stmt.exec {σ ο : Type} (C : Contexts σ ο) (host : vmHost σ) : Stmt → vmHost σ
  | .call c m => host.update c (C.method c m)
  | .setEthInputNil => { host with ethInput := none }

/-- Execute a straight-line body, statement by statement. -/
def runBody {σ ο : Type} (C : Contexts σ ο) (body : List Stmt) (host : vmHost σ) : vmHost σ :=
  body.foldl (Stmt.exec C) host

/-- Body of `func (host *vmHost) InitState()`. -/
def vmHost.InitStateBody : List Stmt :=
  [ .call .bigInt .InitState,
    .call .output .InitState,
    .call .runtime .InitState,
    .call .storage .InitState,
    .setEthInputNil ]

/-- Body of `func (host *vmHost) PushState()`. -/
def vmHost.PushStateBody : List Stmt :=
  [ .call .bigInt .PushState,
    .call .runtime .PushState,
    .call .output .PushState,
    .call .storage .PushState ]

/-- Body of `func (host *vmHost) PopState()`. -/
def vmHost.PopStateBody : List Stmt :=
  [ .call .bigInt .PopState,
    .call .runtime .PopState,
    .call .output .PopState,
    .call .storage .PopState ]

/-- Body of `func (host *vmHost) ClearStateStack()`. -/
def vmHost.ClearStateStackBody : List Stmt :=
  [ .call .bigInt .ClearStateStack,
    .call .runtime .ClearStateStack,
    .call .runtime .ClearInstanceStack,
    .call .output .ClearStateStack,
    .call .storage .ClearStateStack ]

/-- `host.InitState()`. -/
def vmHost.InitState {σ ο : Type} (C : Contexts σ ο) (host : vmHost σ) : vmHost σ :=
  runBody C vmHost.InitStateBody host

/-- `host.PushState()`. -/
def vmHost.PushState {σ ο : Type} (C : Contexts σ ο) (host : vmHost σ) : vmHost σ :=
  runBody C vmHost.PushStateBody host

/-- `host.PopState()`. -/
def vmHost.PopState {σ ο : Type} (C : Contexts σ ο) (host : vmHost σ) : vmHost σ :=
  runBody C vmHost.PopStateBody host

/-- `host.ClearStateStack()`. -/
def vmHost.ClearStateStack {σ ο : Type} (C : Contexts σ ο) (host : vmHost σ) : vmHost σ :=
  runBody C vmHost.ClearStateStackBody host

/-- A context operation performed between a push and a pop: an ordinary
operation `op` of the context `ctx`. -/
structure HostOp (ο : Type) where
  ctx : ContextId
  op : ο

/-- Perform one context operation on the host. -/
def HostOp.run {σ ο : Type} (C : Contexts σ ο) (host : vmHost σ) (o : HostOp ο) : vmHost σ :=
  host.update o.ctx (C.apply o.ctx o.op)

/-- Perform a sequence of context operations, in order. -/
def runOps {σ ο : Type} (C : Contexts σ ο) (ops : List (HostOp ο)) (host : vmHost σ) : vmHost σ :=
  ops.foldl (HostOp.run C) host

/-- The contract of one context's own state stack: its `PushState`, any sequence
of its ordinary operations, then its `PopState`, give back the state it started
from. -/
def Restores {σ ο : Type} (C : Contexts σ ο) (c : ContextId) : Prop :=
  ∀ (s : σ) (ops : List ο),
    C.method c .PopState (ops.foldl (fun t o => C.apply c o t) (C.method c .PushState s)) = s

/-- The context a statement calls into, if it is a call. -/
def Stmt.target : Stmt → Option ContextId
  | .call c _ => some c
  | .setEthInputNil => none

/-- The method a statement calls, if it is a call. -/
def Stmt.calledMethod : Stmt → Option Method
  | .call _ m => some m
  | .setEthInputNil => none

/-- The four contexts that carry a snapshot stack at host level. -/
def snapshotContexts : List ContextId := [.bigInt, .runtime, .output, .storage]

/-! ### A reference context: a value with a snapshot stack and an instance stack -/

/-- A small context implementation used to exercise the host: a current value,
a stack of saved values, and an instance stack. -/
structure SnapCtx where
  cur : Nat
  stateStack : List Nat
  instanceStack : List Nat
deriving DecidableEq, Repr

/-- Ordinary operations of the reference context. -/
inductive SnapOp where
  | set (v : Nat)
  | pushInstance (i : Nat)
deriving DecidableEq, Repr

/-- State-stack methods of the reference context. -/
def SnapCtx.method (s : SnapCtx) : Method → SnapCtx
  | .InitState => { s with cur := 0 }
  | .PushState => { s with stateStack := s.cur :: s.stateStack }
  | .PopState =>
    match s.stateStack with
    | [] => s
    | v :: rest => { s with cur := v, stateStack := rest }
  | .ClearStateStack => { s with stateStack := [] }
  | .ClearInstanceStack => { s with instanceStack := [] }

/-- Ordinary operations of the reference context. -/
def SnapCtx.apply (s : SnapCtx) : SnapOp → SnapCtx
  | .set v => { s with cur := v }
  | .pushInstance i => { s with instanceStack := i :: s.instanceStack }

/-- All six contexts implemented by the reference context. An instance pushed
between a push and a pop is not undone by `PopState`, so `pushInstance` is kept
out of the operations of `snapContexts` and offered by `snapContextsInst`. -/
def snapContexts : Contexts SnapCtx Nat where
  method := fun _ m s => s.method m
  apply := fun _ v s => s.apply (.set v)

/-- The reference contexts with the full operation set. -/
def snapContextsInst : Contexts SnapCtx SnapOp where
  method := fun _ m s => s.method m
  apply := fun _ o s => s.apply o

/-- A host whose six contexts hold the given value and empty stacks. -/
def snapHost (v : Nat) : vmHost SnapCtx :=
  { ethInput := none,
    blockchainContext := ⟨v, [], []⟩,
    runtimeContext := ⟨v, [], []⟩,
    outputContext := ⟨v, [], []⟩,
    meteringContext := ⟨v, [], []⟩,
    storageContext := ⟨v, [], []⟩,
    bigIntContext := ⟨v, [], []⟩ }

/-! ### Panics and the entry points -/

/-- The value a Go `panic` carries, as `recover()` sees it: `nil` (`panic(nil)`,
for which `recover()` returns nil), a value that implements `error`, or any
other value, kept as its `%v` rendering. -/
inductive PanicValue where
  | nil
  | error (e : GoError)
  | other (rendered : String)
deriving DecidableEq, Repr

/-- How a call of a Go function that may panic ends: it returns `a`, or it
panics with `v`; `s` is the state it leaves behind either way. -/
inductive Outcome (α σ : Type) where
  | returned (a : α) (s : σ)
  | panicked (v : PanicValue) (s : σ)

/-- The program state an outcome leaves. -/
def Outcome.state {α σ : Type} : Outcome α σ → σ
  | .returned _ s => s
  | .panicked _ s => s

/-- `TryFunction`: `func()`, acting on the variables it captures. -/
abbrev TryFunction (τ : Type) := τ → Outcome Unit τ

/-- `CatchFunction`: `func(error)`, acting on the variables it captures. -/
abbrev CatchFunction (τ : Type) := GoError → τ → Outcome Unit τ

/-- `TryCatch(try, catch, catchFallbackMessage)`. The deferred function runs
when `try` is done: `recover()` is nil if `try` returned (or panicked with nil),
and then nothing more happens; otherwise the recovered value is passed to
`catch`, as it is when it is an `error`, and else wrapped by
`fmt.Errorf("%s, panic: %v", catchFallbackMessage, r)`. A panic of `catch`
itself is not recovered. -/
def TryCatch {τ : Type} (try_ : TryFunction τ) (catch_ : CatchFunction τ)
    (catchFallbackMessage : String) (s : τ) : Outcome Unit τ :=
  match try_ s with
  | .returned () s1 => .returned () s1
  | .panicked r s1 =>
    match r with
    | .nil => .returned () s1
    | .error e => catch_ e s1
    | .other v => catch_ ⟨catchFallbackMessage ++ ", panic: " ++ v⟩ s1

/-- The fields of `vmcommon.VMOutput` named by the specification. -/
structure VMOutput where
  ReturnCode : Nat
  ReturnMessage : String
  ReturnData : List (List Nat)
  GasRemaining : Nat
  GasRefund : Nat
deriving DecidableEq, Repr

/-- The fields of `vmcommon.ContractCallInput` named by the specification. -/
structure ContractCallInput where
  CallerAddr : List Nat
  RecipientAddr : List Nat
  Function : String
  Arguments : List (List Nat)
  GasProvided : Nat
deriving DecidableEq, Repr

/-- The named results `(vmOutput *vmcommon.VMOutput, err error)` of an entry
point; both start as nil. -/
structure Results where
  vmOutput : Option VMOutput
  err : Option GoError
deriving DecidableEq, Repr

/-- The inner work of an entry point (`doRunSmartContractCreate`,
`doRunSmartContractCall`, `doRunSmartContractUpgrade`): given the input and the
host state `η` it returns a `*VMOutput`, or panics. -/
abbrev InnerWork (ι η : Type) := ι → η → Outcome (Option VMOutput) η

/-- The closure `func() { vmOutput = work(input) }`. -/
def tryClosure {ι η : Type} (work : InnerWork ι η) (input : ι) : TryFunction (Results × η) :=
  fun st =>
    match work input st.2 with
    | .returned out h => .returned () ({ st.1 with vmOutput := out }, h)
    | .panicked v h => .panicked v (st.1, h)

/-- The closure `func(caught error) { err = caught }`. -/
def catchClosure {η : Type} : CatchFunction (Results × η) :=
  fun caught st => .returned () ({ st.1 with err := some caught }, st.2)

/-- The final `return` of an entry point: hand back the named results. -/
def returnResults {η : Type} : Outcome Unit (Results × η) → Outcome Results η
  | .returned () st => .returned st.1 st.2
  | .panicked v st => .panicked v st.2

/-- `host.RunSmartContractCreate(input)`. -/
def RunSmartContractCreate {ι η : Type} (doRunSmartContractCreate : InnerWork ι η)
    (input : ι) (host : η) : Outcome Results η :=
  let try_ := tryClosure doRunSmartContractCreate input
  let catch_ := catchClosure
  returnResults (TryCatch try_ catch_ "arwen.RunSmartContractCreate" (⟨none, none⟩, host))

/-- `host.RunSmartContractCall(input)`. `UpgradeFunctionName` is the constant
`arwen.UpgradeFunctionName`. -/
def RunSmartContractCall {η : Type} (UpgradeFunctionName : String)
    (doRunSmartContractUpgrade doRunSmartContractCall : InnerWork ContractCallInput η)
    (input : ContractCallInput) (host : η) : Outcome Results η :=
  let tryUpgrade := tryClosure doRunSmartContractUpgrade input
  let tryCall := tryClosure doRunSmartContractCall input
  let catch_ := catchClosure
  let isUpgrade := input.Function == UpgradeFunctionName
  if isUpgrade then
    returnResults (TryCatch tryUpgrade catch_ "arwen.RunSmartContractUpgrade" (⟨none, none⟩, host))
  else
    returnResults (TryCatch tryCall catch_ "arwen.RunSmartContractCall" (⟨none, none⟩, host))

/-- The two inner paths of `RunSmartContractCall`. -/
inductive Path where
  | upgrade
  | call
deriving DecidableEq, Repr

/-- Instrument an inner path: each execution appends the path's tag to a log
kept next to the host state, then does the path's work. -/
def logged {ι η : Type} (tag : Path) (work : InnerWork ι η) : InnerWork ι (η × List Path) :=
  fun input st =>
    match work input st.1 with
    | .returned out h => .returned out (h, st.2 ++ [tag])
    | .panicked v h => .panicked v (h, st.2 ++ [tag])

/-- The `*VMOutput` an inner path handed back: nil when it panicked. -/
def Outcome.output {η : Type} : Outcome (Option VMOutput) η → Option VMOutput
  | .returned out _ => out
  | .panicked _ _ => none

/-- Instrument a catch function: each call appends its argument to a log kept
next to the captured variables, then runs the function. -/
def loggedCatch {τ : Type} (catch_ : CatchFunction τ) : CatchFunction (τ × List GoError) :=
  fun e st =>
    match catch_ e st.1 with
    | .returned () t => .returned () (t, st.2 ++ [e])
    | .panicked v t => .panicked v (t, st.2 ++ [e])

/-- Run a try function next to a log it does not touch. -/
def besideLog {τ : Type} (try_ : TryFunction τ) : TryFunction (τ × List GoError) :=
  fun st =>
    match try_ st.1 with
    | .returned () t => .returned () (t, st.2)
    | .panicked v t => .panicked v (t, st.2)

/-- The error `TryCatch` hands to `catch` for a recovered value: none for nil,
the value itself when it is an error, else the fallback message followed by
`, panic: ` and the value. -/
def caughtError (catchFallbackMessage : String) : PanicValue → Option GoError
  | .nil => none
  | .error e => some e
  | .other v => some ⟨catchFallbackMessage ++ ", panic: " ++ v⟩

/-- The calls `TryCatch` owes to `catch` after `try` ended as given: none when
it returned, and one per recovered non-nil value otherwise. -/
def owedToCatch {α τ : Type} (catchFallbackMessage : String) : Outcome α τ → List GoError
  | .returned _ _ => []
  | .panicked v _ => (caughtError catchFallbackMessage v).toList

/-- The value a call returned, if it returned. -/
def Outcome.value {α σ : Type} : Outcome α σ → Option α
  | .returned a _ => some a
  | .panicked _ _ => none

/-- Whether an outcome is a panic. -/
def Outcome.isPanic {α σ : Type} : Outcome α σ → Bool
  | .returned _ _ => false
  | .panicked _ _ => true

/-- Whether an outcome is a panic with a non-nil value. -/
def Outcome.isNonNilPanic {α σ : Type} : Outcome α σ → Bool
  | .returned _ _ => false
  | .panicked .nil _ => false
  | .panicked _ _ => true

/-- Inner work that panics with the given value and leaves the host as it is. -/
def panicsWith {ι η : Type} (v : PanicValue) : InnerWork ι η :=
  fun _ h => .panicked v h

/-- Inner work that returns the given output and leaves the host as it is. -/
def returnsOutput {ι η : Type} (out : VMOutput) : InnerWork ι η :=
  fun _ h => .returned (some out) h

/-! ## Part II. Definitions: account JSON (`mandos-go/json/parse`, `mandos-go/json/write`) -/

/-- Ordered JSON values (`oj.OJsonObject`). A map is the list of its key/value
pairs in document order (`OJsonMap.OrderedKV`); a pair is `(Key, Value)`. -/
inductive OJsonObject where
  | OJsonString (Value : String)
  | OJsonMap (OrderedKV : List (String × OJsonObject))
  | OJsonList (items : List OJsonObject)
  | OJsonBool (b : Bool)

/-- `oj.NewMap()`: the empty ordered map. -/
def NewMap : List (String × OJsonObject) := []

/-- The keys of an ordered map, in order. -/
def keysOf (m : List (String × OJsonObject)) : List String := m.map Prod.fst

/-- Modelled from the spec: `OJsonMap.Put` of the `orderedjson` package is not
under src/. An ordered map holds one value per key in insertion order, so `Put`
appends the pair when the key is new and does nothing when the key is already
in the map. -/
def Put (m : List (String × OJsonObject)) (key : String) (value : OJsonObject) :
    List (String × OJsonObject) :=
  if key ∈ keysOf m then m else m ++ [(key, value)]

/-- The value stored under a key: that of the first pair with this key. -/
def getValue (m : List (String × OJsonObject)) (key : String) : Option OJsonObject :=
  match m with
  | [] => none
  | kvp :: rest => if kvp.1 = key then some kvp.2 else getValue rest key

/-- A list of keys with every repetition after the first occurrence removed. -/
def firstOccurrences : List String → List String
  | [] => []
  | k :: ks => k :: (firstOccurrences ks).filter (fun x => x ≠ k)

/-- `mj.JSONBytesFromString`: bytes given as a string, kept with the string. -/
structure JSONBytesFromString where
  Value : List Nat
  Original : String
deriving DecidableEq, Repr

/-- `mj.NewJSONBytesFromString(value, originalString)`. -/
def NewJSONBytesFromString (value : List Nat) (originalString : String) : JSONBytesFromString :=
  { Value := value, Original := originalString }

/-- The types of `mandos-go/json/model` that the parser and the writer pass
around without looking inside, with the Go zero values that `mj.Account{}`
gives to the fields of these types. -/
structure Model where
  JSONUint64 : Type
  JSONBigInt : Type
  JSONBytesFromTree : Type
  ESDTData : Type
  ESDTRoles : Type
  ESDTLastNonce : Type
  JSONCheckUint64 : Type
  JSONCheckBigInt : Type
  JSONCheckBytes : Type
  CheckESDTData : Type
  zeroUint64 : JSONUint64
  zeroBigInt : JSONBigInt

/-- `mj.StorageKeyValuePair`. -/
structure StorageKeyValuePair (M : Model) where
  Key : JSONBytesFromString
  Value : M.JSONBytesFromTree

/-- `mj.Account`, with the fields the parser fills. -/
structure Account (M : Model) where
  Address : JSONBytesFromString
  Shard : M.JSONUint64
  Comment : String
  Nonce : M.JSONUint64
  Balance : M.JSONBigInt
  Storage : List (StorageKeyValuePair M)
  Code : JSONBytesFromString
  Owner : JSONBytesFromString
  AsyncCallData : String
  ESDTData : List M.ESDTData
  ESDTRoles : List M.ESDTRoles
  ESDTLastNonces : List M.ESDTLastNonce

/-- `mj.Account{}`: every field at its Go zero value. -/
def Account.zero (M : Model) : Account M :=
  { Address := ⟨[], ""⟩, Shard := M.zeroUint64, Comment := "", Nonce := M.zeroUint64,
    Balance := M.zeroBigInt, Storage := [], Code := ⟨[], ""⟩, Owner := ⟨[], ""⟩,
    AsyncCallData := "", ESDTData := [], ESDTRoles := [], ESDTLastNonces := [] }

/-- `mj.CheckAccount`, with the fields the writer reads. -/
structure CheckAccount (M : Model) where
  Address : JSONBytesFromString
  Comment : String
  Nonce : M.JSONCheckUint64
  Balance : M.JSONCheckBigInt
  IgnoreESDT : Bool
  CheckESDTData : List M.CheckESDTData
  IgnoreStorage : Bool
  CheckStorage : List (StorageKeyValuePair M)
  Code : M.JSONCheckBytes
  Owner : M.JSONCheckBytes
  AsyncCallData : M.JSONCheckBytes

/-- `mj.CheckAccounts`. -/
structure CheckAccounts (M : Model) where
  OtherAccountsAllowed : Bool
  Accounts : List (CheckAccount M)

/-- The second argument of `processBigInt`. -/
inductive bigIntParseFormat where
  | bigIntSignedBytes
  | bigIntUnsignedBytes
deriving DecidableEq, Repr

/-- The `Parser`: its injected `ValueInterpreter` and the field parsers that are
methods of `Parser` declared outside src/. Each returns its value or an error. -/
structure Parser (M : Model) where
  InterpretString : String → Except GoError (List Nat)
  parseString : OJsonObject → Except GoError String
  processUint64 : OJsonObject → Except GoError M.JSONUint64
  processBigInt : OJsonObject → bigIntParseFormat → Except GoError M.JSONBigInt
  processAppendESDTData :
    List Nat → OJsonObject → List M.ESDTData → Except GoError (List M.ESDTData)
  processESDTRoles : OJsonObject → Except GoError (List M.ESDTRoles)
  processESDTLastNonces : List (String × OJsonObject) → Except GoError (List M.ESDTLastNonce)
  processSubTreeAsByteArray : OJsonObject → Except GoError M.JSONBytesFromTree
  processStringAsByteArray : OJsonObject → Except GoError JSONBytesFromString

/-- `fmt.Errorf(prefix + "%w", err)`: wrap an error behind a prefix. -/
def wrapError (pre : String) (err : GoError) : GoError := ⟨pre ++ err.msg⟩

/-- `func (p *Parser) parseAccountAddress(addrRaw string)`. -/
def parseAccountAddress {M : Model} (p : Parser M) (addrRaw : String) :
    Except GoError JSONBytesFromString :=
  if addrRaw.length = 0 then
    .error ⟨"missing account address"⟩
  else
    match p.InterpretString addrRaw with
    | .ok addrBytes =>
      if addrBytes.length ≠ 32 then
        .error ⟨"account addressis not 32 bytes in length"⟩
      else
        .ok (NewJSONBytesFromString addrBytes addrRaw)
    | .error err => .error err

/-- One round of the loop over the `esdt` map in `processAccount`. -/
def processESDTEntry {M : Model} (p : Parser M) (esdtData : List M.ESDTData)
    (esdtKvp : String × OJsonObject) : Except GoError (List M.ESDTData) :=
  match p.InterpretString esdtKvp.1 with
  | .error err => .error (wrapError "invalid esdt token identifer: " err)
  | .ok tokenNameStr =>
    match p.processAppendESDTData tokenNameStr esdtKvp.2 esdtData with
    | .error err => .error (wrapError "invalid esdt value: " err)
    | .ok updated => .ok updated

/-- One round of the loop over the `storage` map in `processAccount`. -/
def processStorageEntry {M : Model} (p : Parser M) (storage : List (StorageKeyValuePair M))
    (storageKvp : String × OJsonObject) : Except GoError (List (StorageKeyValuePair M)) :=
  match p.InterpretString storageKvp.1 with
  | .error err => .error (wrapError "invalid account storage key: " err)
  | .ok byteKey =>
    match p.processSubTreeAsByteArray storageKvp.2 with
    | .error err => .error (wrapError "invalid account storage value: " err)
    | .ok byteVal =>
      .ok (storage ++ [{ Key := NewJSONBytesFromString byteKey storageKvp.1, Value := byteVal }])

/-- One round of the loop over the account's fields in `processAccount`: the
`switch kvp.Key`. -/
def processAccountField {M : Model} (p : Parser M) (acct : Account M)
    (kvp : String × OJsonObject) : Except GoError (Account M) :=
  if kvp.1 = "comment" then
    match p.parseString kvp.2 with
    | .error err => .error (wrapError "invalid account comment: " err)
    | .ok v => .ok { acct with Comment := v }
  else if kvp.1 = "shard" then
    match p.processUint64 kvp.2 with
    | .error err => .error (wrapError "invalid shard number: " err)
    | .ok v => .ok { acct with Shard := v }
  else if kvp.1 = "nonce" then
    match p.processUint64 kvp.2 with
    | .error _ => .error ⟨"invalid account nonce"⟩
    | .ok v => .ok { acct with Nonce := v }
  else if kvp.1 = "balance" then
    match p.processBigInt kvp.2 .bigIntUnsignedBytes with
    | .error _ => .error ⟨"invalid account balance"⟩
    | .ok v => .ok { acct with Balance := v }
  else if kvp.1 = "esdt" then
    match kvp.2 with
    | .OJsonMap esdtMap =>
      match esdtMap.foldlM (processESDTEntry p) acct.ESDTData with
      | .error err => .error err
      | .ok v => .ok { acct with ESDTData := v }
    | _ => .error ⟨"invalid ESDT map"⟩
  else if kvp.1 = "esdtRoles" then
    match p.processESDTRoles kvp.2 with
    | .error err => .error (wrapError "invalid esdtRoles: " err)
    | .ok v => .ok { acct with ESDTRoles := v }
  else if kvp.1 = "esdtLastNonces" then
    match kvp.2 with
    | .OJsonMap esdtMap =>
      match p.processESDTLastNonces esdtMap with
      | .error err => .error (wrapError "invalid esdtLastNonces: " err)
      | .ok v => .ok { acct with ESDTLastNonces := v }
    | _ => .error ⟨"invalid ESDT map for last nonces"⟩
  else if kvp.1 = "storage" then
    match kvp.2 with
    | .OJsonMap storageMap =>
      match storageMap.foldlM (processStorageEntry p) acct.Storage with
      | .error err => .error err
      | .ok v => .ok { acct with Storage := v }
    | _ => .error ⟨"invalid account storage"⟩
  else if kvp.1 = "code" then
    match p.processStringAsByteArray kvp.2 with
    | .error err => .error (wrapError "invalid account code: " err)
    | .ok v => .ok { acct with Code := v }
  else if kvp.1 = "owner" then
    match p.processStringAsByteArray kvp.2 with
    | .error err => .error (wrapError "invalid account owner: " err)
    | .ok v => .ok { acct with Owner := v }
  else if kvp.1 = "asyncCallData" then
    match p.parseString kvp.2 with
    | .error err => .error (wrapError "invalid asyncCallData string: " err)
    | .ok v => .ok { acct with AsyncCallData := v }
  else
    .error ⟨"unknown account field: " ++ kvp.1⟩

/-- `func (p *Parser) processAccount(acctRaw oj.OJsonObject)`. -/
def processAccount {M : Model} (p : Parser M) (acctRaw : OJsonObject) :
    Except GoError (Account M) :=
  match acctRaw with
  | .OJsonMap acctMap => acctMap.foldlM (processAccountField p) (Account.zero M)
  | _ => .error ⟨"unmarshalled account object is not a map"⟩

/-- One round of the loop in `processAccountMap`. -/
def processAccountMapEntry {M : Model} (p : Parser M) (accounts : List (Account M))
    (acctKVP : String × OJsonObject) : Except GoError (List (Account M)) :=
  match processAccount p acctKVP.2 with
  | .error acctErr => .error acctErr
  | .ok acct =>
    match parseAccountAddress p acctKVP.1 with
    | .error hexErr => .error hexErr
    | .ok acctAddr => .ok (accounts ++ [{ acct with Address := acctAddr }])

/-- `func (p *Parser) processAccountMap(acctMapRaw oj.OJsonObject)`. -/
def processAccountMap {M : Model} (p : Parser M) (acctMapRaw : OJsonObject) :
    Except GoError (List (Account M)) :=
  match acctMapRaw with
  | .OJsonMap preMap => preMap.foldlM (processAccountMapEntry p) []
  | _ => .error ⟨"unmarshalled account map object is not a map"⟩

/-- Modelled from the spec: `stringToOJ` of the write package is not under src/;
it turns a Go string into the JSON string with that value. -/
def stringToOJ (str : String) : OJsonObject := .OJsonString str

/-- The helpers of the write package, and the `IsUnspecified` methods of the
check values, that are declared outside src/. -/
structure Writer (M : Model) where
  uint64ToOJ : M.JSONUint64 → OJsonObject
  bigIntToOJ : M.JSONBigInt → OJsonObject
  appendESDTToOJ : List M.ESDTData → List (String × OJsonObject) → List (String × OJsonObject)
  esdtRolesToMapOJ : List M.ESDTRoles → OJsonObject
  esdtLastNoncesToMapOJ : List M.ESDTLastNonce → OJsonObject
  bytesFromStringToString : JSONBytesFromString → String
  bytesFromTreeToOJ : M.JSONBytesFromTree → OJsonObject
  bytesFromStringToOJ : JSONBytesFromString → OJsonObject
  checkUint64ToOJ : M.JSONCheckUint64 → OJsonObject
  checkBigIntToOJ : M.JSONCheckBigInt → OJsonObject
  checkBytesToOJ : M.JSONCheckBytes → OJsonObject
  appendCheckESDTToOJ :
    List M.CheckESDTData → List (String × OJsonObject) → List (String × OJsonObject)
  uint64IsUnspecified : M.JSONCheckUint64 → Bool
  bigIntIsUnspecified : M.JSONCheckBigInt → Bool
  bytesIsUnspecified : M.JSONCheckBytes → Bool

/-- The `storageOJ` map built from a storage list, in both writers. -/
def storageToOJ {M : Model} (w : Writer M) (storage : List (StorageKeyValuePair M)) :
    List (String × OJsonObject) :=
  storage.foldl
    (fun storageOJ st => Put storageOJ (w.bytesFromStringToString st.Key) (w.bytesFromTreeToOJ st.Value))
    NewMap

/-- The body of the loop of `accountsToOJ`: the `acctOJ` map of one account. -/
def accountToOJ {M : Model} (w : Writer M) (account : Account M) : List (String × OJsonObject) :=
  let acctOJ := NewMap
  let acctOJ := if account.Comment.length > 0 then
      Put acctOJ "comment" (stringToOJ account.Comment) else acctOJ
  let acctOJ := Put acctOJ "nonce" (w.uint64ToOJ account.Nonce)
  let acctOJ := Put acctOJ "balance" (w.bigIntToOJ account.Balance)
  let acctOJ := w.appendESDTToOJ account.ESDTData acctOJ
  let acctOJ := if account.ESDTRoles.length > 0 then
      Put acctOJ "esdtRoles" (w.esdtRolesToMapOJ account.ESDTRoles) else acctOJ
  let acctOJ := if account.ESDTLastNonces.length > 0 then
      Put acctOJ "esdtLastNonces" (w.esdtLastNoncesToMapOJ account.ESDTLastNonces) else acctOJ
  let storageOJ := storageToOJ w account.Storage
  let acctOJ := Put acctOJ "storage" (.OJsonMap storageOJ)
  let acctOJ := Put acctOJ "code" (w.bytesFromStringToOJ account.Code)
  let acctOJ := if account.Owner.Value.length > 0 then
      Put acctOJ "owner" (w.bytesFromStringToOJ account.Owner) else acctOJ
  let acctOJ := if account.AsyncCallData.length > 0 then
      Put acctOJ "asyncCallData" (stringToOJ account.AsyncCallData) else acctOJ
  acctOJ

/-- The `acctsOJ` map of `accountsToOJ`. -/
def accountsToMap {M : Model} (w : Writer M) (accounts : List (Account M)) :
    List (String × OJsonObject) :=
  accounts.foldl
    (fun acctsOJ account =>
      Put acctsOJ (w.bytesFromStringToString account.Address) (.OJsonMap (accountToOJ w account)))
    NewMap

/-- `func accountsToOJ(accounts []*mj.Account) oj.OJsonObject`. -/
def accountsToOJ {M : Model} (w : Writer M) (accounts : List (Account M)) : OJsonObject :=
  .OJsonMap (accountsToMap w accounts)

/-- The body of the loop of `checkAccountsToOJ`: the `acctOJ` map of one check
account. -/
def checkAccountToOJ {M : Model} (w : Writer M) (checkAccount : CheckAccount M) :
    List (String × OJsonObject) :=
  let acctOJ := NewMap
  let acctOJ := if checkAccount.Comment.length > 0 then
      Put acctOJ "comment" (stringToOJ checkAccount.Comment) else acctOJ
  let acctOJ := if !w.uint64IsUnspecified checkAccount.Nonce then
      Put acctOJ "nonce" (w.checkUint64ToOJ checkAccount.Nonce) else acctOJ
  let acctOJ := if !w.bigIntIsUnspecified checkAccount.Balance then
      Put acctOJ "balance" (w.checkBigIntToOJ checkAccount.Balance) else acctOJ
  let acctOJ := if checkAccount.IgnoreESDT then
      Put acctOJ "esdt" (stringToOJ "*")
    else
      w.appendCheckESDTToOJ checkAccount.CheckESDTData acctOJ
  let acctOJ := if checkAccount.IgnoreStorage then
      Put acctOJ "storage" (stringToOJ "*")
    else
      Put acctOJ "storage" (.OJsonMap (storageToOJ w checkAccount.CheckStorage))
  let acctOJ := if !w.bytesIsUnspecified checkAccount.Code then
      Put acctOJ "code" (w.checkBytesToOJ checkAccount.Code) else acctOJ
  let acctOJ := if !w.bytesIsUnspecified checkAccount.Owner then
      Put acctOJ "owner" (w.checkBytesToOJ checkAccount.Owner) else acctOJ
  let acctOJ := if !w.bytesIsUnspecified checkAccount.AsyncCallData then
      Put acctOJ "asyncCallData" (w.checkBytesToOJ checkAccount.AsyncCallData) else acctOJ
  acctOJ

/-- The `acctsOJ` map of `checkAccountsToOJ`. -/
def checkAccountsToMap {M : Model} (w : Writer M) (checkAccounts : CheckAccounts M) :
    List (String × OJsonObject) :=
  let acctsOJ := checkAccounts.Accounts.foldl
    (fun acctsOJ checkAccount =>
      Put acctsOJ (w.bytesFromStringToString checkAccount.Address)
        (.OJsonMap (checkAccountToOJ w checkAccount)))
    NewMap
  if checkAccounts.OtherAccountsAllowed then Put acctsOJ "+" (stringToOJ "") else acctsOJ

/-- `func checkAccountsToOJ(checkAccounts *mj.CheckAccounts) oj.OJsonObject`. -/
def checkAccountsToOJ {M : Model} (w : Writer M) (checkAccounts : CheckAccounts M) :
    OJsonObject :=
  .OJsonMap (checkAccountsToMap w checkAccounts)

/-! ### Reference parser and writer

Small implementations of the injected and out-of-tree helpers, used to run the
parser and the writer on concrete documents. Numbers and check values keep the
string they were read from; a tree is kept as it is. -/

/-- A number with the string it was read from. -/
structure RefNumber where
  Value : Nat
  Original : String
deriving DecidableEq, Repr

/-- A check value with the string it was read from (empty: unspecified). -/
structure RefCheck where
  IsStar : Bool
  Original : String
deriving DecidableEq, Repr

/-- The reference model types. -/
@[reducible] def refModel : Model :=
  { JSONUint64 := RefNumber, JSONBigInt := RefNumber, JSONBytesFromTree := OJsonObject,
    ESDTData := List Nat × OJsonObject, ESDTRoles := String × OJsonObject,
    ESDTLastNonce := String × OJsonObject, JSONCheckUint64 := RefCheck,
    JSONCheckBigInt := RefCheck, JSONCheckBytes := RefCheck,
    CheckESDTData := String × OJsonObject, zeroUint64 := ⟨0, ""⟩, zeroBigInt := ⟨0, ""⟩ }

/-- Read decimal digits, most significant first. -/
def digitsToNat : List Char → Nat → Option Nat
  | [], acc => some acc
  | c :: cs, acc =>
    if 48 ≤ c.toNat ∧ c.toNat ≤ 57 then digitsToNat cs (acc * 10 + (c.toNat - 48)) else none

/-- Read a non-empty decimal numeral. -/
def parseDecimal (s : String) : Option Nat :=
  match s.data with
  | [] => none
  | cs => digitsToNat cs 0

/-- Reference value interpreter: the characters of the string as bytes; a string
starting with `!` is rejected. -/
def refInterpretString (s : String) : Except GoError (List Nat) :=
  match s.data with
  | '!' :: _ => .error ⟨"cannot interpret value"⟩
  | cs => .ok (cs.map Char.toNat)

/-- Reference number parser: a JSON string holding a decimal numeral. -/
def refProcessNumber : OJsonObject → Except GoError RefNumber
  | .OJsonString v =>
    match parseDecimal v with
    | some n => .ok ⟨n, v⟩
    | none => .error ⟨"not a number"⟩
  | _ => .error ⟨"not a string"⟩

/-- The reference parser. -/
def refParser : Parser refModel :=
  { InterpretString := refInterpretString,
    parseString := fun v =>
      match v with
      | .OJsonString str => .ok str
      | _ => .error ⟨"not a string"⟩,
    processUint64 := refProcessNumber,
    processBigInt := fun v _ => refProcessNumber v,
    processAppendESDTData := fun tokenName v items => .ok (items ++ [(tokenName, v)]),
    processESDTRoles := fun v =>
      match v with
      | .OJsonMap kv => .ok kv
      | _ => .error ⟨"not a map"⟩,
    processESDTLastNonces := fun kv => .ok kv,
    processSubTreeAsByteArray := fun v => .ok v,
    processStringAsByteArray := fun v =>
      match v with
      | .OJsonString str =>
        match refInterpretString str with
        | .ok bytes => .ok ⟨bytes, str⟩
        | .error err => .error err
      | _ => .error ⟨"not a string"⟩ }

/-- The reference writer: every value is written as the string (or tree) it was
read from; the ESDT helpers add the key `esdt` when there is something to write. -/
def refWriter : Writer refModel :=
  { uint64ToOJ := fun n => .OJsonString n.Original,
    bigIntToOJ := fun n => .OJsonString n.Original,
    appendESDTToOJ := fun items m =>
      if items.length = 0 then m
      else Put m "esdt" (.OJsonMap (items.map (fun it => (String.mk (it.1.map Char.ofNat), it.2)))),
    esdtRolesToMapOJ := fun r => .OJsonMap r,
    esdtLastNoncesToMapOJ := fun r => .OJsonMap r,
    bytesFromStringToString := fun b => b.Original,
    bytesFromTreeToOJ := fun t => t,
    bytesFromStringToOJ := fun b => .OJsonString b.Original,
    checkUint64ToOJ := fun c => .OJsonString c.Original,
    checkBigIntToOJ := fun c => .OJsonString c.Original,
    checkBytesToOJ := fun c => .OJsonString c.Original,
    appendCheckESDTToOJ := fun items m =>
      if items.length = 0 then m else Put m "esdt" (.OJsonMap items),
    uint64IsUnspecified := fun c => c.Original.length == 0,
    bigIntIsUnspecified := fun c => c.Original.length == 0,
    bytesIsUnspecified := fun c => c.Original.length == 0 }

/-- A 32-character address key. -/
def addrA : String := "aaaaaaaaaaaaaaaaaaaaaaaaaaaaaaaa"

/-- Another 32-character address key. -/
def addrB : String := "bbbbbbbbbbbbbbbbbbbbbbbbbbbbbbbb"

/-- The bytes the reference interpreter gives for `addrA`: 32 times `a`. -/
def bytesA : List Nat := List.replicate 32 97

/-- The bytes the reference interpreter gives for `addrB`: 32 times `b`. -/
def bytesB : List Nat := List.replicate 32 98

/-- A check account under `addrA`: nonce `5`, balance `*`, storage ignored, the
other check values unspecified. -/
def checkA : CheckAccount refModel :=
  { Address := ⟨bytesA, addrA⟩, Comment := "", Nonce := ⟨false, "5"⟩, Balance := ⟨true, "*"⟩,
    IgnoreESDT := false, CheckESDTData := [], IgnoreStorage := true, CheckStorage := [],
    Code := ⟨false, ""⟩, Owner := ⟨false, ""⟩, AsyncCallData := ⟨false, ""⟩ }

/-- A check account under `addrB`: ESDT ignored, and two storage entries listed
under the same key `k`. -/
def checkB : CheckAccount refModel :=
  { Address := ⟨bytesB, addrB⟩, Comment := "", Nonce := ⟨false, ""⟩, Balance := ⟨false, ""⟩,
    IgnoreESDT := true, CheckESDTData := [], IgnoreStorage := false,
    CheckStorage := [⟨⟨[107], "k"⟩, .OJsonString "1"⟩, ⟨⟨[107], "k"⟩, .OJsonString "2"⟩],
    Code := ⟨false, "0x"⟩, Owner := ⟨false, ""⟩, AsyncCallData := ⟨false, ""⟩ }

/-- A JSON value that, when it is a map, has pairwise distinct keys. -/
def distinctKeys : OJsonObject → Prop
  | .OJsonMap m => (keysOf m).Nodup
  | _ => True

/-- An accounts map with two accounts: the first with a comment, a nonce, a
balance, one storage entry and code; the second with a shard and an empty
comment. -/
def docAccounts : List (String × OJsonObject) :=
  [ (addrA, .OJsonMap [ ("comment", .OJsonString "first"), ("nonce", .OJsonString "7"),
      ("balance", .OJsonString "1000"),
      ("storage", .OJsonMap [("k1", .OJsonString "v1")]), ("code", .OJsonString "wasm") ]),
    (addrB, .OJsonMap [ ("shard", .OJsonString "1"), ("comment", .OJsonString "") ]) ]

/-- The accounts the reference parser reads from `docAccounts`. -/
def docParsed : List (Account refModel) :=
  [ { Account.zero refModel with
        Address := ⟨bytesA, addrA⟩, Comment := "first", Nonce := ⟨7, "7"⟩,
        Balance := ⟨1000, "1000"⟩,
        Storage := [⟨⟨[107, 49], "k1"⟩, .OJsonString "v1"⟩],
        Code := ⟨[119, 97, 115, 109], "wasm"⟩ },
    { Account.zero refModel with Address := ⟨bytesB, addrB⟩, Shard := ⟨1, "1"⟩ } ]

/-- How one entry of an accounts map relates to the account parsed from it. -/
def ParsedFrom {M : Model} (p : Parser M) (acctKVP : String × OJsonObject) (a : Account M) :
    Prop :=
  ∃ acct addr, processAccount p acctKVP.2 = .ok acct
    ∧ parseAccountAddress p acctKVP.1 = .ok addr
    ∧ a = { acct with Address := addr }

/-- The ordinary operations of a sequence that go to context `c`, in order. -/
def opsOf {ο : Type} (c : ContextId) (ops : List (HostOp ο)) : List ο :=
  (ops.filter (fun o => o.ctx = c)).map (fun o => o.op)

/-! ## Part II-b. Definitions: account checks (`arwenjsontest/stepCheckAccounts.go`)

A Go `map[string]V` is the list of its key/value pairs, one pair per key; a
`string` key made from a `[]byte` is that byte list. The order in which a
`range` statement visits the keys of a map is chosen by the Go runtime: each of
the four `range` statements over a map gets its order from a `RangeOrder`. -/

/-- The keys of a Go map. -/
def mapKeys {V : Type} (m : List (List Nat × V)) : List (List Nat) := m.map Prod.fst

/-- Go map lookup `m[k]`: the value and whether the key is present. -/
def mapGet {V : Type} (m : List (List Nat × V)) (k : List Nat) : Option V :=
  match m with
  | [] => none
  | kv :: rest => if kv.1 = k then some kv.2 else mapGet rest k

/-- Go map assignment `m[k] = v`: the pair for `k` is replaced or added. -/
def mapSet {V : Type} (m : List (List Nat × V)) (k : List Nat) (v : V) : List (List Nat × V) :=
  m.filter (fun kv => kv.1 ≠ k) ++ [(k, v)]

/-- For each `range` over a map in `stepCheckAccounts.go`, the order in which the
keys of the map are visited, as a rearrangement of the map's key list. -/
structure RangeOrder where
  acctMap : List (List Nat) → List (List Nat)
  expectedStorage : List (List Nat) → List (List Nat)
  storage : List (List Nat) → List (List Nat)
  allKeys : List (List Nat) → List (List Nat)

/-- What the Go runtime guarantees of a `range` over a map: every key is visited
exactly once. -/
def RangeOrder.Fair (ρ : RangeOrder) : Prop :=
  ∀ l : List (List Nat), (ρ.acctMap l).Perm l ∧ (ρ.expectedStorage l).Perm l
    ∧ (ρ.storage l).Perm l ∧ (ρ.allKeys l).Perm l

/-- `ij.JSONBytes` of the test JSON library: bytes with the string they were
read from. -/
structure ij.JSONBytes where
  Value : List Nat
  Original : String
deriving DecidableEq, Repr

/-- `ij.StorageKeyValuePair`. -/
structure ij.StorageKeyValuePair where
  Key : ij.JSONBytes
  Value : ij.JSONBytes
deriving DecidableEq, Repr

/-- `ij.CheckAccount`, with the fields `checkAccounts` reads. `N` and `B` are the
types of the nonce and balance conditions. -/
structure ij.CheckAccount (N B : Type) where
  Address : ij.JSONBytes
  Nonce : N
  Balance : B
  Storage : List ij.StorageKeyValuePair
  Code : ij.JSONBytes
  AsyncCallData : String

/-- `worldhook.Account`, with the fields `checkAccounts` reads. -/
structure worldhook.Account where
  Address : List Nat
  Nonce : Nat
  Balance : Int
  Storage : List (List Nat × List Nat)
  Code : List Nat
  AsyncCallData : String

/-- `worldhook.BlockchainHookMock`: its account map. -/
structure worldhook.BlockchainHookMock where
  AcctMap : List (List Nat × worldhook.Account)

/-- The functions of the test JSON library, of the mock blockchain hook and of
the formatting helpers that `stepCheckAccounts.go` calls and that are declared
outside src/. -/
structure TestLib (N B : Type) where
  FindCheckAccount : List (ij.CheckAccount N B) → List Nat → Option (ij.CheckAccount N B)
  StorageValue : worldhook.Account → List Nat → List Nat
  nonceCheck : N → Nat → Bool
  nonceOriginal : N → String
  balanceCheck : B → Int → Bool
  balanceOriginal : B → String
  hexEncodeToString : List Nat → String
  bigIntPretty : Int → String
  byteArrayPretty : List Nat → String
  fmtCheckBytes : ij.JSONBytes → String
  fmtBytes : List Nat → String

/-- The map `expectedStorage` built by the first loop of `checkAccountStorage`. -/
def expectedStorageOf (storage : List ij.StorageKeyValuePair) : List (List Nat × List Nat) :=
  storage.foldl (fun expectedStorage stkvp => mapSet expectedStorage stkvp.Key.Value stkvp.Value.Value)
    []

/-- The set `allKeys` built by the second and third loops of
`checkAccountStorage`. -/
def allKeysOf (ρ : RangeOrder) (expectedStorage storage : List (List Nat × List Nat)) :
    List (List Nat × Bool) :=
  let allKeys := (ρ.expectedStorage (mapKeys expectedStorage)).foldl
    (fun allKeys k => mapSet allKeys k true) []
  (ρ.storage (mapKeys storage)).foldl (fun allKeys k => mapSet allKeys k true) allKeys

/-- One round of the last loop of `checkAccountStorage`. -/
def storageErrorStep {N B : Type} (lib : TestLib N B)
    (expectedStorage : List (List Nat × List Nat)) (matchingAcct : worldhook.Account)
    (storageError : String) (k : List Nat) : String :=
  let want := (mapGet expectedStorage k).getD []
  let have_ := lib.StorageValue matchingAcct k
  if want ≠ have_ then
    storageError ++ ("\n  for key " ++ lib.byteArrayPretty k ++ ": Want: "
      ++ lib.byteArrayPretty want ++ ". Have: " ++ lib.byteArrayPretty have_)
  else storageError

/-- `func checkAccountStorage(expectedAcct, matchingAcct) error`; `none` is
nil. -/
def checkAccountStorage {N B : Type} (lib : TestLib N B) (ρ : RangeOrder)
    (expectedAcct : ij.CheckAccount N B) (matchingAcct : worldhook.Account) : Option GoError :=
  let expectedStorage := expectedStorageOf expectedAcct.Storage
  let allKeys := allKeysOf ρ expectedStorage matchingAcct.Storage
  let storageError := (ρ.allKeys (mapKeys allKeys)).foldl
    (storageErrorStep lib expectedStorage matchingAcct) ""
  if storageError.length > 0 then
    some ⟨"wrong account storage for account 0x" ++ expectedAcct.Address.Original ++ ":"
      ++ storageError⟩
  else none

/-- The body of the first loop of `checkAccounts`. -/
def checkWorldAccount {N B : Type} (lib : TestLib N B)
    (expectedAccounts : List (ij.CheckAccount N B)) (worldAcctAddr : List Nat) :
    Option GoError :=
  match lib.FindCheckAccount expectedAccounts worldAcctAddr with
  | none => some ⟨"unexpected account address: " ++ lib.hexEncodeToString worldAcctAddr⟩
  | some _ => none

/-- The body of the second loop of `checkAccounts`. -/
def checkExpectedAccount {N B : Type} (lib : TestLib N B) (ρ : RangeOrder)
    (world : worldhook.BlockchainHookMock) (expectedAcct : ij.CheckAccount N B) :
    Option GoError :=
  match mapGet world.AcctMap expectedAcct.Address.Value with
  | none =>
    some ⟨"account " ++ lib.hexEncodeToString expectedAcct.Address.Value
      ++ " expected but not found after running test"⟩
  | some matchingAcct =>
    if matchingAcct.Address ≠ expectedAcct.Address.Value then
      some ⟨"bad account address " ++ lib.hexEncodeToString matchingAcct.Address⟩
    else if !lib.nonceCheck expectedAcct.Nonce matchingAcct.Nonce then
      some ⟨"bad account nonce. Account: " ++ lib.hexEncodeToString matchingAcct.Address
        ++ ". Want: " ++ lib.nonceOriginal expectedAcct.Nonce
        ++ ". Have: " ++ toString matchingAcct.Nonce⟩
    else if !lib.balanceCheck expectedAcct.Balance matchingAcct.Balance then
      some ⟨"bad account balance. Account: " ++ lib.hexEncodeToString matchingAcct.Address
        ++ ". Want: " ++ lib.balanceOriginal expectedAcct.Balance
        ++ ". Have: " ++ lib.bigIntPretty matchingAcct.Balance⟩
    else if expectedAcct.Code.Value ≠ matchingAcct.Code then
      some ⟨"bad account code. Account: " ++ lib.hexEncodeToString matchingAcct.Address
        ++ ". Want: [" ++ lib.fmtCheckBytes expectedAcct.Code
        ++ "]. Have: [" ++ lib.fmtBytes matchingAcct.Code ++ "]"⟩
    else if matchingAcct.AsyncCallData ≠ expectedAcct.AsyncCallData then
      some ⟨"bad async call data. Account: " ++ lib.hexEncodeToString matchingAcct.Address
        ++ ". Want: [" ++ expectedAcct.AsyncCallData
        ++ "]. Have: [" ++ matchingAcct.AsyncCallData ++ "]"⟩
    else
      checkAccountStorage lib ρ expectedAcct matchingAcct

/-- `func checkAccounts(expectedAccounts, world) error`; `none` is nil. Each
loop returns the first error it meets. -/
def checkAccounts {N B : Type} (lib : TestLib N B) (ρ : RangeOrder)
    (expectedAccounts : List (ij.CheckAccount N B)) (world : worldhook.BlockchainHookMock) :
    Option GoError :=
  match (ρ.acctMap (mapKeys world.AcctMap)).findSome? (checkWorldAccount lib expectedAccounts) with
  | some err => some err
  | none => expectedAccounts.findSome? (checkExpectedAccount lib ρ world)

/-- The value `checkAccountStorage` expects under a key: the value of the last
expected entry listed under the key, and empty when none is. -/
def expectedValue (storage : List ij.StorageKeyValuePair) (k : List Nat) : List Nat :=
  match storage.reverse.find? (fun stkvp => stkvp.Key.Value = k) with
  | some stkvp => stkvp.Value.Value
  | none => []

/-- The range order that visits the keys as they are listed. -/
def listedOrder : RangeOrder := ⟨id, id, id, id⟩

/-- The range order that visits the keys in reverse. -/
def reversedOrder : RangeOrder := ⟨List.reverse, List.reverse, List.reverse, List.reverse⟩

/-- A condition on a number: any value (`*`) or one value. -/
structure RefCondition where
  IsStar : Bool
  Value : Nat
  Original : String
deriving DecidableEq, Repr

/-- Reference test library: an account is found by its address, an absent
storage key reads as empty, a condition holds for any value when it is a star
and else for its own value. Texts are rendered by length only. -/
def refLib : TestLib RefCondition RefCondition :=
  { FindCheckAccount := fun accounts address =>
      accounts.find? (fun acct => acct.Address.Value = address),
    StorageValue := fun acct key => (mapGet acct.Storage key).getD [],
    nonceCheck := fun c other => c.IsStar || c.Value == other,
    nonceOriginal := fun c => c.Original,
    balanceCheck := fun c other => c.IsStar || (c.Value : Int) == other,
    balanceOriginal := fun c => c.Original,
    hexEncodeToString := fun b => toString b.length,
    bigIntPretty := fun i => toString i,
    byteArrayPretty := fun b => toString b.length,
    fmtCheckBytes := fun b => b.Original,
    fmtBytes := fun b => toString b.length }

/-- An expected account at address `[1]`: any nonce, balance 10, key `[7]`
listed twice (the second value, `[3]`, counts) and key `[8]` expected empty. -/
def expectedOne : ij.CheckAccount RefCondition RefCondition :=
  { Address := ⟨[1], "0x01"⟩, Nonce := ⟨true, 0, "*"⟩, Balance := ⟨false, 10, "10"⟩,
    Storage := [⟨⟨[7], "0x07"⟩, ⟨[2], "0x02"⟩⟩, ⟨⟨[7], "0x07"⟩, ⟨[3], "0x03"⟩⟩,
      ⟨⟨[8], "0x08"⟩, ⟨[], ""⟩⟩],
    Code := ⟨[], ""⟩, AsyncCallData := "" }

/-- A world account at address `[1]` that meets `expectedOne`. -/
def worldOne : worldhook.Account :=
  { Address := [1], Nonce := 4, Balance := 10, Storage := [([7], [3])], Code := [],
    AsyncCallData := "" }

/-- A world account at address `[2, 2]`. -/
def worldTwo : worldhook.Account :=
  { Address := [2, 2], Nonce := 0, Balance := 0, Storage := [], Code := [], AsyncCallData := "" }

/-- A world that holds `worldOne` only. -/
def worldSingle : worldhook.BlockchainHookMock := ⟨[([1], worldOne)]⟩

/-- A world that holds `worldOne` and `worldTwo`. -/
def worldBoth : worldhook.BlockchainHookMock := ⟨[([1], worldOne), ([2, 2], worldTwo)]⟩

/-! ### Vocabulary of the parser claims -/

/-- The field keys `processAccount` has a `case` for. -/
def accountFieldKeys : List String :=
  ["comment", "shard", "nonce", "balance", "esdt", "esdtRoles", "esdtLastNonces", "storage",
    "code", "owner", "asyncCallData"]

/-- A JSON value that is not a map. -/
def notMap (v : OJsonObject) : Prop := ∀ m, v ≠ .OJsonMap m

/-- The value of a recognized key fails its field parser, `acct` being the
account filled so far: the parser called for the key rejects the value; for
`esdt`, `esdtLastNonces` and `storage` the value is not a map, or the parser
called with the map rejects it, or (for `esdt` and `storage`) the loop over the
entries of the map, started from what `acct` holds, ends in an error. -/
def fieldParserFails {M : Model} (p : Parser M) (acct : Account M)
    (kvp : String × OJsonObject) : Prop :=
  (kvp.1 = "comment" ∧ ∃ e, p.parseString kvp.2 = .error e)
  ∨ (kvp.1 = "shard" ∧ ∃ e, p.processUint64 kvp.2 = .error e)
  ∨ (kvp.1 = "nonce" ∧ ∃ e, p.processUint64 kvp.2 = .error e)
  ∨ (kvp.1 = "balance" ∧ ∃ e, p.processBigInt kvp.2 .bigIntUnsignedBytes = .error e)
  ∨ (kvp.1 = "esdt" ∧ (notMap kvp.2 ∨ ∃ m, kvp.2 = .OJsonMap m
      ∧ ∃ e, m.foldlM (processESDTEntry p) acct.ESDTData = .error e))
  ∨ (kvp.1 = "esdtRoles" ∧ ∃ e, p.processESDTRoles kvp.2 = .error e)
  ∨ (kvp.1 = "esdtLastNonces" ∧ (notMap kvp.2 ∨ ∃ m, kvp.2 = .OJsonMap m
      ∧ ∃ e, p.processESDTLastNonces m = .error e))
  ∨ (kvp.1 = "storage" ∧ (notMap kvp.2 ∨ ∃ m, kvp.2 = .OJsonMap m
      ∧ ∃ e, m.foldlM (processStorageEntry p) acct.Storage = .error e))
  ∨ (kvp.1 = "code" ∧ ∃ e, p.processStringAsByteArray kvp.2 = .error e)
  ∨ (kvp.1 = "owner" ∧ ∃ e, p.processStringAsByteArray kvp.2 = .error e)
  ∨ (kvp.1 = "asyncCallData" ∧ ∃ e, p.parseString kvp.2 = .error e)

/-- An error of the `default` case of `processAccount`. -/
def isUnknownFieldError (e : GoError) : Prop :=
  ∃ key : String, e = ⟨"unknown account field: " ++ key⟩

/-- The order in which `accountsToOJ` writes the fields of an account. -/
def canonicalOrder : List String :=
  ["comment", "nonce", "balance", "esdt", "esdtRoles", "esdtLastNonces", "storage", "code",
    "owner", "asyncCallData"]

/-- An error whose message starts with `invalid`: the errors `processAccount`
returns from the `case` of a recognized key. -/
def isInvalidFieldError (e : GoError) : Prop :=
  ∃ rest : String, e.msg = "invalid" ++ rest

/-- A sample account: a comment, two storage entries, an owner. -/
def sampleAccount : Account refModel :=
  { Account.zero refModel with
      Address := ⟨bytesA, addrA⟩, Comment := "first", Nonce := ⟨7, "7"⟩,
      Balance := ⟨1000, "1000"⟩,
      Storage := [⟨⟨[107, 49], "k1"⟩, .OJsonString "v1"⟩, ⟨⟨[107, 50], "k2"⟩, .OJsonString "v2"⟩],
      Code := ⟨[119, 97, 115, 109], "wasm"⟩, Owner := ⟨[111], "o"⟩ }

/-! ### Observing the calls a host method makes -/

/-- Execute one statement and note it in a log of the statements executed. -/
def Stmt.execLogged {σ ο : Type} (C : Contexts σ ο) (st : vmHost σ × List Stmt) (s : Stmt) :
    vmHost σ × List Stmt :=
  (s.exec C st.1, st.2 ++ [s])

/-- Execute a straight-line body statement by statement, returning the host it
leaves and the statements executed, in order. -/
def runBodyLogged {σ ο : Type} (C : Contexts σ ο) (body : List Stmt) (host : vmHost σ) :
    vmHost σ × List Stmt :=
  body.foldl (Stmt.execLogged C) (host, [])

/-- Contexts that do nothing but record the methods invoked on them: the state
of a context is the list of the methods it has been called with. -/
def recordingContexts : Contexts (List Method) Unit where
  method := fun _ m calls => calls ++ [m]
  apply := fun _ _ calls => calls

/-- A host of recording contexts on which nothing has been invoked yet. -/
def recordingHost : vmHost (List Method) :=
  { ethInput := some [1], blockchainContext := [], runtimeContext := [], outputContext := [],
    meteringContext := [], storageContext := [], bigIntContext := [] }

/-! ## Part III. Theorems -/

/-! ### The state stack -/

theorem context_update {σ : Type} (host : vmHost σ) (c d : ContextId) (f : σ → σ) :
    (host.update c f).context d = if d = c then f (host.context c) else host.context d := by
  cases c <;> cases d <;> simp [vmHost.update, vmHost.context]

theorem ethInput_update {σ : Type} (host : vmHost σ) (c : ContextId) (f : σ → σ) :
    (host.update c f).ethInput = host.ethInput := by
  cases c <;> rfl

theorem context_runOps {σ ο : Type} (C : Contexts σ ο) (c : ContextId) (ops : List (HostOp ο))
    (host : vmHost σ) :
    (runOps C ops host).context c
      = (opsOf c ops).foldl (fun t o => C.apply c o t) (host.context c) := by
  induction ops generalizing host with
  | nil => rfl
  | cons o rest ih =>
    have step : runOps C (o :: rest) host = runOps C rest (HostOp.run C host o) := rfl
    rw [step, ih, HostOp.run, context_update]
    by_cases hc : o.ctx = c
    · subst hc
      simp [opsOf]
    · have hc2 : ¬ c = o.ctx := fun h => hc h.symm
      simp [opsOf, hc, hc2]

theorem ethInput_runOps {σ ο : Type} (C : Contexts σ ο) (ops : List (HostOp ο))
    (host : vmHost σ) : (runOps C ops host).ethInput = host.ethInput := by
  induction ops generalizing host with
  | nil => rfl
  | cons o rest ih =>
    have step : runOps C (o :: rest) host = runOps C rest (HostOp.run C host o) := rfl
    rw [step, ih, HostOp.run, ethInput_update]

theorem snap_foldl_set (ops : List Nat) (s : SnapCtx) :
    (ops.foldl (fun t v => SnapCtx.apply t (.set v)) s).stateStack = s.stateStack
      ∧ (ops.foldl (fun t v => SnapCtx.apply t (.set v)) s).instanceStack = s.instanceStack := by
  induction ops generalizing s with
  | nil => exact ⟨rfl, rfl⟩
  | cons v rest ih =>
    have h := ih (SnapCtx.apply s (.set v))
    simpa [SnapCtx.apply] using h

theorem snapContexts_restores (c : ContextId) : Restores snapContexts c := by
  intro s ops
  have h := snap_foldl_set ops (s.method .PushState)
  simp only [snapContexts]
  generalize List.foldl (fun t v => SnapCtx.apply t (.set v)) (s.method .PushState) ops = t at h
  obtain ⟨h1, h2⟩ := h
  cases t with
  | mk cur st inst =>
    cases s with
    | mk c0 st0 inst0 =>
      simp only [SnapCtx.method] at h1 h2
      subst h1
      subst h2
      rfl

/-- C1 (as amended). For every host, every implementation of the contexts and
every sequence of context operations, `PushState; ops; PopState` gives back the
big-int, runtime, output and storage contexts exactly as they were before
`PushState`, provided each of these four restores itself over its own
push/pop pair. The metering and blockchain contexts are not part of the state
stack: they end as `ops` alone leaves them, and `ethInput` is untouched. -/
theorem pushState_ops_popState_restores_snapshot_contexts {σ ο : Type} (C : Contexts σ ο)
    (host : vmHost σ) (ops : List (HostOp ο))
    (hBigInt : Restores C .bigInt) (hRuntime : Restores C .runtime)
    (hOutput : Restores C .output) (hStorage : Restores C .storage) :
    (vmHost.PopState C (runOps C ops (vmHost.PushState C host))).bigIntContext
        = host.bigIntContext
    ∧ (vmHost.PopState C (runOps C ops (vmHost.PushState C host))).runtimeContext
        = host.runtimeContext
    ∧ (vmHost.PopState C (runOps C ops (vmHost.PushState C host))).outputContext
        = host.outputContext
    ∧ (vmHost.PopState C (runOps C ops (vmHost.PushState C host))).storageContext
        = host.storageContext
    ∧ (vmHost.PopState C (runOps C ops (vmHost.PushState C host))).meteringContext
        = (runOps C ops host).meteringContext
    ∧ (vmHost.PopState C (runOps C ops (vmHost.PushState C host))).blockchainContext
        = (runOps C ops host).blockchainContext
    ∧ (vmHost.PopState C (runOps C ops (vmHost.PushState C host))).ethInput
        = host.ethInput := by
  have hpop : ∀ X : vmHost σ, vmHost.PopState C X =
      { ethInput := X.ethInput, blockchainContext := X.blockchainContext,
        runtimeContext := C.method .runtime .PopState X.runtimeContext,
        outputContext := C.method .output .PopState X.outputContext,
        meteringContext := X.meteringContext,
        storageContext := C.method .storage .PopState X.storageContext,
        bigIntContext := C.method .bigInt .PopState X.bigIntContext } := fun _ => rfl
  have hpush : vmHost.PushState C host =
      { ethInput := host.ethInput, blockchainContext := host.blockchainContext,
        runtimeContext := C.method .runtime .PushState host.runtimeContext,
        outputContext := C.method .output .PushState host.outputContext,
        meteringContext := host.meteringContext,
        storageContext := C.method .storage .PushState host.storageContext,
        bigIntContext := C.method .bigInt .PushState host.bigIntContext } := rfl
  have hb := context_runOps C .bigInt ops (vmHost.PushState C host)
  have hr := context_runOps C .runtime ops (vmHost.PushState C host)
  have ho := context_runOps C .output ops (vmHost.PushState C host)
  have hs := context_runOps C .storage ops (vmHost.PushState C host)
  have hm := context_runOps C .metering ops (vmHost.PushState C host)
  have hk := context_runOps C .blockchain ops (vmHost.PushState C host)
  have hm0 := context_runOps C .metering ops host
  have hk0 := context_runOps C .blockchain ops host
  have he := ethInput_runOps C ops (vmHost.PushState C host)
  simp only [vmHost.context] at hb hr ho hs hm hk hm0 hk0
  rw [hpop]
  simp only []
  rw [hb, hr, ho, hs, hm, hk, hm0, hk0, he, hpush]
  exact ⟨hBigInt _ _, hRuntime _ _, hOutput _ _, hStorage _ _, rfl, rfl, rfl⟩

/-- C1, witness: the reference contexts, a host holding 1 everywhere, and
operations that overwrite the big-int, metering and storage values. -/
theorem pushState_ops_popState_restores_snapshot_contexts_witness :
    (vmHost.PopState snapContexts (runOps snapContexts [⟨.bigInt, 9⟩, ⟨.metering, 7⟩, ⟨.storage, 4⟩]
        (vmHost.PushState snapContexts (snapHost 1)))).bigIntContext = (snapHost 1).bigIntContext
    ∧ (vmHost.PopState snapContexts (runOps snapContexts [⟨.bigInt, 9⟩, ⟨.metering, 7⟩, ⟨.storage, 4⟩]
        (vmHost.PushState snapContexts (snapHost 1)))).storageContext = (snapHost 1).storageContext :=
  have h := pushState_ops_popState_restores_snapshot_contexts snapContexts (snapHost 1)
    [⟨.bigInt, 9⟩, ⟨.metering, 7⟩, ⟨.storage, 4⟩]
    (snapContexts_restores .bigInt) (snapContexts_restores .runtime)
    (snapContexts_restores .output) (snapContexts_restores .storage)
  ⟨h.1, h.2.2.2.1⟩

/-- C1, counterexample to the claim as stated: every reference context restores
itself over its own push/pop pair, yet after `PushState`, one metering
operation, `PopState`, the metering context holds 7 where it held 1: the host's
`PushState`/`PopState` never reach the metering context. -/
theorem pushState_popState_does_not_restore_metering :
    (∀ c, Restores snapContexts c)
    ∧ (vmHost.PopState snapContexts (runOps snapContexts [⟨.metering, 7⟩]
        (vmHost.PushState snapContexts (snapHost 1)))).meteringContext = ⟨7, [], []⟩
    ∧ (snapHost 1).meteringContext = ⟨1, [], []⟩
    ∧ (vmHost.PopState snapContexts (runOps snapContexts [⟨.metering, 7⟩]
        (vmHost.PushState snapContexts (snapHost 1)))).meteringContext
        ≠ (snapHost 1).meteringContext :=
  ⟨snapContexts_restores, rfl, rfl, by decide⟩

/-- C2. For every host and every implementation of the contexts,
`host.PushState` invokes `PushState` exactly once on each of the big-int,
runtime, output and storage contexts and invokes nothing on any other context:
it leaves the host with exactly these four contexts replaced by the result of
their `PushState`, its logged run makes the four calls big-int, runtime, output,
storage and no other, and on recording contexts each of the four records the
single call `PushState` while metering and blockchain record none.
`host.PopState` does the same with `PopState`, on the same four contexts, and
visits them in the same order as `PushState` (or in the exact reverse). -/
theorem pushState_popState_fan_out_symmetric {σ ο : Type} (C : Contexts σ ο)
    (host : vmHost σ) :
    vmHost.PushState C host
      = { ethInput := host.ethInput,
          blockchainContext := host.blockchainContext,
          runtimeContext := C.method .runtime .PushState host.runtimeContext,
          outputContext := C.method .output .PushState host.outputContext,
          meteringContext := host.meteringContext,
          storageContext := C.method .storage .PushState host.storageContext,
          bigIntContext := C.method .bigInt .PushState host.bigIntContext }
    ∧ vmHost.PopState C host
      = { ethInput := host.ethInput,
          blockchainContext := host.blockchainContext,
          runtimeContext := C.method .runtime .PopState host.runtimeContext,
          outputContext := C.method .output .PopState host.outputContext,
          meteringContext := host.meteringContext,
          storageContext := C.method .storage .PopState host.storageContext,
          bigIntContext := C.method .bigInt .PopState host.bigIntContext }
    ∧ runBodyLogged C vmHost.PushStateBody host
      = (vmHost.PushState C host,
          [.call .bigInt .PushState, .call .runtime .PushState, .call .output .PushState,
            .call .storage .PushState])
    ∧ runBodyLogged C vmHost.PopStateBody host
      = (vmHost.PopState C host,
          [.call .bigInt .PopState, .call .runtime .PopState, .call .output .PopState,
            .call .storage .PopState])
    ∧ vmHost.PushState recordingContexts recordingHost
      = { ethInput := some [1], blockchainContext := [], runtimeContext := [.PushState],
          outputContext := [.PushState], meteringContext := [],
          storageContext := [.PushState], bigIntContext := [.PushState] }
    ∧ vmHost.PopState recordingContexts recordingHost
      = { ethInput := some [1], blockchainContext := [], runtimeContext := [.PopState],
          outputContext := [.PopState], meteringContext := [],
          storageContext := [.PopState], bigIntContext := [.PopState] }
    ∧ (∀ c : ContextId, ((runBodyLogged C vmHost.PushStateBody host).2).count
          (.call c .PushState) = if c ∈ snapshotContexts then 1 else 0)
    ∧ ((runBodyLogged C vmHost.PushStateBody host).2).all
          (fun st => st.calledMethod == some .PushState) = true
    ∧ (∀ c : ContextId, ((runBodyLogged C vmHost.PopStateBody host).2).count
          (.call c .PopState) = if c ∈ snapshotContexts then 1 else 0)
    ∧ ((runBodyLogged C vmHost.PopStateBody host).2).all
          (fun st => st.calledMethod == some .PopState) = true
    ∧ (((runBodyLogged C vmHost.PopStateBody host).2).map Stmt.target
          = ((runBodyLogged C vmHost.PushStateBody host).2).map Stmt.target
        ∨ ((runBodyLogged C vmHost.PopStateBody host).2).map Stmt.target
          = (((runBodyLogged C vmHost.PushStateBody host).2).map Stmt.target).reverse)
    ∧ (∀ c : ContextId, vmHost.PushStateBody.count (.call c .PushState)
        = if c ∈ snapshotContexts then 1 else 0)
    ∧ vmHost.PushStateBody.all (fun st => st.calledMethod == some .PushState) = true
    ∧ vmHost.PushStateBody.length = 4
    ∧ (∀ c : ContextId, vmHost.PopStateBody.count (.call c .PopState)
        = if c ∈ snapshotContexts then 1 else 0)
    ∧ vmHost.PopStateBody.all (fun st => st.calledMethod == some .PopState) = true
    ∧ vmHost.PopStateBody.length = 4
    ∧ (vmHost.PopStateBody.map Stmt.target = vmHost.PushStateBody.map Stmt.target
        ∨ vmHost.PopStateBody.map Stmt.target
            = (vmHost.PushStateBody.map Stmt.target).reverse) := by
  have hpush : runBodyLogged C vmHost.PushStateBody host
      = (vmHost.PushState C host,
          [.call .bigInt .PushState, .call .runtime .PushState, .call .output .PushState,
            .call .storage .PushState]) := rfl
  have hpop : runBodyLogged C vmHost.PopStateBody host
      = (vmHost.PopState C host,
          [.call .bigInt .PopState, .call .runtime .PopState, .call .output .PopState,
            .call .storage .PopState]) := rfl
  have hcountPush : ∀ c : ContextId, vmHost.PushStateBody.count (.call c .PushState)
      = if c ∈ snapshotContexts then 1 else 0 := by
    intro c
    cases c <;> decide
  have hcountPop : ∀ c : ContextId, vmHost.PopStateBody.count (.call c .PopState)
      = if c ∈ snapshotContexts then 1 else 0 := by
    intro c
    cases c <;> decide
  refine ⟨rfl, rfl, hpush, hpop, rfl, rfl, ?_, ?_, ?_, ?_, ?_, hcountPush, by decide, rfl,
    hcountPop, by decide, rfl, Or.inl (by decide)⟩
  · rw [hpush]
    exact hcountPush
  · rw [hpush]
    rfl
  · rw [hpop]
    exact hcountPop
  · rw [hpop]
    rfl
  · rw [hpush, hpop]
    exact Or.inl rfl

/-- C3. `host.ClearStateStack` calls `ClearStateStack` exactly once on each of
the big-int, runtime, output and storage contexts, `ClearInstanceStack` exactly
once on the runtime context, and nothing else (no `InitState`, `PushState` or
`PopState` on any context). Hence, for context implementations whose
`ClearStateStack` empties their snapshot stack and whose `ClearInstanceStack`
empties the instance stack and leaves the snapshot stack alone, after
`host.ClearStateStack` the snapshot stacks of the four contexts and the
runtime's instance stack are empty, whatever the host state was. -/
theorem clearStateStack_empties_all_stacks {σ ο : Type} (C : Contexts σ ο)
    (stateDepth instanceDepth : σ → Nat) (host : vmHost σ)
    (hClear : ∀ c ∈ snapshotContexts, ∀ s, stateDepth (C.method c .ClearStateStack s) = 0)
    (hInst : ∀ s, instanceDepth (C.method .runtime .ClearInstanceStack s) = 0)
    (hKeep : ∀ s, stateDepth (C.method .runtime .ClearInstanceStack s) = stateDepth s) :
    (∀ c : ContextId, vmHost.ClearStateStackBody.count (.call c .ClearStateStack)
        = if c ∈ snapshotContexts then 1 else 0)
    ∧ vmHost.ClearStateStackBody.count (.call .runtime .ClearInstanceStack) = 1
    ∧ vmHost.ClearStateStackBody.length = 5
    ∧ (∀ c : ContextId, ∀ m ∈ [Method.InitState, Method.PushState, Method.PopState],
        Stmt.call c m ∉ vmHost.ClearStateStackBody)
    ∧ (∀ c ∈ snapshotContexts, stateDepth ((vmHost.ClearStateStack C host).context c) = 0)
    ∧ instanceDepth (vmHost.ClearStateStack C host).runtimeContext = 0 := by
  have hrun : vmHost.ClearStateStack C host =
      { ethInput := host.ethInput, blockchainContext := host.blockchainContext,
        runtimeContext := C.method .runtime .ClearInstanceStack
          (C.method .runtime .ClearStateStack host.runtimeContext),
        outputContext := C.method .output .ClearStateStack host.outputContext,
        meteringContext := host.meteringContext,
        storageContext := C.method .storage .ClearStateStack host.storageContext,
        bigIntContext := C.method .bigInt .ClearStateStack host.bigIntContext } := rfl
  refine ⟨?_, by decide, rfl, ?_, ?_, ?_⟩
  · intro c
    cases c <;> decide
  · intro c m hm
    cases c <;> revert m <;> decide
  · intro c hc
    rw [hrun]
    simp only [snapshotContexts, List.mem_cons, List.mem_singleton, List.not_mem_nil,
      or_false] at hc
    rcases hc with rfl | rfl | rfl | rfl
    · exact hClear .bigInt (by decide) _
    · simp only [vmHost.context]
      rw [hKeep]
      exact hClear .runtime (by decide) _
    · exact hClear .output (by decide) _
    · exact hClear .storage (by decide) _
  · rw [hrun]
    exact hInst _

/-- C3, witness: the reference contexts on a host whose runtime context holds
two snapshots and two instances and whose storage context holds one snapshot. -/
theorem clearStateStack_empties_all_stacks_witness :
    (vmHost.ClearStateStack snapContextsInst
        { snapHost 0 with runtimeContext := ⟨3, [1, 2], [8, 9]⟩,
                          storageContext := ⟨5, [4], []⟩ }).runtimeContext = ⟨3, [], []⟩
    ∧ (∀ c ∈ snapshotContexts, List.length (SnapCtx.stateStack
        ((vmHost.ClearStateStack snapContextsInst
          { snapHost 0 with runtimeContext := ⟨3, [1, 2], [8, 9]⟩,
                            storageContext := ⟨5, [4], []⟩ }).context c)) = 0) :=
  ⟨rfl, (clearStateStack_empties_all_stacks snapContextsInst
      (fun s => s.stateStack.length) (fun s => s.instanceStack.length)
      { snapHost 0 with runtimeContext := ⟨3, [1, 2], [8, 9]⟩, storageContext := ⟨5, [4], []⟩ }
      (fun _ _ _ => rfl) (fun _ => rfl) (fun _ => rfl)).2.2.2.2.1⟩

/-! ### The entry points -/

theorem tryCatch_closures {ι η : Type} (work : InnerWork ι η) (input : ι) (msg : String)
    (host : η) :
    returnResults (TryCatch (tryClosure work input) catchClosure msg (⟨none, none⟩, host))
      = .returned ⟨(work input host).output, (owedToCatch msg (work input host)).head?⟩
          (work input host).state := by
  unfold TryCatch tryClosure
  cases h : work input host with
  | returned out h1 => rfl
  | panicked v h1 => cases v <;> rfl

/-- C4. For every call input, `RunSmartContractCall` runs exactly one inner
path, exactly once: with both paths instrumented by a log, the log grows by the
single entry `upgrade` when `input.Function` equals `UpgradeFunctionName` and by
the single entry `call` otherwise; the host is left as that one run left it; the
entry point returns, and the `vmOutput` it returns is the one the path that ran
handed back (nil when that path panicked). -/
theorem runSmartContractCall_runs_one_path_once {η : Type} (UpgradeFunctionName : String)
    (doRunSmartContractUpgrade doRunSmartContractCall : InnerWork ContractCallInput η)
    (input : ContractCallInput) (host : η) (log : List Path) :
    (RunSmartContractCall UpgradeFunctionName (logged .upgrade doRunSmartContractUpgrade)
        (logged .call doRunSmartContractCall) input (host, log)).state
      = ((if input.Function = UpgradeFunctionName then doRunSmartContractUpgrade input host
            else doRunSmartContractCall input host).state,
         log ++ [if input.Function = UpgradeFunctionName then Path.upgrade else Path.call])
    ∧ ((RunSmartContractCall UpgradeFunctionName (logged .upgrade doRunSmartContractUpgrade)
        (logged .call doRunSmartContractCall) input (host, log)).value).map Results.vmOutput
      = some (if input.Function = UpgradeFunctionName then doRunSmartContractUpgrade input host
            else doRunSmartContractCall input host).output := by
  unfold RunSmartContractCall
  by_cases hf : input.Function = UpgradeFunctionName
  · simp only [hf, beq_self_eq_true, if_true, tryCatch_closures]
    simp only [logged]
    cases doRunSmartContractUpgrade input host <;> exact ⟨rfl, rfl⟩
  · have hb : (input.Function == UpgradeFunctionName) = false := by simpa using hf
    simp only [hf, hb, if_false, tryCatch_closures]
    simp only [logged, Bool.false_eq_true, if_false]
    cases doRunSmartContractCall input host <;> exact ⟨rfl, rfl⟩

/-- C5 (as amended). When the inner work of `RunSmartContractCreate` or of
`RunSmartContractCall` panics with a non-nil value, the entry point catches the
panic and returns: the returned `vmOutput` is nil and the returned `err` is
non-nil, namely the panic value itself when it is an error and otherwise the
error `<entry name>, panic: <value>`. Nothing is turned into `ExecutionFailed`
and no VM output is built. -/
theorem entry_points_return_nil_output_and_caught_error {ι η : Type}
    (UpgradeFunctionName : String) (doRunSmartContractCreate : InnerWork ι η)
    (doRunSmartContractUpgrade doRunSmartContractCall : InnerWork ContractCallInput η)
    (createInput : ι) (callInput : ContractCallInput) (host : η)
    (v w : PanicValue) (h1 h2 : η)
    (hCreate : doRunSmartContractCreate createInput host = .panicked v h1)
    (hv : v ≠ .nil)
    (hCall : (if callInput.Function = UpgradeFunctionName then doRunSmartContractUpgrade
        else doRunSmartContractCall) callInput host = .panicked w h2)
    (hw : w ≠ .nil) :
    RunSmartContractCreate doRunSmartContractCreate createInput host
      = .returned ⟨none, caughtError "arwen.RunSmartContractCreate" v⟩ h1
    ∧ caughtError "arwen.RunSmartContractCreate" v ≠ none
    ∧ RunSmartContractCall UpgradeFunctionName doRunSmartContractUpgrade
        doRunSmartContractCall callInput host
      = .returned ⟨none, caughtError (if callInput.Function = UpgradeFunctionName
          then "arwen.RunSmartContractUpgrade" else "arwen.RunSmartContractCall") w⟩ h2
    ∧ caughtError (if callInput.Function = UpgradeFunctionName
          then "arwen.RunSmartContractUpgrade" else "arwen.RunSmartContractCall") w ≠ none := by
  have hsome : ∀ (m : String) (x : PanicValue), x ≠ .nil → caughtError m x ≠ none := by
    intro m x hx
    cases x with
    | nil => exact absurd rfl hx
    | error e => simp [caughtError]
    | other r => simp [caughtError]
  have hhead : ∀ (m : String) (x : PanicValue),
      (Option.toList (caughtError m x)).head? = caughtError m x := by
    intro m x
    cases x <;> rfl
  refine ⟨?_, hsome _ _ hv, ?_, hsome _ _ hw⟩
  · unfold RunSmartContractCreate
    simp only [tryCatch_closures, hCreate, Outcome.output, owedToCatch, Outcome.state, hhead]
  · unfold RunSmartContractCall
    by_cases hf : callInput.Function = UpgradeFunctionName
    · simp only [hf, if_true] at hCall
      simp only [hf, beq_self_eq_true, if_true, tryCatch_closures, hCall, Outcome.output,
        owedToCatch, Outcome.state, hhead]
    · have hb : (callInput.Function == UpgradeFunctionName) = false := by simpa using hf
      simp only [hf, if_false] at hCall
      simp only [hf, hb, if_false, tryCatch_closures, hCall, Outcome.output,
        owedToCatch, Outcome.state, hhead, Bool.false_eq_true]

/-- C5, witness: a create whose inner work panics with the error `boom` and a
call (not an upgrade) whose inner work panics with the string `bad`. -/
theorem entry_points_return_nil_output_and_caught_error_witness :
    RunSmartContractCreate (panicsWith (.error ⟨"boom"⟩)) () (0 : Nat)
      = .returned ⟨none, some ⟨"boom"⟩⟩ 0
    ∧ RunSmartContractCall "upgradeContract" (returnsOutput ⟨0, "", [], 5, 0⟩)
        (panicsWith (.other "bad")) ⟨[], [], "transfer", [], 100⟩ (0 : Nat)
      = .returned ⟨none, some ⟨"arwen.RunSmartContractCall, panic: bad"⟩⟩ 0 :=
  have h := entry_points_return_nil_output_and_caught_error "upgradeContract"
    (panicsWith (.error ⟨"boom"⟩)) (returnsOutput ⟨0, "", [], 5, 0⟩)
    (panicsWith (.other "bad")) () ⟨[], [], "transfer", [], 100⟩ (0 : Nat)
    (.error ⟨"boom"⟩) (.other "bad") 0 0 rfl (by decide) rfl (by decide)
  ⟨h.1, h.2.2.1⟩

/-- C5, counterexample to the claim as stated: the inner work of a create
panics, and the entry point returns a nil `vmOutput` (so there is no VM output
whose `GasRemaining` could be zero) next to the raw panic value as `err`. -/
theorem runSmartContractCreate_panic_gives_no_vmOutput :
    (panicsWith (.error ⟨"boom"⟩) : InnerWork Unit Nat) () 0 = .panicked (.error ⟨"boom"⟩) 0
    ∧ RunSmartContractCreate (panicsWith (.error ⟨"boom"⟩)) () (0 : Nat)
      = .returned ⟨none, some ⟨"boom"⟩⟩ 0
    ∧ ¬ ∃ out : VMOutput,
        ((RunSmartContractCreate (panicsWith (.error ⟨"boom"⟩)) () (0 : Nat)).value).map
            Results.vmOutput = some (some out)
          ∧ out.GasRemaining = 0 := by
  refine ⟨rfl, rfl, ?_⟩
  rintro ⟨out, h, _⟩
  have h2 : (some none : Option (Option VMOutput)) = some (some out) := h
  cases h2

theorem owedToCatch_head_ne_none {α τ : Type} (msg : String) (o : Outcome α τ) :
    (owedToCatch msg o).head? ≠ none ↔ o.isNonNilPanic = true := by
  cases o with
  | returned a t => simp [owedToCatch, Outcome.isNonNilPanic]
  | panicked v t => cases v <;> simp [owedToCatch, caughtError, Outcome.isNonNilPanic]

/-- C6 (as amended). For every try function, catch function and fallback
message: (1) `TryCatch` calls `catch` exactly once when `try` panicked with a
non-nil value and not at all otherwise, with the panic value itself when it is
an error and else with the error `<fallback message>, panic: <value>` (the log
of the instrumented `catch` grows by exactly `owedToCatch`); (2) `TryCatch`
never propagates a panic of `try`: it panics only when `catch` was called and
itself panicked. Consequently (3) `RunSmartContractCreate` and (4)
`RunSmartContractCall` always return, with the `vmOutput` the inner work handed
back (nil if it panicked) and with an `err` that is non-nil exactly when the
inner work panicked with a non-nil value. -/
theorem tryCatch_catches_every_non_nil_panic_of_try {τ ι η : Type}
    (try_ : TryFunction τ) (catch_ : CatchFunction τ) (catchFallbackMessage : String)
    (s : τ) (log : List GoError)
    (UpgradeFunctionName : String) (doRunSmartContractCreate : InnerWork ι η)
    (doRunSmartContractUpgrade doRunSmartContractCall : InnerWork ContractCallInput η)
    (createInput : ι) (callInput : ContractCallInput) (host : η) :
    ((TryCatch (besideLog try_) (loggedCatch catch_) catchFallbackMessage (s, log)).state.2
        = log ++ owedToCatch catchFallbackMessage (try_ s)
      ∧ (owedToCatch catchFallbackMessage (try_ s)).length
        = if (try_ s).isNonNilPanic then 1 else 0)
    ∧ ((TryCatch try_ catch_ catchFallbackMessage s).isPanic = true
        ↔ ∃ e ∈ owedToCatch catchFallbackMessage (try_ s),
            (catch_ e (try_ s).state).isPanic = true)
    ∧ (RunSmartContractCreate doRunSmartContractCreate createInput host
        = .returned ⟨(doRunSmartContractCreate createInput host).output,
            (owedToCatch "arwen.RunSmartContractCreate"
              (doRunSmartContractCreate createInput host)).head?⟩
            (doRunSmartContractCreate createInput host).state
      ∧ ((owedToCatch "arwen.RunSmartContractCreate"
              (doRunSmartContractCreate createInput host)).head? ≠ none
          ↔ (doRunSmartContractCreate createInput host).isNonNilPanic = true))
    ∧ (RunSmartContractCall UpgradeFunctionName doRunSmartContractUpgrade
          doRunSmartContractCall callInput host
        = .returned ⟨((if callInput.Function = UpgradeFunctionName
              then doRunSmartContractUpgrade else doRunSmartContractCall) callInput host).output,
            (owedToCatch (if callInput.Function = UpgradeFunctionName
                then "arwen.RunSmartContractUpgrade" else "arwen.RunSmartContractCall")
              ((if callInput.Function = UpgradeFunctionName
                then doRunSmartContractUpgrade else doRunSmartContractCall)
                  callInput host)).head?⟩
            ((if callInput.Function = UpgradeFunctionName
              then doRunSmartContractUpgrade else doRunSmartContractCall) callInput host).state
      ∧ ((owedToCatch (if callInput.Function = UpgradeFunctionName
                then "arwen.RunSmartContractUpgrade" else "arwen.RunSmartContractCall")
              ((if callInput.Function = UpgradeFunctionName
                then doRunSmartContractUpgrade else doRunSmartContractCall)
                  callInput host)).head? ≠ none
          ↔ ((if callInput.Function = UpgradeFunctionName
                then doRunSmartContractUpgrade else doRunSmartContractCall)
                  callInput host).isNonNilPanic = true)) := by
  refine ⟨⟨?_, ?_⟩, ?_, ⟨?_, owedToCatch_head_ne_none _ _⟩, ⟨?_, owedToCatch_head_ne_none _ _⟩⟩
  · unfold TryCatch besideLog loggedCatch
    cases h : try_ s with
    | returned u t => cases u; simp [owedToCatch, Outcome.state]
    | panicked v t =>
      cases v with
      | nil => simp [owedToCatch, caughtError, Outcome.state]
      | error e =>
        simp only [owedToCatch, caughtError, Option.toList]
        cases catch_ e t <;> rfl
      | other r =>
        simp only [owedToCatch, caughtError, Option.toList]
        cases catch_ ⟨catchFallbackMessage ++ ", panic: " ++ r⟩ t <;> rfl
  · cases try_ s with
    | returned u t => rfl
    | panicked v t => cases v <;> rfl
  · unfold TryCatch
    cases h : try_ s with
    | returned u t => cases u; simp [owedToCatch, Outcome.isPanic]
    | panicked v t =>
      cases v <;> simp [owedToCatch, caughtError, Outcome.isPanic, Outcome.state]
  · unfold RunSmartContractCreate
    simp only [tryCatch_closures]
  · unfold RunSmartContractCall
    by_cases hf : callInput.Function = UpgradeFunctionName
    · simp only [hf, beq_self_eq_true, if_true, tryCatch_closures]
    · have hb : (callInput.Function == UpgradeFunctionName) = false := by simpa using hf
      simp only [hf, hb, if_false, tryCatch_closures, Bool.false_eq_true]

/-- C6, counterexample to the claim as stated: a `catch` that panics makes
`TryCatch` propagate that panic to its caller; and an inner work that panics
with nil makes `RunSmartContractCreate` return a nil `err` (and a nil
`vmOutput`) although the inner work panicked. -/
theorem tryCatch_propagates_panic_of_catch_and_nil_panic_gives_nil_err :
    TryCatch (fun s => .panicked (.other "x") s) (fun _ s => .panicked (.other "y") s) "m"
        (0 : Nat) = .panicked (.other "y") 0
    ∧ (panicsWith .nil : InnerWork Unit Nat) () 0 = .panicked .nil 0
    ∧ RunSmartContractCreate (panicsWith .nil) () (0 : Nat) = .returned ⟨none, none⟩ 0 :=
  ⟨rfl, rfl, rfl⟩

/-! ### Account JSON -/

theorem foldlM_cons_ok {α β : Type} (f : β → α → Except GoError β) (a : α) (l : List α)
    (b r : β) :
    (a :: l).foldlM f b = .ok r ↔ ∃ b1, f b a = .ok b1 ∧ l.foldlM f b1 = .ok r := by
  rw [List.foldlM_cons]
  cases h : f b a with
  | error e =>
    constructor
    · intro h2; cases h2
    · rintro ⟨b1, h1, _⟩; cases h1
  | ok b1 =>
    constructor
    · intro h2; exact ⟨b1, rfl, h2⟩
    · rintro ⟨b2, h1, h2⟩; cases h1; exact h2

theorem processAccountMapEntry_ok {M : Model} (p : Parser M) (accounts out : List (Account M))
    (kvp : String × OJsonObject) (h : processAccountMapEntry p accounts kvp = .ok out) :
    ∃ a, ParsedFrom p kvp a ∧ out = accounts ++ [a] := by
  unfold processAccountMapEntry at h
  cases h1 : processAccount p kvp.2 with
  | error e => rw [h1] at h; cases h
  | ok acct =>
    cases h2 : parseAccountAddress p kvp.1 with
    | error e => rw [h1, h2] at h; cases h
    | ok addr =>
      rw [h1, h2] at h
      cases h
      exact ⟨_, ⟨acct, addr, h1, h2, rfl⟩, rfl⟩

theorem processAccountMap_fold {M : Model} (p : Parser M) (kv : List (String × OJsonObject))
    (acc accounts : List (Account M))
    (h : kv.foldlM (processAccountMapEntry p) acc = .ok accounts) :
    ∃ new, accounts = acc ++ new ∧ List.Forall₂ (ParsedFrom p) kv new := by
  induction kv generalizing acc with
  | nil =>
    cases h
    exact ⟨[], by simp, List.Forall₂.nil⟩
  | cons kvp rest ih =>
    obtain ⟨b1, hstep, hrest⟩ := (foldlM_cons_ok _ _ _ _ _).1 h
    obtain ⟨a, ha, rfl⟩ := processAccountMapEntry_ok p acc b1 kvp hstep
    obtain ⟨new, rfl, hnew⟩ := ih _ hrest
    exact ⟨a :: new, by simp, List.Forall₂.cons ha hnew⟩

theorem processAccountMap_ok {M : Model} (p : Parser M) (j : OJsonObject)
    (accounts : List (Account M)) (h : processAccountMap p j = .ok accounts) :
    ∃ kv, j = .OJsonMap kv ∧ List.Forall₂ (ParsedFrom p) kv accounts := by
  cases j with
  | OJsonMap kv =>
    obtain ⟨new, hnew, hall⟩ := processAccountMap_fold p kv [] accounts h
    simp only [List.nil_append] at hnew
    subst hnew
    exact ⟨kv, rfl, hall⟩
  | OJsonString v => cases h
  | OJsonList v => cases h
  | OJsonBool v => cases h

theorem parseAccountAddress_ok {M : Model} (p : Parser M) (addrRaw : String)
    (addr : JSONBytesFromString) :
    parseAccountAddress p addrRaw = .ok addr
      ↔ addrRaw.length ≠ 0 ∧ ∃ addrBytes, p.InterpretString addrRaw = .ok addrBytes
          ∧ addrBytes.length = 32 ∧ addr = ⟨addrBytes, addrRaw⟩ := by
  unfold parseAccountAddress
  by_cases h0 : addrRaw.length = 0
  · simp [h0]
  · cases hi : p.InterpretString addrRaw with
    | error e => simp [h0]
    | ok addrBytes =>
      by_cases h32 : addrBytes.length = 32
      · simp only [h0, if_false, h32, ne_eq, not_true_eq_false, not_false_eq_true, true_and]
        constructor
        · intro h; cases h; exact ⟨addrBytes, rfl, h32, rfl⟩
        · rintro ⟨b, hb, _, rfl⟩; cases hb; rfl
      · simp only [h0, if_false, h32, ne_eq, not_false_eq_true, if_true, true_and]
        constructor
        · intro h; cases h
        · rintro ⟨b, hb, hlen, _⟩; cases hb; exact absurd hlen h32

theorem length_eq_zero_iff_empty (s : String) : s.length = 0 ↔ s = "" := by
  cases s with
  | mk data =>
    constructor
    · intro h
      have hd : data = [] := List.length_eq_zero.1 h
      subst hd
      rfl
    · intro h
      rw [h]
      rfl

/-- C8. For every raw address string, `parseAccountAddress` succeeds if and only
if the string is non-empty, the value interpreter accepts it, and the
interpreted value is exactly 32 bytes long; on success the result has the
interpreted bytes as `Value` and the raw string as `Original`. Hence every
account returned by `processAccountMap` has a 32-byte address. -/
theorem parseAccountAddress_succeeds_iff_32_bytes {M : Model} (p : Parser M)
    (addrRaw : String) (acctMapRaw : OJsonObject) (accounts : List (Account M))
    (hAccepted : processAccountMap p acctMapRaw = .ok accounts) :
    (∀ addr, parseAccountAddress p addrRaw = .ok addr
        ↔ addrRaw ≠ "" ∧ ∃ addrBytes, p.InterpretString addrRaw = .ok addrBytes
            ∧ addrBytes.length = 32
            ∧ addr.Value = addrBytes ∧ addr.Original = addrRaw)
    ∧ (∀ account ∈ accounts, account.Address.Value.length = 32) := by
  constructor
  · intro addr
    rw [parseAccountAddress_ok, ne_eq, ne_eq, length_eq_zero_iff_empty]
    constructor
    · rintro ⟨h0, b, hb, hlen, rfl⟩
      exact ⟨h0, b, hb, hlen, rfl, rfl⟩
    · rintro ⟨h0, b, hb, hlen, hv, ho⟩
      refine ⟨h0, b, hb, hlen, ?_⟩
      cases addr
      simp only at hv ho
      subst hv
      subst ho
      rfl
  · obtain ⟨kv, -, hall⟩ := processAccountMap_ok p acctMapRaw accounts hAccepted
    clear hAccepted
    intro account hmem
    induction hall with
    | nil => cases hmem
    | cons hhead _ ih =>
      rcases List.mem_cons.1 hmem with rfl | htail
      · obtain ⟨acct, addr, _, haddr, rfl⟩ := hhead
        obtain ⟨_, b, _, hlen, rfl⟩ := (parseAccountAddress_ok p _ addr).1 haddr
        exact hlen
      · exact ih htail

/-- C8, witness: an accounts map with one account under a 32-character key. -/
theorem parseAccountAddress_succeeds_iff_32_bytes_witness :
    processAccountMap refParser
        (.OJsonMap [(addrA, .OJsonMap [("nonce", .OJsonString "7")])])
      = .ok [{ Account.zero refModel with Address := ⟨bytesA, addrA⟩, Nonce := ⟨7, "7"⟩ }]
    ∧ (∀ account ∈ [{ Account.zero refModel with Address := ⟨bytesA, addrA⟩, Nonce := ⟨7, "7"⟩ }],
        account.Address.Value.length = 32) :=
  ⟨rfl, (parseAccountAddress_succeeds_iff_32_bytes refParser addrA
      (.OJsonMap [(addrA, .OJsonMap [("nonce", .OJsonString "7")])]) _ rfl).2⟩

/-! ### Ordered maps -/

theorem keysOf_Put (m : List (String × OJsonObject)) (k : String) (v : OJsonObject) :
    keysOf (Put m k v) = if k ∈ keysOf m then keysOf m else keysOf m ++ [k] := by
  unfold Put
  by_cases h : k ∈ keysOf m
  · simp [h]
  · rw [if_neg h, if_neg h]
    simp [keysOf]

theorem Put_of_not_mem (m : List (String × OJsonObject)) (k : String) (v : OJsonObject)
    (h : k ∉ keysOf m) : Put m k v = m ++ [(k, v)] := by
  unfold Put
  rw [if_neg h]

theorem Put_of_mem (m : List (String × OJsonObject)) (k : String) (v : OJsonObject)
    (h : k ∈ keysOf m) : Put m k v = m := by
  unfold Put
  rw [if_pos h]

theorem firstOccurrences_mem (l : List String) (k : String) :
    k ∈ firstOccurrences l ↔ k ∈ l := by
  induction l with
  | nil => simp [firstOccurrences]
  | cons a rest ih =>
    by_cases hk : k = a
    · simp [firstOccurrences, hk]
    · simp [firstOccurrences, hk, List.mem_filter, ih]

theorem firstOccurrences_nodup (l : List String) : (firstOccurrences l).Nodup := by
  induction l with
  | nil => simp [firstOccurrences]
  | cons a rest ih =>
    simp only [firstOccurrences, List.nodup_cons, List.mem_filter]
    exact ⟨fun h => by simpa using h.2, ih.filter _⟩

theorem firstOccurrences_sublist (l : List String) : List.Sublist (firstOccurrences l) l := by
  induction l with
  | nil => simp [firstOccurrences]
  | cons a rest ih =>
    simp only [firstOccurrences]
    exact List.Sublist.cons₂ a ((List.filter_sublist _).trans ih)

theorem firstOccurrences_of_nodup (l : List String) (h : l.Nodup) : firstOccurrences l = l := by
  induction l with
  | nil => rfl
  | cons a rest ih =>
    obtain ⟨ha, hrest⟩ := List.nodup_cons.1 h
    simp only [firstOccurrences, ih hrest]
    congr 1
    apply List.filter_eq_self.2
    intro x hx
    have : x ≠ a := fun hxa => ha (hxa ▸ hx)
    simpa using this

theorem keysOf_foldl_Put {α : Type} (kf : α → String) (vf : α → OJsonObject) (l : List α)
    (m : List (String × OJsonObject)) :
    keysOf (l.foldl (fun acc x => Put acc (kf x) (vf x)) m)
      = keysOf m ++ (firstOccurrences (l.map kf)).filter (fun k => k ∉ keysOf m) := by
  induction l generalizing m with
  | nil => simp [firstOccurrences]
  | cons x rest ih =>
    simp only [List.foldl_cons, List.map_cons, firstOccurrences]
    rw [ih, keysOf_Put]
    by_cases hk : kf x ∈ keysOf m
    · simp only [hk, if_true, List.filter_cons, not_true_eq_false, decide_False,
        Bool.false_eq_true, if_false, List.filter_filter]
      congr 1
      apply List.filter_congr
      intro y _
      by_cases hy : y = kf x
      · subst hy; simp [hk]
      · simp [hy]
    · simp only [hk, if_false, List.filter_cons, not_false_eq_true, decide_True, if_true,
        List.filter_filter, List.append_assoc, List.singleton_append]
      congr 2
      apply List.filter_congr
      intro y _
      by_cases hy : y = kf x
      · subst hy; simp
      · simp [hy]

/-- C9. For every `CheckAccounts` value none of whose account addresses is
written as the key `+`, the map written by `checkAccountsToOJ` has the key `+`
if and only if `OtherAccountsAllowed` is true; when present it is the last
entry (with the empty string as value), after all account entries; and the
account entries come in the order of the `Accounts` list (one entry per
address key, at the place of its first account). -/
theorem checkAccountsToOJ_plus_key_iff_allowed_and_last {M : Model} (w : Writer M)
    (checkAccounts : CheckAccounts M)
    (hNoPlus : ∀ a ∈ checkAccounts.Accounts, w.bytesFromStringToString a.Address ≠ "+") :
    checkAccountsToOJ w checkAccounts = .OJsonMap (checkAccountsToMap w checkAccounts)
    ∧ keysOf (checkAccountsToMap w checkAccounts)
        = firstOccurrences
            (checkAccounts.Accounts.map (fun a => w.bytesFromStringToString a.Address))
          ++ (if checkAccounts.OtherAccountsAllowed then ["+"] else [])
    ∧ ("+" ∈ keysOf (checkAccountsToMap w checkAccounts)
        ↔ checkAccounts.OtherAccountsAllowed = true)
    ∧ (if checkAccounts.OtherAccountsAllowed
        then (checkAccountsToMap w checkAccounts).getLast? = some ("+", stringToOJ "")
        else True)
    ∧ List.Sublist
        (firstOccurrences
          (checkAccounts.Accounts.map (fun a => w.bytesFromStringToString a.Address)))
        (checkAccounts.Accounts.map (fun a => w.bytesFromStringToString a.Address))
    ∧ (if (checkAccounts.Accounts.map (fun a => w.bytesFromStringToString a.Address)).Nodup
        then keysOf (checkAccountsToMap w checkAccounts)
          = checkAccounts.Accounts.map (fun a => w.bytesFromStringToString a.Address)
            ++ (if checkAccounts.OtherAccountsAllowed then ["+"] else [])
        else True) := by
  have hfold := keysOf_foldl_Put (fun a : CheckAccount M => w.bytesFromStringToString a.Address)
    (fun a => .OJsonMap (checkAccountToOJ w a)) checkAccounts.Accounts NewMap
  have hnil : keysOf NewMap = [] := rfl
  simp only [hnil, List.nil_append, List.not_mem_nil, not_false_eq_true, decide_True,
    List.filter_true] at hfold
  have hnot : "+" ∉ firstOccurrences
      (checkAccounts.Accounts.map (fun a => w.bytesFromStringToString a.Address)) := by
    rw [firstOccurrences_mem]
    intro hmem
    obtain ⟨a, ha, heq⟩ := List.mem_map.1 hmem
    exact hNoPlus a ha heq
  have hkeys : keysOf (checkAccountsToMap w checkAccounts)
      = firstOccurrences
          (checkAccounts.Accounts.map (fun a => w.bytesFromStringToString a.Address))
        ++ (if checkAccounts.OtherAccountsAllowed then ["+"] else []) := by
    unfold checkAccountsToMap
    by_cases hall : checkAccounts.OtherAccountsAllowed = true
    · simp only [hall, if_true, keysOf_Put, hfold, hnot, if_false]
    · simp only [hall, Bool.false_eq_true, if_false, hfold, List.append_nil]
  refine ⟨rfl, hkeys, ?_, ?_, firstOccurrences_sublist _, ?_⟩
  · rw [hkeys]
    by_cases hall : checkAccounts.OtherAccountsAllowed = true
    · simp [hall]
    · simp [hall, hnot]
  · by_cases hall : checkAccounts.OtherAccountsAllowed = true
    · simp only [hall, if_true]
      unfold checkAccountsToMap
      simp only [hall, if_true]
      rw [Put_of_not_mem _ _ _ (by rw [hfold]; exact hnot)]
      simp
    · simp [hall]
  · by_cases hnd :
      (checkAccounts.Accounts.map (fun a => w.bytesFromStringToString a.Address)).Nodup
    · simp only [hnd, if_true]
      rw [hkeys, firstOccurrences_of_nodup _ hnd]
    · simp [hnd]

/-- C9, witness: two check accounts and `OtherAccountsAllowed`. -/
theorem checkAccountsToOJ_plus_key_iff_allowed_and_last_witness :
    keysOf (checkAccountsToMap refWriter ⟨true, [checkA, checkB]⟩) = [addrA, addrB, "+"]
    ∧ ("+" ∈ keysOf (checkAccountsToMap refWriter ⟨true, [checkA, checkB]⟩)
        ↔ (⟨true, [checkA, checkB]⟩ : CheckAccounts refModel).OtherAccountsAllowed = true) :=
  have h := checkAccountsToOJ_plus_key_iff_allowed_and_last refWriter ⟨true, [checkA, checkB]⟩
    (by
      intro a ha
      simp only [List.mem_cons, List.mem_singleton, List.not_mem_nil, or_false] at ha
      rcases ha with rfl | rfl <;> decide)
  ⟨h.2.1, h.2.2.1⟩

theorem getValue_append (m n : List (String × OJsonObject)) (k : String) :
    getValue (m ++ n) k = (getValue m k).or (getValue n k) := by
  induction m with
  | nil => simp [getValue]
  | cons kvp rest ih =>
    by_cases h : kvp.1 = k
    · simp [getValue, h]
    · simp [getValue, h, ih]

theorem getValue_eq_none_iff (m : List (String × OJsonObject)) (k : String) :
    getValue m k = none ↔ k ∉ keysOf m := by
  induction m with
  | nil => simp [getValue, keysOf]
  | cons kvp rest ih =>
    by_cases h : kvp.1 = k
    · simp [getValue, h, keysOf]
    · have h2 : ¬ k = kvp.1 := fun e => h e.symm
      simp only [getValue, h, if_false, ih, keysOf, List.map_cons, List.mem_cons, h2, false_or]

theorem getValue_Put (m : List (String × OJsonObject)) (k : String) (v : OJsonObject)
    (k2 : String) :
    getValue (Put m k v) k2 = if k2 = k then (getValue m k2).or (some v) else getValue m k2 := by
  by_cases hmem : k ∈ keysOf m
  · rw [Put_of_mem _ _ _ hmem]
    by_cases hk : k2 = k
    · subst hk
      have hne : getValue m k2 ≠ none := fun h => (getValue_eq_none_iff m k2).1 h hmem
      cases hg : getValue m k2 with
      | none => exact absurd hg hne
      | some x => simp
    · simp [hk]
  · rw [Put_of_not_mem _ _ _ hmem, getValue_append]
    by_cases hk : k2 = k
    · subst hk
      simp [getValue]
    · have hk2 : ¬ k = k2 := fun e => hk e.symm
      simp [getValue, hk, hk2, Option.or_none]

theorem mem_foldl_Put {α : Type} (kf : α → String) (vf : α → OJsonObject) (l : List α)
    (m : List (String × OJsonObject)) (e : String × OJsonObject)
    (he : e ∈ l.foldl (fun acc x => Put acc (kf x) (vf x)) m) :
    e ∈ m ∨ ∃ x ∈ l, e = (kf x, vf x) := by
  induction l generalizing m with
  | nil => exact Or.inl he
  | cons x rest ih =>
    have he2 : e ∈ rest.foldl (fun acc x => Put acc (kf x) (vf x)) (Put m (kf x) (vf x)) := he
    rcases ih _ he2 with h | ⟨y, hy, hey⟩
    · by_cases hk : kf x ∈ keysOf m
      · rw [Put_of_mem _ _ _ hk] at h
        exact Or.inl h
      · rw [Put_of_not_mem _ _ _ hk] at h
        rcases List.mem_append.1 h with h1 | h1
        · exact Or.inl h1
        · exact Or.inr ⟨x, List.mem_cons_self _ _, by simpa using h1⟩
    · exact Or.inr ⟨y, List.mem_cons_of_mem _ hy, hey⟩

theorem foldl_Put_of_nodup {α : Type} (kf : α → String) (vf : α → OJsonObject) (l : List α)
    (m : List (String × OJsonObject)) (hnd : (l.map kf).Nodup)
    (hdis : ∀ x ∈ l, kf x ∉ keysOf m) :
    l.foldl (fun acc x => Put acc (kf x) (vf x)) m = m ++ l.map (fun x => (kf x, vf x)) := by
  induction l generalizing m with
  | nil => simp
  | cons x rest ih =>
    simp only [List.map_cons, List.nodup_cons] at hnd
    simp only [List.foldl_cons]
    rw [Put_of_not_mem _ _ _ (hdis x (List.mem_cons_self _ _))]
    rw [ih _ hnd.2]
    · simp
    · intro y hy
      simp only [keysOf, List.map_append, List.map_cons, List.map_nil, List.mem_append,
        List.mem_singleton, not_or]
      refine ⟨hdis y (List.mem_cons_of_mem _ hy), ?_⟩
      intro hyx
      exact hnd.1 (hyx ▸ List.mem_map_of_mem kf hy)

theorem getValue_ite (c : Prop) [Decidable c] (a b : List (String × OJsonObject)) (k : String) :
    getValue (if c then a else b) k = if c then getValue a k else getValue b k := by
  by_cases h : c <;> simp [h]

theorem getValue_NewMap (k : String) : getValue NewMap k = none := rfl

theorem keysOf_storageToOJ {M : Model} (w : Writer M) (storage : List (StorageKeyValuePair M)) :
    keysOf (storageToOJ w storage)
      = firstOccurrences (storage.map (fun st => w.bytesFromStringToString st.Key)) := by
  have h := keysOf_foldl_Put (fun st : StorageKeyValuePair M => w.bytesFromStringToString st.Key)
    (fun st => w.bytesFromTreeToOJ st.Value) storage NewMap
  have hnil : keysOf NewMap = [] := rfl
  simpa [hnil] using h

theorem storageToOJ_of_nodup {M : Model} (w : Writer M) (storage : List (StorageKeyValuePair M))
    (hnd : (storage.map (fun st => w.bytesFromStringToString st.Key)).Nodup) :
    storageToOJ w storage
      = storage.map (fun st => (w.bytesFromStringToString st.Key, w.bytesFromTreeToOJ st.Value)) := by
  have h := foldl_Put_of_nodup (fun st : StorageKeyValuePair M => w.bytesFromStringToString st.Key)
    (fun st => w.bytesFromTreeToOJ st.Value) storage NewMap hnd
    (fun _ _ => by simp [keysOf, NewMap])
  simpa [NewMap] using h

/-- C10 (as amended). Every entry written by `checkAccountsToOJ` is the `+`
entry or the map of one check account, and in the map of a check account
(given that the ESDT helper writes no key but `esdt`): the `storage` field is
the string `*` if and only if `IgnoreStorage` is set, and otherwise it is the
map built from `CheckStorage`, whose keys are the storage keys in order of
first occurrence, with exactly one entry per `CheckStorage` element when the
keys are pairwise distinct; the `esdt` field is the string `*` whenever
`IgnoreESDT` is set; and each of nonce, balance, code, owner and asyncCallData
is written if and only if it is not unspecified. -/
theorem checkAccountsToOJ_wildcards_and_unspecified {M : Model} (w : Writer M)
    (checkAccounts : CheckAccounts M) (checkAccount : CheckAccount M)
    (hESDT : ∀ items m k, k ≠ "esdt" → getValue (w.appendCheckESDTToOJ items m) k = getValue m k) :
    (∀ entry ∈ checkAccountsToMap w checkAccounts,
        entry = ("+", stringToOJ "")
        ∨ ∃ a ∈ checkAccounts.Accounts,
            entry = (w.bytesFromStringToString a.Address, .OJsonMap (checkAccountToOJ w a)))
    ∧ getValue (checkAccountToOJ w checkAccount) "storage"
        = some (if checkAccount.IgnoreStorage then stringToOJ "*"
            else .OJsonMap (storageToOJ w checkAccount.CheckStorage))
    ∧ (getValue (checkAccountToOJ w checkAccount) "storage" = some (stringToOJ "*")
        ↔ checkAccount.IgnoreStorage = true)
    ∧ keysOf (storageToOJ w checkAccount.CheckStorage)
        = firstOccurrences
            (checkAccount.CheckStorage.map (fun st => w.bytesFromStringToString st.Key))
    ∧ ((checkAccount.CheckStorage.map (fun st => w.bytesFromStringToString st.Key)).Nodup →
        storageToOJ w checkAccount.CheckStorage
          = checkAccount.CheckStorage.map
              (fun st => (w.bytesFromStringToString st.Key, w.bytesFromTreeToOJ st.Value)))
    ∧ (checkAccount.IgnoreESDT = true →
        getValue (checkAccountToOJ w checkAccount) "esdt" = some (stringToOJ "*"))
    ∧ getValue (checkAccountToOJ w checkAccount) "nonce"
        = (if w.uint64IsUnspecified checkAccount.Nonce then none
            else some (w.checkUint64ToOJ checkAccount.Nonce))
    ∧ getValue (checkAccountToOJ w checkAccount) "balance"
        = (if w.bigIntIsUnspecified checkAccount.Balance then none
            else some (w.checkBigIntToOJ checkAccount.Balance))
    ∧ getValue (checkAccountToOJ w checkAccount) "code"
        = (if w.bytesIsUnspecified checkAccount.Code then none
            else some (w.checkBytesToOJ checkAccount.Code))
    ∧ getValue (checkAccountToOJ w checkAccount) "owner"
        = (if w.bytesIsUnspecified checkAccount.Owner then none
            else some (w.checkBytesToOJ checkAccount.Owner))
    ∧ getValue (checkAccountToOJ w checkAccount) "asyncCallData"
        = (if w.bytesIsUnspecified checkAccount.AsyncCallData then none
            else some (w.checkBytesToOJ checkAccount.AsyncCallData)) := by
  have hstorage : getValue (checkAccountToOJ w checkAccount) "storage"
      = some (if checkAccount.IgnoreStorage then stringToOJ "*"
          else .OJsonMap (storageToOJ w checkAccount.CheckStorage)) := by
    unfold checkAccountToOJ
    simp only [getValue_ite, getValue_Put, getValue_NewMap]
    cases checkAccount.IgnoreStorage <;> cases checkAccount.IgnoreESDT <;>
      simp [hESDT, getValue_ite, getValue_Put, getValue_NewMap]
  refine ⟨?_, hstorage, ?_, keysOf_storageToOJ w _, storageToOJ_of_nodup w _, ?_, ?_, ?_, ?_,
    ?_, ?_⟩
  · intro entry hentry
    unfold checkAccountsToMap at hentry
    have hsub : ∀ e ∈ checkAccounts.Accounts.foldl
        (fun acctsOJ a => Put acctsOJ (w.bytesFromStringToString a.Address)
          (.OJsonMap (checkAccountToOJ w a))) NewMap,
        ∃ a ∈ checkAccounts.Accounts,
          e = (w.bytesFromStringToString a.Address, .OJsonMap (checkAccountToOJ w a)) := by
      intro e he
      rcases mem_foldl_Put (fun a : CheckAccount M => w.bytesFromStringToString a.Address)
        (fun a => .OJsonMap (checkAccountToOJ w a)) _ _ e he with h | h
      · cases h
      · exact h
    by_cases hall : checkAccounts.OtherAccountsAllowed = true
    · simp only [hall, if_true] at hentry
      unfold Put at hentry
      split at hentry
      · exact Or.inr (hsub entry hentry)
      · rcases List.mem_append.1 hentry with h | h
        · exact Or.inr (hsub entry h)
        · exact Or.inl (by simpa using h)
    · simp only [hall, Bool.false_eq_true, if_false] at hentry
      exact Or.inr (hsub entry hentry)
  · rw [hstorage]
    cases checkAccount.IgnoreStorage <;> simp [stringToOJ]
  · intro hign
    unfold checkAccountToOJ
    simp only [getValue_ite, getValue_Put, getValue_NewMap, hign]
    simp
  · unfold checkAccountToOJ
    simp only [getValue_ite, getValue_Put, getValue_NewMap]
    cases w.uint64IsUnspecified checkAccount.Nonce <;>
      simp [hESDT, getValue_ite, getValue_Put, getValue_NewMap]
  · unfold checkAccountToOJ
    simp only [getValue_ite, getValue_Put, getValue_NewMap]
    cases w.bigIntIsUnspecified checkAccount.Balance <;>
      simp [hESDT, getValue_ite, getValue_Put, getValue_NewMap]
  · unfold checkAccountToOJ
    simp only [getValue_ite, getValue_Put, getValue_NewMap]
    cases w.bytesIsUnspecified checkAccount.Code <;>
      simp [hESDT, getValue_ite, getValue_Put, getValue_NewMap]
  · unfold checkAccountToOJ
    simp only [getValue_ite, getValue_Put, getValue_NewMap]
    cases w.bytesIsUnspecified checkAccount.Owner <;>
      simp [hESDT, getValue_ite, getValue_Put, getValue_NewMap]
  · unfold checkAccountToOJ
    simp only [getValue_ite, getValue_Put, getValue_NewMap]
    cases w.bytesIsUnspecified checkAccount.AsyncCallData <;>
      simp [hESDT, getValue_ite, getValue_Put, getValue_NewMap]

theorem refWriter_appendCheckESDTToOJ_only_esdt (items : List refModel.CheckESDTData)
    (m : List (String × OJsonObject)) (k : String) (hk : k ≠ "esdt") :
    getValue (refWriter.appendCheckESDTToOJ items m) k = getValue m k := by
  simp only [refWriter]
  by_cases h : items.length = 0
  · simp [h]
  · simp [h, getValue_Put, hk]

/-- C10, witness: the check account `checkA` (storage ignored, nonce `5`,
balance `*`, code unspecified) written by the reference writer. -/
theorem checkAccountsToOJ_wildcards_and_unspecified_witness :
    getValue (checkAccountToOJ refWriter checkA) "storage" = some (stringToOJ "*")
    ∧ getValue (checkAccountToOJ refWriter checkA) "nonce" = some (.OJsonString "5")
    ∧ getValue (checkAccountToOJ refWriter checkA) "balance" = some (.OJsonString "*")
    ∧ getValue (checkAccountToOJ refWriter checkA) "code" = none :=
  have h := checkAccountsToOJ_wildcards_and_unspecified refWriter ⟨true, [checkA, checkB]⟩ checkA
    refWriter_appendCheckESDTToOJ_only_esdt
  ⟨h.2.1, h.2.2.2.2.2.2.1, h.2.2.2.2.2.2.2.1, h.2.2.2.2.2.2.2.2.1⟩

/-- C10, counterexample to the claim as stated: `checkB` does not ignore its
storage and lists two `CheckStorage` elements, both under the key `k`; the
`storage` map that `checkAccountsToOJ` writes for it has one entry, not two. -/
theorem checkAccountsToOJ_storage_map_drops_repeated_key :
    checkB.IgnoreStorage = false
    ∧ checkB.CheckStorage.length = 2
    ∧ checkAccountsToOJ refWriter ⟨false, [checkB]⟩
      = .OJsonMap [(addrB, .OJsonMap [("esdt", .OJsonString "*"),
          ("storage", .OJsonMap [("k", .OJsonString "1")]), ("code", .OJsonString "0x")])]
    ∧ (storageToOJ refWriter checkB.CheckStorage).length = 1 :=
  ⟨rfl, rfl, rfl, rfl⟩

/-! ### The account parser, field by field -/

theorem processAccountField_ok {M : Model} (p : Parser M) (acct acct2 : Account M)
    (kvp : String × OJsonObject) (h : processAccountField p acct kvp = .ok acct2) :
    (kvp.1 = "comment" ∧ ∃ v, p.parseString kvp.2 = .ok v ∧ acct2 = { acct with Comment := v })
    ∨ (kvp.1 = "shard" ∧ ∃ v, p.processUint64 kvp.2 = .ok v ∧ acct2 = { acct with Shard := v })
    ∨ (kvp.1 = "nonce" ∧ ∃ v, p.processUint64 kvp.2 = .ok v ∧ acct2 = { acct with Nonce := v })
    ∨ (kvp.1 = "balance" ∧ ∃ v, p.processBigInt kvp.2 .bigIntUnsignedBytes = .ok v
        ∧ acct2 = { acct with Balance := v })
    ∨ (kvp.1 = "esdt" ∧ ∃ esdtMap v, kvp.2 = .OJsonMap esdtMap
        ∧ esdtMap.foldlM (processESDTEntry p) acct.ESDTData = .ok v
        ∧ acct2 = { acct with ESDTData := v })
    ∨ (kvp.1 = "esdtRoles" ∧ ∃ v, p.processESDTRoles kvp.2 = .ok v
        ∧ acct2 = { acct with ESDTRoles := v })
    ∨ (kvp.1 = "esdtLastNonces" ∧ ∃ esdtMap v, kvp.2 = .OJsonMap esdtMap
        ∧ p.processESDTLastNonces esdtMap = .ok v ∧ acct2 = { acct with ESDTLastNonces := v })
    ∨ (kvp.1 = "storage" ∧ ∃ storageMap v, kvp.2 = .OJsonMap storageMap
        ∧ storageMap.foldlM (processStorageEntry p) acct.Storage = .ok v
        ∧ acct2 = { acct with Storage := v })
    ∨ (kvp.1 = "code" ∧ ∃ v, p.processStringAsByteArray kvp.2 = .ok v
        ∧ acct2 = { acct with Code := v })
    ∨ (kvp.1 = "owner" ∧ ∃ v, p.processStringAsByteArray kvp.2 = .ok v
        ∧ acct2 = { acct with Owner := v })
    ∨ (kvp.1 = "asyncCallData" ∧ ∃ v, p.parseString kvp.2 = .ok v
        ∧ acct2 = { acct with AsyncCallData := v }) := by
  unfold processAccountField at h
  by_cases h0 : kvp.1 = "comment"
  · rw [if_pos h0] at h
    cases hv : p.parseString kvp.2 with
    | error e => rw [hv] at h; cases h
    | ok v =>
      rw [hv] at h; cases h
      exact Or.inl ⟨h0, v, rfl, rfl⟩
  rw [if_neg h0] at h
  by_cases h1 : kvp.1 = "shard"
  · rw [if_pos h1] at h
    cases hv : p.processUint64 kvp.2 with
    | error e => rw [hv] at h; cases h
    | ok v =>
      rw [hv] at h; cases h
      exact Or.inr (Or.inl ⟨h1, v, rfl, rfl⟩)
  rw [if_neg h1] at h
  by_cases h2 : kvp.1 = "nonce"
  · rw [if_pos h2] at h
    cases hv : p.processUint64 kvp.2 with
    | error e => rw [hv] at h; cases h
    | ok v =>
      rw [hv] at h; cases h
      exact Or.inr (Or.inr (Or.inl ⟨h2, v, rfl, rfl⟩))
  rw [if_neg h2] at h
  by_cases h3 : kvp.1 = "balance"
  · rw [if_pos h3] at h
    cases hv : p.processBigInt kvp.2 .bigIntUnsignedBytes with
    | error e => rw [hv] at h; cases h
    | ok v =>
      rw [hv] at h; cases h
      exact Or.inr (Or.inr (Or.inr (Or.inl ⟨h3, v, rfl, rfl⟩)))
  rw [if_neg h3] at h
  by_cases h4 : kvp.1 = "esdt"
  · rw [if_pos h4] at h
    cases hj : kvp.2 with
    | OJsonMap esdtMap =>
      rw [hj] at h
      simp only at h
      cases hv : esdtMap.foldlM (processESDTEntry p) acct.ESDTData with
      | error e => rw [hv] at h; cases h
      | ok v =>
        rw [hv] at h; cases h
        exact Or.inr (Or.inr (Or.inr (Or.inr (Or.inl ⟨h4, esdtMap, v, rfl, hv, rfl⟩))))
    | OJsonString x => rw [hj] at h; cases h
    | OJsonList x => rw [hj] at h; cases h
    | OJsonBool x => rw [hj] at h; cases h
  rw [if_neg h4] at h
  by_cases h5 : kvp.1 = "esdtRoles"
  · rw [if_pos h5] at h
    cases hv : p.processESDTRoles kvp.2 with
    | error e => rw [hv] at h; cases h
    | ok v =>
      rw [hv] at h; cases h
      exact Or.inr (Or.inr (Or.inr (Or.inr (Or.inr (Or.inl ⟨h5, v, rfl, rfl⟩)))))
  rw [if_neg h5] at h
  by_cases h6 : kvp.1 = "esdtLastNonces"
  · rw [if_pos h6] at h
    cases hj : kvp.2 with
    | OJsonMap esdtMap =>
      rw [hj] at h
      simp only at h
      cases hv : p.processESDTLastNonces esdtMap with
      | error e => rw [hv] at h; cases h
      | ok v =>
        rw [hv] at h; cases h
        exact Or.inr (Or.inr (Or.inr (Or.inr (Or.inr (Or.inr (Or.inl ⟨h6, esdtMap, v, rfl, hv, rfl⟩))))))
    | OJsonString x => rw [hj] at h; cases h
    | OJsonList x => rw [hj] at h; cases h
    | OJsonBool x => rw [hj] at h; cases h
  rw [if_neg h6] at h
  by_cases h7 : kvp.1 = "storage"
  · rw [if_pos h7] at h
    cases hj : kvp.2 with
    | OJsonMap esdtMap =>
      rw [hj] at h
      simp only at h
      cases hv : esdtMap.foldlM (processStorageEntry p) acct.Storage with
      | error e => rw [hv] at h; cases h
      | ok v =>
        rw [hv] at h; cases h
        exact Or.inr (Or.inr (Or.inr (Or.inr (Or.inr (Or.inr (Or.inr (Or.inl ⟨h7, esdtMap, v, rfl, hv, rfl⟩)))))))
    | OJsonString x => rw [hj] at h; cases h
    | OJsonList x => rw [hj] at h; cases h
    | OJsonBool x => rw [hj] at h; cases h
  rw [if_neg h7] at h
  by_cases h8 : kvp.1 = "code"
  · rw [if_pos h8] at h
    cases hv : p.processStringAsByteArray kvp.2 with
    | error e => rw [hv] at h; cases h
    | ok v =>
      rw [hv] at h; cases h
      exact Or.inr (Or.inr (Or.inr (Or.inr (Or.inr (Or.inr (Or.inr (Or.inr (Or.inl ⟨h8, v, rfl, rfl⟩))))))))
  rw [if_neg h8] at h
  by_cases h9 : kvp.1 = "owner"
  · rw [if_pos h9] at h
    cases hv : p.processStringAsByteArray kvp.2 with
    | error e => rw [hv] at h; cases h
    | ok v =>
      rw [hv] at h; cases h
      exact Or.inr (Or.inr (Or.inr (Or.inr (Or.inr (Or.inr (Or.inr (Or.inr (Or.inr (Or.inl ⟨h9, v, rfl, rfl⟩)))))))))
  rw [if_neg h9] at h
  by_cases h10 : kvp.1 = "asyncCallData"
  · rw [if_pos h10] at h
    cases hv : p.parseString kvp.2 with
    | error e => rw [hv] at h; cases h
    | ok v =>
      rw [hv] at h; cases h
      exact Or.inr (Or.inr (Or.inr (Or.inr (Or.inr (Or.inr (Or.inr (Or.inr (Or.inr (Or.inr (⟨h10, v, rfl, rfl⟩))))))))))
  rw [if_neg h10] at h
  cases h

theorem processAccountField_frame {M : Model} (p : Parser M) (acct acct2 : Account M)
    (kvp : String × OJsonObject) (h : processAccountField p acct kvp = .ok acct2) :
    (kvp.1 ≠ "comment" → acct2.Comment = acct.Comment)
    ∧ (kvp.1 ≠ "nonce" → acct2.Nonce = acct.Nonce)
    ∧ (kvp.1 ≠ "balance" → acct2.Balance = acct.Balance)
    ∧ (kvp.1 ≠ "esdtRoles" → acct2.ESDTRoles = acct.ESDTRoles)
    ∧ (kvp.1 ≠ "esdtLastNonces" → acct2.ESDTLastNonces = acct.ESDTLastNonces)
    ∧ (kvp.1 ≠ "storage" → acct2.Storage = acct.Storage)
    ∧ (kvp.1 ≠ "code" → acct2.Code = acct.Code)
    ∧ (kvp.1 ≠ "owner" → acct2.Owner = acct.Owner)
    ∧ (kvp.1 ≠ "asyncCallData" → acct2.AsyncCallData = acct.AsyncCallData)
    ∧ acct2.Address = acct.Address := by
  rcases processAccountField_ok p acct acct2 kvp h with
    ⟨hk, v, hv, rfl⟩ | ⟨hk, v, hv, rfl⟩ | ⟨hk, v, hv, rfl⟩ | ⟨hk, v, hv, rfl⟩ | ⟨hk, m, v, hj, hv, rfl⟩ | ⟨hk, v, hv, rfl⟩ | ⟨hk, m, v, hj, hv, rfl⟩ | ⟨hk, m, v, hj, hv, rfl⟩ | ⟨hk, v, hv, rfl⟩ | ⟨hk, v, hv, rfl⟩ | ⟨hk, v, hv, rfl⟩
  all_goals
    refine ⟨?_, ?_, ?_, ?_, ?_, ?_, ?_, ?_, ?_, rfl⟩ <;> intro hne <;>
      first
        | rfl
        | exact absurd hk hne

theorem processAccountField_set {M : Model} (p : Parser M) (acct acct2 : Account M)
    (kvp : String × OJsonObject) (h : processAccountField p acct kvp = .ok acct2) :
    (kvp.1 = "comment" → p.parseString kvp.2 = .ok acct2.Comment)
    ∧ (kvp.1 = "nonce" → p.processUint64 kvp.2 = .ok acct2.Nonce)
    ∧ (kvp.1 = "balance" → p.processBigInt kvp.2 .bigIntUnsignedBytes = .ok acct2.Balance)
    ∧ (kvp.1 = "esdtRoles" → p.processESDTRoles kvp.2 = .ok acct2.ESDTRoles)
    ∧ (kvp.1 = "esdtLastNonces" → ∃ m, kvp.2 = .OJsonMap m
        ∧ p.processESDTLastNonces m = .ok acct2.ESDTLastNonces)
    ∧ (kvp.1 = "storage" → ∃ m, kvp.2 = .OJsonMap m
        ∧ m.foldlM (processStorageEntry p) acct.Storage = .ok acct2.Storage)
    ∧ (kvp.1 = "code" → p.processStringAsByteArray kvp.2 = .ok acct2.Code)
    ∧ (kvp.1 = "owner" → p.processStringAsByteArray kvp.2 = .ok acct2.Owner)
    ∧ (kvp.1 = "asyncCallData" → p.parseString kvp.2 = .ok acct2.AsyncCallData) := by
  rcases processAccountField_ok p acct acct2 kvp h with
    ⟨hk, v, hv, rfl⟩ | ⟨hk, v, hv, rfl⟩ | ⟨hk, v, hv, rfl⟩ | ⟨hk, v, hv, rfl⟩ | ⟨hk, m, v, hj, hv, rfl⟩ | ⟨hk, v, hv, rfl⟩ | ⟨hk, m, v, hj, hv, rfl⟩ | ⟨hk, m, v, hj, hv, rfl⟩ | ⟨hk, v, hv, rfl⟩ | ⟨hk, v, hv, rfl⟩ | ⟨hk, v, hv, rfl⟩
  all_goals
    refine ⟨?_, ?_, ?_, ?_, ?_, ?_, ?_, ?_, ?_⟩ <;> intro hk2 <;>
      first
        | exact hv
        | exact ⟨m, hj, hv⟩
        | exact absurd (hk.symm.trans hk2) (by decide)

theorem foldlM_append_ok {α β : Type} (f : β → α → Except GoError β) (l1 l2 : List α)
    (b r : β) :
    (l1 ++ l2).foldlM f b = .ok r ↔ ∃ b1, l1.foldlM f b = .ok b1 ∧ l2.foldlM f b1 = .ok r := by
  induction l1 generalizing b with
  | nil =>
    constructor
    · intro h; exact ⟨b, rfl, h⟩
    · rintro ⟨b1, h1, h2⟩; cases h1; exact h2
  | cons a rest ih =>
    rw [List.cons_append, foldlM_cons_ok]
    constructor
    · rintro ⟨b1, h1, h2⟩
      obtain ⟨b2, h3, h4⟩ := (ih b1).1 h2
      exact ⟨b2, (foldlM_cons_ok _ _ _ _ _).2 ⟨b1, h1, h3⟩, h4⟩
    · rintro ⟨b2, h3, h4⟩
      obtain ⟨b1, h1, h5⟩ := (foldlM_cons_ok _ _ _ _ _).1 h3
      exact ⟨b1, h1, (ih b1).2 ⟨b2, h5, h4⟩⟩

theorem foldlM_processAccountField_frame {M : Model} (p : Parser M)
    (l : List (String × OJsonObject)) (a b : Account M)
    (h : l.foldlM (processAccountField p) a = .ok b) :
    ("comment" ∉ keysOf l → b.Comment = a.Comment)
    ∧ ("nonce" ∉ keysOf l → b.Nonce = a.Nonce)
    ∧ ("balance" ∉ keysOf l → b.Balance = a.Balance)
    ∧ ("esdtRoles" ∉ keysOf l → b.ESDTRoles = a.ESDTRoles)
    ∧ ("esdtLastNonces" ∉ keysOf l → b.ESDTLastNonces = a.ESDTLastNonces)
    ∧ ("storage" ∉ keysOf l → b.Storage = a.Storage)
    ∧ ("code" ∉ keysOf l → b.Code = a.Code)
    ∧ ("owner" ∉ keysOf l → b.Owner = a.Owner)
    ∧ ("asyncCallData" ∉ keysOf l → b.AsyncCallData = a.AsyncCallData)
    ∧ b.Address = a.Address := by
  induction l generalizing a with
  | nil =>
    cases h
    exact ⟨fun _ => rfl, fun _ => rfl, fun _ => rfl, fun _ => rfl, fun _ => rfl, fun _ => rfl,
      fun _ => rfl, fun _ => rfl, fun _ => rfl, rfl⟩
  | cons kvp rest ih =>
    obtain ⟨a1, hstep, hrest⟩ := (foldlM_cons_ok _ _ _ _ _).1 h
    obtain ⟨f1, f2, f3, f4, f5, f6, f7, f8, f9, f10⟩ := processAccountField_frame p a a1 kvp hstep
    obtain ⟨g1, g2, g3, g4, g5, g6, g7, g8, g9, g10⟩ := ih a1 hrest
    have hsplit : ∀ k : String, k ∉ keysOf (kvp :: rest) → kvp.1 ≠ k ∧ k ∉ keysOf rest := by
      intro k hk
      simp only [keysOf, List.map_cons, List.mem_cons, not_or] at hk
      exact ⟨fun e => hk.1 e.symm, hk.2⟩
    refine ⟨?_, ?_, ?_, ?_, ?_, ?_, ?_, ?_, ?_, g10.trans f10⟩
    · intro hk; exact (g1 (hsplit _ hk).2).trans (f1 (hsplit _ hk).1)
    · intro hk; exact (g2 (hsplit _ hk).2).trans (f2 (hsplit _ hk).1)
    · intro hk; exact (g3 (hsplit _ hk).2).trans (f3 (hsplit _ hk).1)
    · intro hk; exact (g4 (hsplit _ hk).2).trans (f4 (hsplit _ hk).1)
    · intro hk; exact (g5 (hsplit _ hk).2).trans (f5 (hsplit _ hk).1)
    · intro hk; exact (g6 (hsplit _ hk).2).trans (f6 (hsplit _ hk).1)
    · intro hk; exact (g7 (hsplit _ hk).2).trans (f7 (hsplit _ hk).1)
    · intro hk; exact (g8 (hsplit _ hk).2).trans (f8 (hsplit _ hk).1)
    · intro hk; exact (g9 (hsplit _ hk).2).trans (f9 (hsplit _ hk).1)

theorem foldlM_processAccountField_locate {M : Model} (p : Parser M)
    (fields : List (String × OJsonObject)) (acct0 acctF : Account M) (k : String)
    (v : OJsonObject) (hnd : (keysOf fields).Nodup)
    (hfold : fields.foldlM (processAccountField p) acct0 = .ok acctF)
    (hmem : (k, v) ∈ fields) :
    ∃ before after_ acctB acctA, k ∉ keysOf before ∧ k ∉ keysOf after_
      ∧ before.foldlM (processAccountField p) acct0 = .ok acctB
      ∧ processAccountField p acctB (k, v) = .ok acctA
      ∧ after_.foldlM (processAccountField p) acctA = .ok acctF := by
  obtain ⟨before, after_, rfl⟩ := List.append_of_mem hmem
  obtain ⟨acctB, h1, h2⟩ := (foldlM_append_ok _ _ _ _ _).1 hfold
  obtain ⟨acctA, h3, h4⟩ := (foldlM_cons_ok _ _ _ _ _).1 h2
  simp only [keysOf, List.map_append, List.map_cons] at hnd
  have hnd2 := List.nodup_append.1 hnd
  have hk1 : k ∉ keysOf before := by
    intro hin
    exact hnd2.2.2 hin (List.mem_cons_self _ _)
  have hk2 : k ∉ keysOf after_ := (List.nodup_cons.1 hnd2.2.1).1
  exact ⟨before, after_, acctB, acctA, hk1, hk2, h1, h3, h4⟩

theorem processAccount_field {M : Model} (p : Parser M) (fields : List (String × OJsonObject))
    (acct : Account M) (k : String) (v : OJsonObject) (hnd : (keysOf fields).Nodup)
    (h : processAccount p (.OJsonMap fields) = .ok acct) (hmem : (k, v) ∈ fields) :
    (k = "comment" → p.parseString v = .ok acct.Comment)
    ∧ (k = "nonce" → p.processUint64 v = .ok acct.Nonce)
    ∧ (k = "balance" → p.processBigInt v .bigIntUnsignedBytes = .ok acct.Balance)
    ∧ (k = "esdtRoles" → p.processESDTRoles v = .ok acct.ESDTRoles)
    ∧ (k = "esdtLastNonces" → ∃ m, v = .OJsonMap m
        ∧ p.processESDTLastNonces m = .ok acct.ESDTLastNonces)
    ∧ (k = "storage" → ∃ m, v = .OJsonMap m
        ∧ m.foldlM (processStorageEntry p) [] = .ok acct.Storage)
    ∧ (k = "code" → p.processStringAsByteArray v = .ok acct.Code)
    ∧ (k = "owner" → p.processStringAsByteArray v = .ok acct.Owner)
    ∧ (k = "asyncCallData" → p.parseString v = .ok acct.AsyncCallData) := by
  obtain ⟨before, after_, acctB, acctA, hk1, hk2, h1, h2, h3⟩ :=
    foldlM_processAccountField_locate p fields (Account.zero M) acct k v hnd h hmem
  obtain ⟨s1, s2, s3, s4, s5, s6, s7, s8, s9⟩ := processAccountField_set p acctB acctA (k, v) h2
  obtain ⟨f1, f2, f3, f4, f5, f6, f7, f8, f9, -⟩ :=
    foldlM_processAccountField_frame p after_ acctA acct h3
  obtain ⟨-, -, -, -, -, g6, -, -, -, -⟩ :=
    foldlM_processAccountField_frame p before (Account.zero M) acctB h1
  refine ⟨?_, ?_, ?_, ?_, ?_, ?_, ?_, ?_, ?_⟩
  · intro hk; subst hk; rw [f1 hk2]; exact s1 rfl
  · intro hk; subst hk; rw [f2 hk2]; exact s2 rfl
  · intro hk; subst hk; rw [f3 hk2]; exact s3 rfl
  · intro hk; subst hk; rw [f4 hk2]; exact s4 rfl
  · intro hk; subst hk; rw [f5 hk2]; exact s5 rfl
  · intro hk; subst hk
    obtain ⟨m, hm, hfold⟩ := s6 rfl
    rw [g6 hk1] at hfold
    rw [f6 hk2]
    exact ⟨m, hm, hfold⟩
  · intro hk; subst hk; rw [f7 hk2]; exact s7 rfl
  · intro hk; subst hk; rw [f8 hk2]; exact s8 rfl
  · intro hk; subst hk; rw [f9 hk2]; exact s9 rfl

theorem processStorageEntry_fold {M : Model} (p : Parser M)
    (entries : List (String × OJsonObject)) (acc st : List (StorageKeyValuePair M))
    (h : entries.foldlM (processStorageEntry p) acc = .ok st) :
    ∃ new, st = acc ++ new
      ∧ List.Forall₂ (fun e s => s.Key.Original = e.1
          ∧ p.processSubTreeAsByteArray e.2 = .ok s.Value) entries new := by
  induction entries generalizing acc with
  | nil =>
    cases h
    exact ⟨[], by simp, List.Forall₂.nil⟩
  | cons e rest ih =>
    obtain ⟨b1, hstep, hrest⟩ := (foldlM_cons_ok _ _ _ _ _).1 h
    obtain ⟨new, rfl, hnew⟩ := ih _ hrest
    unfold processStorageEntry at hstep
    cases hk : p.InterpretString e.1 with
    | error err => rw [hk] at hstep; cases hstep
    | ok byteKey =>
      cases hv : p.processSubTreeAsByteArray e.2 with
      | error err => rw [hk, hv] at hstep; cases hstep
      | ok byteVal =>
        rw [hk, hv] at hstep
        cases hstep
        exact ⟨{ Key := NewJSONBytesFromString byteKey e.1, Value := byteVal } :: new,
          by simp, List.Forall₂.cons ⟨rfl, hv⟩ hnew⟩

theorem map_eq_of_forall₂ {α β : Type} (R : α → β → Prop) (f : β → α) (l1 : List α)
    (l2 : List β) (h : List.Forall₂ R l1 l2) (hf : ∀ a b, R a b → f b = a) :
    l2.map f = l1 := by
  induction h with
  | nil => rfl
  | cons hab _ ih => simp [hf _ _ hab, ih]

theorem getValue_of_mem_nodup (m : List (String × OJsonObject)) (k : String) (v : OJsonObject)
    (hnd : (keysOf m).Nodup) (hmem : (k, v) ∈ m) : getValue m k = some v := by
  induction m with
  | nil => cases hmem
  | cons kvp rest ih =>
    simp only [keysOf, List.map_cons, List.nodup_cons] at hnd
    rcases List.mem_cons.1 hmem with h | h
    · subst h
      simp [getValue]
    · have hne : kvp.1 ≠ k := by
        intro e
        apply hnd.1
        rw [e]
        exact List.mem_map_of_mem Prod.fst h
      simp only [getValue, hne, if_false]
      exact ih hnd.2 h

theorem accountToOJ_getValue {M : Model} (w : Writer M) (account : Account M)
    (hESDT : ∀ items m k, k ≠ "esdt" → getValue (w.appendESDTToOJ items m) k = getValue m k) :
    getValue (accountToOJ w account) "shard" = none
    ∧ getValue (accountToOJ w account) "nonce" = some (w.uint64ToOJ account.Nonce)
    ∧ getValue (accountToOJ w account) "balance" = some (w.bigIntToOJ account.Balance)
    ∧ getValue (accountToOJ w account) "storage"
        = some (.OJsonMap (storageToOJ w account.Storage))
    ∧ getValue (accountToOJ w account) "code" = some (w.bytesFromStringToOJ account.Code)
    ∧ getValue (accountToOJ w account) "comment"
        = (if account.Comment.length > 0 then some (stringToOJ account.Comment) else none)
    ∧ getValue (accountToOJ w account) "esdtRoles"
        = (if account.ESDTRoles.length > 0 then some (w.esdtRolesToMapOJ account.ESDTRoles)
            else none)
    ∧ getValue (accountToOJ w account) "esdtLastNonces"
        = (if account.ESDTLastNonces.length > 0
            then some (w.esdtLastNoncesToMapOJ account.ESDTLastNonces) else none)
    ∧ getValue (accountToOJ w account) "owner"
        = (if account.Owner.Value.length > 0 then some (w.bytesFromStringToOJ account.Owner)
            else none)
    ∧ getValue (accountToOJ w account) "asyncCallData"
        = (if account.AsyncCallData.length > 0 then some (stringToOJ account.AsyncCallData)
            else none) := by
  refine ⟨?_, ?_, ?_, ?_, ?_, ?_, ?_, ?_, ?_, ?_⟩ <;>
    (unfold accountToOJ
     simp [hESDT, getValue_ite, getValue_Put, getValue_NewMap])

theorem exists_of_forall₂_mem {α β : Type} (R : α → β → Prop) (l1 : List α) (l2 : List β)
    (h : List.Forall₂ R l1 l2) (a : α) (ha : a ∈ l1) : ∃ b ∈ l2, R a b := by
  induction h with
  | nil => cases ha
  | cons hab _ ih =>
    rcases List.mem_cons.1 ha with rfl | ht
    · exact ⟨_, List.mem_cons_self _ _, hab⟩
    · obtain ⟨b, hb, hr⟩ := ih ht
      exact ⟨b, List.mem_cons_of_mem _ hb, hr⟩

theorem forall₂_keysOf {β : Type} (R : String × OJsonObject → β → Prop)
    (S : String → β → Prop) (himp : ∀ e b, R e b → S e.1 b)
    (l : List (String × OJsonObject)) (l2 : List β) (h : List.Forall₂ R l l2) :
    List.Forall₂ S (keysOf l) l2 := by
  induction h with
  | nil => exact List.Forall₂.nil
  | cons hab _ ih => exact List.Forall₂.cons (himp _ _ hab) ih

theorem ParsedFrom_address {M : Model} (p : Parser M) (kvp : String × OJsonObject)
    (a : Account M) (h : ParsedFrom p kvp a) : a.Address.Original = kvp.1 := by
  obtain ⟨acct, addr, -, haddr, rfl⟩ := h
  obtain ⟨-, b, -, -, rfl⟩ := (parseAccountAddress_ok p _ addr).1 haddr
  rfl

/-- C7 (as amended). Let `processAccountMap` accept an accounts map whose
address keys are pairwise distinct, let the writer render an address as its
original string and its ESDT helper write no key but `esdt`, and let each field
writer give back the JSON its field parser accepted. Then `accountsToOJ` of the
parsed accounts has the same address keys in the same order, and for each
account whose field keys are pairwise distinct: every `nonce`, `balance` and
`code` of the input is written with the same value, `storage` is written with
the same value when its keys are pairwise distinct, and each of `comment`,
`owner`, `asyncCallData`, `esdtRoles` and `esdtLastNonces` of the input is
written with the same value when the parsed field is non-empty and left out
when it is empty. -/
theorem processAccountMap_then_accountsToOJ_keeps_written_fields {M : Model}
    (p : Parser M) (w : Writer M) (kv : List (String × OJsonObject))
    (accounts : List (Account M))
    (hAccepted : processAccountMap p (.OJsonMap kv) = .ok accounts)
    (hKeys : (keysOf kv).Nodup)
    (hAddr : ∀ b, w.bytesFromStringToString b = b.Original)
    (hESDT : ∀ items m k, k ≠ "esdt" → getValue (w.appendESDTToOJ items m) k = getValue m k)
    (hString : ∀ v str, p.parseString v = .ok str → stringToOJ str = v)
    (hUint64 : ∀ v n, p.processUint64 v = .ok n → w.uint64ToOJ n = v)
    (hBigInt : ∀ v n, p.processBigInt v .bigIntUnsignedBytes = .ok n → w.bigIntToOJ n = v)
    (hBytes : ∀ v b, p.processStringAsByteArray v = .ok b → w.bytesFromStringToOJ b = v)
    (hTree : ∀ v t, p.processSubTreeAsByteArray v = .ok t → w.bytesFromTreeToOJ t = v)
    (hRoles : ∀ v r, p.processESDTRoles v = .ok r → w.esdtRolesToMapOJ r = v)
    (hNonces : ∀ m r, p.processESDTLastNonces m = .ok r
      → w.esdtLastNoncesToMapOJ r = .OJsonMap m) :
    accountsToOJ w accounts = .OJsonMap (accountsToMap w accounts)
    ∧ keysOf (accountsToMap w accounts) = keysOf kv
    ∧ ∀ addr body, (addr, body) ∈ kv →
        ∃ fields account, body = .OJsonMap fields ∧ account ∈ accounts
          ∧ ParsedFrom p (addr, body) account
          ∧ getValue (accountsToMap w accounts) addr = some (.OJsonMap (accountToOJ w account))
          ∧ ((keysOf fields).Nodup → ∀ k v, (k, v) ∈ fields →
              ((k = "nonce" ∨ k = "balance" ∨ k = "code") →
                getValue (accountToOJ w account) k = some v)
              ∧ (k = "storage" → distinctKeys v →
                getValue (accountToOJ w account) k = some v)
              ∧ (k = "comment" → getValue (accountToOJ w account) k
                  = if account.Comment.length > 0 then some v else none)
              ∧ (k = "owner" → getValue (accountToOJ w account) k
                  = if account.Owner.Value.length > 0 then some v else none)
              ∧ (k = "asyncCallData" → getValue (accountToOJ w account) k
                  = if account.AsyncCallData.length > 0 then some v else none)
              ∧ (k = "esdtRoles" → getValue (accountToOJ w account) k
                  = if account.ESDTRoles.length > 0 then some v else none)
              ∧ (k = "esdtLastNonces" → getValue (accountToOJ w account) k
                  = if account.ESDTLastNonces.length > 0 then some v else none)) := by
  obtain ⟨new, hnew, hall⟩ := processAccountMap_fold p kv [] accounts hAccepted
  simp only [List.nil_append] at hnew
  subst hnew
  have hrender : accounts.map (fun a => w.bytesFromStringToString a.Address) = keysOf kv :=
    map_eq_of_forall₂ _ _ _ _
      (forall₂_keysOf (ParsedFrom p) (fun k a => a.Address.Original = k)
        (fun e a h => ParsedFrom_address p e a h) kv accounts hall)
      (fun k a hka => by rw [hAddr]; exact hka)
  have hmap : accountsToMap w accounts
      = accounts.map (fun a => (w.bytesFromStringToString a.Address,
          OJsonObject.OJsonMap (accountToOJ w a))) := by
    have h := foldl_Put_of_nodup (fun a : Account M => w.bytesFromStringToString a.Address)
      (fun a => .OJsonMap (accountToOJ w a)) accounts NewMap (by rw [hrender]; exact hKeys)
      (fun _ _ => by simp [keysOf, NewMap])
    simpa [NewMap, accountsToMap] using h
  have hkeys : keysOf (accountsToMap w accounts) = keysOf kv := by
    rw [hmap, ← hrender]
    simp [keysOf]
  refine ⟨rfl, hkeys, ?_⟩
  intro addr body hmem
  obtain ⟨account, hacc, hparsed⟩ := exists_of_forall₂_mem _ _ _ hall (addr, body) hmem
  have haddr : w.bytesFromStringToString account.Address = addr := by
    rw [hAddr]
    exact ParsedFrom_address p _ _ hparsed
  have hget : getValue (accountsToMap w accounts) addr
      = some (.OJsonMap (accountToOJ w account)) := by
    apply getValue_of_mem_nodup _ _ _ (by rw [hkeys]; exact hKeys)
    rw [hmap, ← haddr]
    exact List.mem_map_of_mem
      (fun a => (w.bytesFromStringToString a.Address, OJsonObject.OJsonMap (accountToOJ w a))) hacc
  obtain ⟨-, w2, w3, w4, w5, w6, w7, w8, w9, w10⟩ := accountToOJ_getValue w account hESDT
  have hparsed2 : ParsedFrom p (addr, body) account := hparsed
  obtain ⟨acct, a0, hacct, -, hrec⟩ := hparsed
  cases body with
  | OJsonString x => cases hacct
  | OJsonList x => cases hacct
  | OJsonBool x => cases hacct
  | OJsonMap fields =>
    refine ⟨fields, account, rfl, hacc, hparsed2, hget, ?_⟩
    intro hnd k v hkv
    obtain ⟨q1, q2, q3, q4, q5, q6, q7, q8, q9⟩ :=
      processAccount_field p fields acct k v hnd hacct hkv
    subst hrec
    refine ⟨?_, ?_, ?_, ?_, ?_, ?_, ?_⟩
    · rintro (hk | hk | hk)
      · subst hk; rw [w2]; exact congrArg some (hUint64 _ _ (q2 rfl))
      · subst hk; rw [w3]; exact congrArg some (hBigInt _ _ (q3 rfl))
      · subst hk; rw [w5]; exact congrArg some (hBytes _ _ (q7 rfl))
    · intro hk hdist
      subst hk
      obtain ⟨entries, rfl, hfold⟩ := q6 rfl
      obtain ⟨st, hst, hforall⟩ := processStorageEntry_fold p entries [] _ hfold
      simp only [List.nil_append] at hst
      have hk1 : st.map (fun s => w.bytesFromStringToString s.Key) = keysOf entries :=
        map_eq_of_forall₂ _ _ _ _
          (forall₂_keysOf _ (fun k (s : StorageKeyValuePair M) => s.Key.Original = k)
            (fun _ _ h => h.1) entries st hforall)
          (fun k s hks => by rw [hAddr]; exact hks)
      have hk2 : st.map (fun s => (w.bytesFromStringToString s.Key, w.bytesFromTreeToOJ s.Value))
          = entries :=
        map_eq_of_forall₂ _ _ _ _ hforall
          (fun e s hes => by
            rw [hAddr, hes.1, hTree _ _ hes.2])
      rw [w4]
      simp only [show ({ acct with Address := a0 } : Account M).Storage = acct.Storage from rfl,
        hst]
      rw [storageToOJ_of_nodup w st (by rw [hk1]; exact hdist), hk2]
    · intro hk; subst hk; rw [w6, hString _ _ (q1 rfl)]
    · intro hk; subst hk; rw [w9, hBytes _ _ (q8 rfl)]
    · intro hk; subst hk; rw [w10, hString _ _ (q9 rfl)]
    · intro hk; subst hk; rw [w7, hRoles _ _ (q4 rfl)]
    · intro hk; subst hk
      obtain ⟨m, rfl, hm⟩ := q5 rfl
      rw [w8, hNonces _ _ hm]

theorem refWriter_appendESDTToOJ_only_esdt (items : List refModel.ESDTData)
    (m : List (String × OJsonObject)) (k : String) (hk : k ≠ "esdt") :
    getValue (refWriter.appendESDTToOJ items m) k = getValue m k := by
  simp only [refWriter]
  by_cases h : items.length = 0
  · simp [h]
  · simp [h, getValue_Put, hk]

theorem refProcessNumber_inverse (v : OJsonObject) (n : RefNumber)
    (h : refProcessNumber v = .ok n) : OJsonObject.OJsonString n.Original = v := by
  cases v with
  | OJsonString x =>
    simp only [refProcessNumber] at h
    cases hd : parseDecimal x with
    | none => rw [hd] at h; cases h
    | some k => rw [hd] at h; cases h; rfl
  | OJsonMap x => cases h
  | OJsonList x => cases h
  | OJsonBool x => cases h

theorem refParser_parseString_inverse (v : OJsonObject) (str : String)
    (h : refParser.parseString v = .ok str) : stringToOJ str = v := by
  cases v with
  | OJsonString x => cases h; rfl
  | OJsonMap x => cases h
  | OJsonList x => cases h
  | OJsonBool x => cases h

theorem refParser_bytes_inverse (v : OJsonObject) (b : JSONBytesFromString)
    (h : refParser.processStringAsByteArray v = .ok b) : refWriter.bytesFromStringToOJ b = v := by
  cases v with
  | OJsonString x =>
    simp only [refParser] at h
    cases hi : refInterpretString x with
    | error e => rw [hi] at h; cases h
    | ok bytes => rw [hi] at h; cases h; rfl
  | OJsonMap x => cases h
  | OJsonList x => cases h
  | OJsonBool x => cases h

theorem refParser_roles_inverse (v : OJsonObject) (r : List refModel.ESDTRoles)
    (h : refParser.processESDTRoles v = .ok r) : refWriter.esdtRolesToMapOJ r = v := by
  cases v with
  | OJsonString x => cases h
  | OJsonMap x => cases h; rfl
  | OJsonList x => cases h
  | OJsonBool x => cases h

/-- C7, witness: the accounts map `docAccounts`, read by the reference parser
and written back by the reference writer: same address keys, and the storage
map of the first account is written back as it was read. -/
theorem processAccountMap_then_accountsToOJ_keeps_written_fields_witness :
    processAccountMap refParser (.OJsonMap docAccounts) = .ok docParsed
    ∧ keysOf (accountsToMap refWriter docParsed) = keysOf docAccounts
    ∧ accountsToOJ refWriter docParsed
      = .OJsonMap
          [ (addrA, .OJsonMap [ ("comment", .OJsonString "first"), ("nonce", .OJsonString "7"),
              ("balance", .OJsonString "1000"),
              ("storage", .OJsonMap [("k1", .OJsonString "v1")]),
              ("code", .OJsonString "wasm") ]),
            (addrB, .OJsonMap [ ("nonce", .OJsonString ""), ("balance", .OJsonString ""),
              ("storage", .OJsonMap []), ("code", .OJsonString "") ]) ] :=
  have h := processAccountMap_then_accountsToOJ_keeps_written_fields refParser refWriter
    docAccounts docParsed rfl (by decide) (fun _ => rfl) refWriter_appendESDTToOJ_only_esdt
    refParser_parseString_inverse refProcessNumber_inverse refProcessNumber_inverse
    refParser_bytes_inverse (fun _ _ h => by cases h; rfl) refParser_roles_inverse
    (fun _ _ h => by cases h; rfl)
  ⟨rfl, h.2.1, rfl⟩

/-- C7, counterexample to the claim as stated: an accounts map whose one account
has the fields `shard` and `comment` (empty) is accepted by `processAccountMap`,
and `accountsToOJ` of the parsed account has neither a `shard` nor a `comment`
field: the writer has no `shard` path and leaves an empty comment out. -/
theorem accountsToOJ_drops_shard_and_empty_comment :
    processAccountMap refParser
        (.OJsonMap [(addrB, .OJsonMap [("shard", .OJsonString "1"), ("comment", .OJsonString "")])])
      = .ok [{ Account.zero refModel with Address := ⟨bytesB, addrB⟩, Shard := ⟨1, "1"⟩ }]
    ∧ accountsToOJ refWriter
        [{ Account.zero refModel with Address := ⟨bytesB, addrB⟩, Shard := ⟨1, "1"⟩ }]
      = .OJsonMap [(addrB, .OJsonMap [ ("nonce", .OJsonString ""), ("balance", .OJsonString ""),
          ("storage", .OJsonMap []), ("code", .OJsonString "") ])]
    ∧ getValue (accountToOJ refWriter
        { Account.zero refModel with Address := ⟨bytesB, addrB⟩, Shard := ⟨1, "1"⟩ }) "shard"
      = none
    ∧ getValue (accountToOJ refWriter
        { Account.zero refModel with Address := ⟨bytesB, addrB⟩, Shard := ⟨1, "1"⟩ }) "comment"
      = none :=
  ⟨rfl, rfl, rfl, rfl⟩

/-! ### Re-initialisation -/

/-- C11 (as amended). `host.InitState` calls `InitState` exactly once on each of
the big-int, output, runtime and storage contexts, in this order, and on no
other context, then sets `ethInput` to nil: whatever the host and the context
implementations are, these four contexts are replaced by their re-initialised
state, `ethInput` is nil, and the metering and blockchain contexts are left
exactly as they were. -/
theorem initState_reinitialises_four_contexts_and_ethInput {σ ο : Type} (C : Contexts σ ο)
    (host : vmHost σ) :
    vmHost.InitStateBody.map Stmt.target
        = [some .bigInt, some .output, some .runtime, some .storage, none]
    ∧ (∀ c : ContextId, vmHost.InitStateBody.count (.call c .InitState)
        = if c ∈ snapshotContexts then 1 else 0)
    ∧ vmHost.InitStateBody.count .setEthInputNil = 1
    ∧ vmHost.InitStateBody.length = 5
    ∧ vmHost.InitState C host
      = { ethInput := none,
          blockchainContext := host.blockchainContext,
          runtimeContext := C.method .runtime .InitState host.runtimeContext,
          outputContext := C.method .output .InitState host.outputContext,
          meteringContext := host.meteringContext,
          storageContext := C.method .storage .InitState host.storageContext,
          bigIntContext := C.method .bigInt .InitState host.bigIntContext } := by
  refine ⟨rfl, ?_, by decide, rfl, rfl⟩
  intro c
  cases c <;> decide

/-- C11, counterexample to the claim as stated: `host.InitState` makes no
`InitState` call on the metering or the blockchain context; on a host whose
reference contexts all hold 5 (and `InitState` resets a context to 0), the
big-int context is reset and the metering and blockchain contexts still hold 5. -/
theorem initState_leaves_metering_and_blockchain :
    vmHost.InitStateBody.count (.call .metering .InitState) = 0
    ∧ vmHost.InitStateBody.count (.call .blockchain .InitState) = 0
    ∧ (vmHost.InitState snapContexts (snapHost 5)).bigIntContext = ⟨0, [], []⟩
    ∧ (vmHost.InitState snapContexts (snapHost 5)).meteringContext = ⟨5, [], []⟩
    ∧ (vmHost.InitState snapContexts (snapHost 5)).blockchainContext = ⟨5, [], []⟩ :=
  ⟨by decide, by decide, rfl, rfl, rfl⟩

/-! ### The accounts map, entry by entry -/

theorem processAccountMapEntry_of_parsedFrom {M : Model} (p : Parser M)
    (accounts : List (Account M)) (kvp : String × OJsonObject) (a : Account M)
    (h : ParsedFrom p kvp a) : processAccountMapEntry p accounts kvp = .ok (accounts ++ [a]) := by
  obtain ⟨acct, addr, h1, h2, rfl⟩ := h
  unfold processAccountMapEntry
  rw [h1, h2]

theorem foldlM_processAccountMapEntry_of_forall₂ {M : Model} (p : Parser M)
    (kv : List (String × OJsonObject)) (parsed acc : List (Account M))
    (h : List.Forall₂ (ParsedFrom p) kv parsed) :
    kv.foldlM (processAccountMapEntry p) acc = .ok (acc ++ parsed) := by
  induction h generalizing acc with
  | nil => simp [List.foldlM_nil, pure, Except.pure]
  | cons hab _ ih =>
    rw [foldlM_cons_ok]
    exact ⟨_, processAccountMapEntry_of_parsedFrom p acc _ _ hab, by rw [ih]; simp⟩

theorem foldlM_processAccountMapEntry_fails {M : Model} (p : Parser M)
    (before after_ : List (String × OJsonObject)) (entry : String × OJsonObject)
    (parsed acc : List (Account M)) (err : GoError)
    (h : List.Forall₂ (ParsedFrom p) before parsed)
    (hstep : ∀ accounts, processAccountMapEntry p accounts entry = .error err) :
    (before ++ entry :: after_).foldlM (processAccountMapEntry p) acc = .error err := by
  induction h generalizing acc with
  | nil =>
    rw [List.nil_append, List.foldlM_cons, hstep]
    rfl
  | cons hab _ ih =>
    rw [List.cons_append, List.foldlM_cons, processAccountMapEntry_of_parsedFrom p acc _ _ hab]
    exact ih _

/-- C16. `processAccountMap` fails on a JSON value that is not a map; on a map it
succeeds exactly when every entry has a valid body and a valid address, and then
it returns one account per entry, in document order, the account of an entry
having `parseAccountAddress` of the key as `Address` and `processAccount` of the
value for its other fields; and it fails at the first entry, in document order,
that has an invalid body or an invalid address, with the body's error when the
body is invalid (whatever the address is) and the address's error otherwise. -/
theorem processAccountMap_one_account_per_entry_in_order {M : Model} (p : Parser M) :
    (∀ j : OJsonObject, (∀ kv, j ≠ .OJsonMap kv) →
        processAccountMap p j = .error ⟨"unmarshalled account map object is not a map"⟩)
    ∧ (∀ kv accounts, processAccountMap p (.OJsonMap kv) = .ok accounts
        ↔ List.Forall₂ (ParsedFrom p) kv accounts)
    ∧ (∀ kv accounts, processAccountMap p (.OJsonMap kv) = .ok accounts →
        accounts.length = kv.length)
    ∧ (∀ before entry after_ parsed err, List.Forall₂ (ParsedFrom p) before parsed →
        processAccount p entry.2 = .error err →
        processAccountMap p (.OJsonMap (before ++ entry :: after_)) = .error err)
    ∧ (∀ before entry after_ parsed acct err, List.Forall₂ (ParsedFrom p) before parsed →
        processAccount p entry.2 = .ok acct → parseAccountAddress p entry.1 = .error err →
        processAccountMap p (.OJsonMap (before ++ entry :: after_)) = .error err) := by
  have hiff : ∀ kv accounts, processAccountMap p (.OJsonMap kv) = .ok accounts
      ↔ List.Forall₂ (ParsedFrom p) kv accounts := by
    intro kv accounts
    constructor
    · intro h
      obtain ⟨kv2, hkv, hall⟩ := processAccountMap_ok p _ accounts h
      cases hkv
      exact hall
    · intro h
      have := foldlM_processAccountMapEntry_of_forall₂ p kv accounts [] h
      simpa [processAccountMap] using this
  refine ⟨?_, hiff, ?_, ?_, ?_⟩
  · intro j hj
    cases j with
    | OJsonMap kv => exact absurd rfl (hj kv)
    | OJsonString v => rfl
    | OJsonList v => rfl
    | OJsonBool v => rfl
  · intro kv accounts h
    exact ((hiff kv accounts).1 h).length_eq.symm
  · intro before entry after_ parsed err hall hbody
    apply foldlM_processAccountMapEntry_fails p before after_ entry parsed [] err hall
    intro accounts
    unfold processAccountMapEntry
    rw [hbody]
  · intro before entry after_ parsed acct err hall hbody haddr
    apply foldlM_processAccountMapEntry_fails p before after_ entry parsed [] err hall
    intro accounts
    unfold processAccountMapEntry
    rw [hbody, haddr]

/-! ### Rejected account fields -/

theorem foldlM_error_at {α β : Type} (f : β → α → Except GoError β) (before after_ : List α)
    (x : α) (b b1 : β) (e : GoError) (h1 : before.foldlM f b = .ok b1)
    (h2 : f b1 x = .error e) : (before ++ x :: after_).foldlM f b = .error e := by
  induction before generalizing b with
  | nil =>
    cases h1
    rw [List.nil_append, List.foldlM_cons, h2]
    rfl
  | cons a rest ih =>
    obtain ⟨b2, hs, hr⟩ := (foldlM_cons_ok _ _ _ _ _).1 h1
    rw [List.cons_append, List.foldlM_cons, hs]
    exact ih b2 hr

theorem foldlM_error_of_mem {α β : Type} (f : β → α → Except GoError β) (l : List α) (x : α)
    (hx : x ∈ l) (hfail : ∀ b, ∃ e, f b x = .error e) (b : β) :
    ∃ e, l.foldlM f b = .error e := by
  induction l generalizing b with
  | nil => cases hx
  | cons a rest ih =>
    rw [List.foldlM_cons]
    cases hs : f b a with
    | error e => exact ⟨e, rfl⟩
    | ok b2 =>
      rcases List.mem_cons.1 hx with rfl | hrest
      · obtain ⟨e, he⟩ := hfail b
        rw [he] at hs
        cases hs
      · exact ih hrest b2

theorem processAccountField_unknown {M : Model} (p : Parser M) (acct : Account M)
    (kvp : String × OJsonObject) (h : kvp.1 ∉ accountFieldKeys) :
    processAccountField p acct kvp = .error ⟨"unknown account field: " ++ kvp.1⟩ := by
  simp only [accountFieldKeys, List.mem_cons, List.mem_singleton, List.not_mem_nil, or_false,
    not_or] at h
  obtain ⟨h1, h2, h3, h4, h5, h6, h7, h8, h9, h10, h11⟩ := h
  unfold processAccountField
  rw [if_neg h1, if_neg h2, if_neg h3, if_neg h4, if_neg h5, if_neg h6, if_neg h7, if_neg h8,
    if_neg h9, if_neg h10, if_neg h11]

theorem processESDTEntry_fails {M : Model} (p : Parser M) (entry : String × OJsonObject)
    (h : (∃ e, p.InterpretString entry.1 = .error e)
      ∨ ∀ tokenName items, ∃ e, p.processAppendESDTData tokenName entry.2 items = .error e)
    (items : List M.ESDTData) : ∃ e, processESDTEntry p items entry = .error e := by
  unfold processESDTEntry
  rcases h with ⟨e, he⟩ | h
  · rw [he]
    exact ⟨_, rfl⟩
  · cases hk : p.InterpretString entry.1 with
    | error e => exact ⟨_, rfl⟩
    | ok tokenName =>
      obtain ⟨e, he⟩ := h tokenName items
      simp only [he]
      exact ⟨_, rfl⟩

theorem processStorageEntry_fails {M : Model} (p : Parser M) (entry : String × OJsonObject)
    (h : (∃ e, p.InterpretString entry.1 = .error e)
      ∨ ∃ e, p.processSubTreeAsByteArray entry.2 = .error e)
    (storage : List (StorageKeyValuePair M)) :
    ∃ e, processStorageEntry p storage entry = .error e := by
  unfold processStorageEntry
  rcases h with ⟨e, he⟩ | ⟨e, he⟩
  · rw [he]
    exact ⟨_, rfl⟩
  · cases hk : p.InterpretString entry.1 with
    | error e2 => exact ⟨_, rfl⟩
    | ok byteKey =>
      simp only [he]
      exact ⟨_, rfl⟩

theorem processAccountField_fails {M : Model} (p : Parser M) (kvp : String × OJsonObject)
    (acct : Account M) (h : fieldParserFails p acct kvp) :
    ∃ e, processAccountField p acct kvp = .error e := by
  obtain ⟨k, v⟩ := kvp
  unfold fieldParserFails at h
  simp only at h
  rcases h with ⟨hk, e, he⟩ | ⟨hk, e, he⟩ | ⟨hk, e, he⟩ | ⟨hk, e, he⟩ | ⟨hk, hv⟩ | ⟨hk, e, he⟩
    | ⟨hk, hv⟩ | ⟨hk, hv⟩ | ⟨hk, e, he⟩ | ⟨hk, e, he⟩ | ⟨hk, e, he⟩
  · subst hk; simp only [processAccountField, he, if_true]; exact ⟨_, rfl⟩
  · subst hk; simp [processAccountField, he]
  · subst hk; simp [processAccountField, he]
  · subst hk; simp [processAccountField, he]
  · subst hk
    rcases hv with hnm | ⟨m, rfl, e, he⟩
    · cases v with
      | OJsonMap m => exact absurd rfl (hnm m)
      | OJsonString x => simp [processAccountField]
      | OJsonList x => simp [processAccountField]
      | OJsonBool x => simp [processAccountField]
    · simp [processAccountField, he]
  · subst hk; simp [processAccountField, he]
  · subst hk
    rcases hv with hnm | ⟨m, rfl, e, he⟩
    · cases v with
      | OJsonMap m => exact absurd rfl (hnm m)
      | OJsonString x => simp [processAccountField]
      | OJsonList x => simp [processAccountField]
      | OJsonBool x => simp [processAccountField]
    · simp [processAccountField, he]
  · subst hk
    rcases hv with hnm | ⟨m, rfl, e, he⟩
    · cases v with
      | OJsonMap m => exact absurd rfl (hnm m)
      | OJsonString x => simp [processAccountField]
      | OJsonList x => simp [processAccountField]
      | OJsonBool x => simp [processAccountField]
    · simp [processAccountField, he]
  · subst hk; simp [processAccountField, he]
  · subst hk; simp [processAccountField, he]
  · subst hk; simp [processAccountField, he]

theorem fieldParserFails_of_error {M : Model} (p : Parser M) (acct : Account M)
    (kvp : String × OJsonObject) (e : GoError) (hk : kvp.1 ∈ accountFieldKeys)
    (h : processAccountField p acct kvp = .error e) : fieldParserFails p acct kvp := by
  obtain ⟨k, v⟩ := kvp
  unfold processAccountField at h
  unfold fieldParserFails
  dsimp only at h hk ⊢
  by_cases h0 : k = "comment"
  · rw [if_pos h0] at h
    cases hv : p.parseString v with
    | ok x => rw [hv] at h; cases h
    | error err => exact Or.inl ⟨h0, err, rfl⟩
  rw [if_neg h0] at h
  by_cases h1 : k = "shard"
  · rw [if_pos h1] at h
    cases hv : p.processUint64 v with
    | ok x => rw [hv] at h; cases h
    | error err => exact Or.inr (Or.inl ⟨h1, err, rfl⟩)
  rw [if_neg h1] at h
  by_cases h2 : k = "nonce"
  · rw [if_pos h2] at h
    cases hv : p.processUint64 v with
    | ok x => rw [hv] at h; cases h
    | error err => exact Or.inr (Or.inr (Or.inl ⟨h2, err, rfl⟩))
  rw [if_neg h2] at h
  by_cases h3 : k = "balance"
  · rw [if_pos h3] at h
    cases hv : p.processBigInt v .bigIntUnsignedBytes with
    | ok x => rw [hv] at h; cases h
    | error err => exact Or.inr (Or.inr (Or.inr (Or.inl ⟨h3, err, rfl⟩)))
  rw [if_neg h3] at h
  by_cases h4 : k = "esdt"
  · rw [if_pos h4] at h
    cases v with
    | OJsonMap m =>
      dsimp only at h
      cases hv : m.foldlM (processESDTEntry p) acct.ESDTData with
      | ok x => rw [hv] at h; cases h
      | error err => exact Or.inr (Or.inr (Or.inr (Or.inr (Or.inl ⟨h4, Or.inr ⟨m, rfl, err, hv⟩⟩))))
    | OJsonString x => exact Or.inr (Or.inr (Or.inr (Or.inr (Or.inl ⟨h4, Or.inl (fun m hm => by cases hm)⟩))))
    | OJsonList x => exact Or.inr (Or.inr (Or.inr (Or.inr (Or.inl ⟨h4, Or.inl (fun m hm => by cases hm)⟩))))
    | OJsonBool x => exact Or.inr (Or.inr (Or.inr (Or.inr (Or.inl ⟨h4, Or.inl (fun m hm => by cases hm)⟩))))
  rw [if_neg h4] at h
  by_cases h5 : k = "esdtRoles"
  · rw [if_pos h5] at h
    cases hv : p.processESDTRoles v with
    | ok x => rw [hv] at h; cases h
    | error err => exact Or.inr (Or.inr (Or.inr (Or.inr (Or.inr (Or.inl ⟨h5, err, rfl⟩)))))
  rw [if_neg h5] at h
  by_cases h6 : k = "esdtLastNonces"
  · rw [if_pos h6] at h
    cases v with
    | OJsonMap m =>
      dsimp only at h
      cases hv : p.processESDTLastNonces m with
      | ok x => rw [hv] at h; cases h
      | error err => exact Or.inr (Or.inr (Or.inr (Or.inr (Or.inr (Or.inr (Or.inl ⟨h6, Or.inr ⟨m, rfl, err, hv⟩⟩))))))
    | OJsonString x => exact Or.inr (Or.inr (Or.inr (Or.inr (Or.inr (Or.inr (Or.inl ⟨h6, Or.inl (fun m hm => by cases hm)⟩))))))
    | OJsonList x => exact Or.inr (Or.inr (Or.inr (Or.inr (Or.inr (Or.inr (Or.inl ⟨h6, Or.inl (fun m hm => by cases hm)⟩))))))
    | OJsonBool x => exact Or.inr (Or.inr (Or.inr (Or.inr (Or.inr (Or.inr (Or.inl ⟨h6, Or.inl (fun m hm => by cases hm)⟩))))))
  rw [if_neg h6] at h
  by_cases h7 : k = "storage"
  · rw [if_pos h7] at h
    cases v with
    | OJsonMap m =>
      dsimp only at h
      cases hv : m.foldlM (processStorageEntry p) acct.Storage with
      | ok x => rw [hv] at h; cases h
      | error err => exact Or.inr (Or.inr (Or.inr (Or.inr (Or.inr (Or.inr (Or.inr (Or.inl ⟨h7, Or.inr ⟨m, rfl, err, hv⟩⟩)))))))
    | OJsonString x => exact Or.inr (Or.inr (Or.inr (Or.inr (Or.inr (Or.inr (Or.inr (Or.inl ⟨h7, Or.inl (fun m hm => by cases hm)⟩)))))))
    | OJsonList x => exact Or.inr (Or.inr (Or.inr (Or.inr (Or.inr (Or.inr (Or.inr (Or.inl ⟨h7, Or.inl (fun m hm => by cases hm)⟩)))))))
    | OJsonBool x => exact Or.inr (Or.inr (Or.inr (Or.inr (Or.inr (Or.inr (Or.inr (Or.inl ⟨h7, Or.inl (fun m hm => by cases hm)⟩)))))))
  rw [if_neg h7] at h
  by_cases h8 : k = "code"
  · rw [if_pos h8] at h
    cases hv : p.processStringAsByteArray v with
    | ok x => rw [hv] at h; cases h
    | error err => exact Or.inr (Or.inr (Or.inr (Or.inr (Or.inr (Or.inr (Or.inr (Or.inr (Or.inl ⟨h8, err, rfl⟩))))))))
  rw [if_neg h8] at h
  by_cases h9 : k = "owner"
  · rw [if_pos h9] at h
    cases hv : p.processStringAsByteArray v with
    | ok x => rw [hv] at h; cases h
    | error err => exact Or.inr (Or.inr (Or.inr (Or.inr (Or.inr (Or.inr (Or.inr (Or.inr (Or.inr (Or.inl ⟨h9, err, rfl⟩)))))))))
  rw [if_neg h9] at h
  by_cases h10 : k = "asyncCallData"
  · rw [if_pos h10] at h
    cases hv : p.parseString v with
    | ok x => rw [hv] at h; cases h
    | error err => exact Or.inr (Or.inr (Or.inr (Or.inr (Or.inr (Or.inr (Or.inr (Or.inr (Or.inr (Or.inr (⟨h10, err, rfl⟩))))))))))
  rw [if_neg h10] at h
  exfalso
  simp only [accountFieldKeys, List.mem_cons, List.mem_singleton, List.not_mem_nil, or_false] at hk
  rcases hk with hk | hk | hk | hk | hk | hk | hk | hk | hk | hk | hk
  all_goals first
    | exact h0 hk
    | exact h1 hk
    | exact h2 hk
    | exact h3 hk
    | exact h4 hk
    | exact h5 hk
    | exact h6 hk
    | exact h7 hk
    | exact h8 hk
    | exact h9 hk
    | exact h10 hk

theorem fieldParserFails_known {M : Model} (p : Parser M) (acct : Account M)
    (kvp : String × OJsonObject) (h : fieldParserFails p acct kvp) :
    kvp.1 ∈ accountFieldKeys := by
  unfold fieldParserFails at h
  rcases h with ⟨hk, -⟩ | ⟨hk, -⟩ | ⟨hk, -⟩ | ⟨hk, -⟩ | ⟨hk, -⟩ | ⟨hk, -⟩ | ⟨hk, -⟩ | ⟨hk, -⟩
    | ⟨hk, -⟩ | ⟨hk, -⟩ | ⟨hk, -⟩ <;> rw [hk] <;> decide

theorem foldlM_error_split {α β : Type} (f : β → α → Except GoError β) (l : List α) (b : β)
    (e : GoError) (h : l.foldlM f b = .error e) :
    ∃ before x after_ b1, l = before ++ x :: after_ ∧ before.foldlM f b = .ok b1
      ∧ f b1 x = .error e := by
  induction l generalizing b with
  | nil => cases h
  | cons a rest ih =>
    rw [List.foldlM_cons] at h
    cases hs : f b a with
    | error e2 =>
      rw [hs] at h
      cases h
      exact ⟨[], a, rest, b, rfl, rfl, hs⟩
    | ok b2 =>
      rw [hs] at h
      obtain ⟨before, x, after_, b1, hl, hb, hx⟩ := ih b2 h
      refine ⟨a :: before, x, after_, b1, by rw [hl]; rfl, ?_, hx⟩
      exact (foldlM_cons_ok _ _ _ _ _).2 ⟨b2, hs, hb⟩

theorem foldlM_error_prefix {α β : Type} (f : β → α → Except GoError β) (l rest : List α)
    (b : β) (e : GoError) (h : l.foldlM f b = .error e) :
    (l ++ rest).foldlM f b = .error e := by
  obtain ⟨before, x, after_, b1, hl, hb, hx⟩ := foldlM_error_split f l b e h
  rw [hl, List.append_assoc, List.cons_append]
  exact foldlM_error_at f before (after_ ++ rest) x b b1 e hb hx

/-- C13 (as amended). For every account JSON object: `processAccount` returns the
error `unmarshalled account object is not a map` when the object is not a map.
On a map it returns an error exactly when some field is rejected, all fields
before it being accepted, and the error it returns is the error of that first
rejected field. A field with a key outside `accountFieldKeys` is always
rejected, with `unknown account field: <key>`; a field with a recognized key is
rejected exactly when its value fails its field parser. Hence an error (and no
account) is returned whenever some key of the object is outside the set, and
that error is `unknown account field: <key>` when all the fields before the key
were accepted; an error is returned whenever the value of a recognized key
fails its field parser; and an account is returned only when every key is
recognized and no field parser fails. -/
theorem processAccount_rejects_unknown_and_failing_fields {M : Model} (p : Parser M) :
    (∀ acctRaw : OJsonObject, notMap acctRaw →
        processAccount p acctRaw = .error ⟨"unmarshalled account object is not a map"⟩)
    ∧ (∀ fields e, processAccount p (.OJsonMap fields) = .error e
        ↔ ∃ before kvp after_ acct, fields = before ++ kvp :: after_
            ∧ before.foldlM (processAccountField p) (Account.zero M) = .ok acct
            ∧ processAccountField p acct kvp = .error e)
    ∧ (∀ acct kvp, kvp.1 ∉ accountFieldKeys →
        processAccountField p acct kvp = .error ⟨"unknown account field: " ++ kvp.1⟩)
    ∧ (∀ acct kvp, kvp.1 ∈ accountFieldKeys →
        ((∃ e, processAccountField p acct kvp = .error e) ↔ fieldParserFails p acct kvp))
    ∧ (∀ fields, (∃ kvp ∈ fields, kvp.1 ∉ accountFieldKeys) →
        ∃ e, processAccount p (.OJsonMap fields) = .error e)
    ∧ (∀ before kvp after_ acct, kvp.1 ∉ accountFieldKeys →
        before.foldlM (processAccountField p) (Account.zero M) = .ok acct →
        processAccount p (.OJsonMap (before ++ kvp :: after_))
          = .error ⟨"unknown account field: " ++ kvp.1⟩)
    ∧ (∀ before kvp after_,
        (∀ acct, before.foldlM (processAccountField p) (Account.zero M) = .ok acct →
          fieldParserFails p acct kvp) →
        ∃ e, processAccount p (.OJsonMap (before ++ kvp :: after_)) = .error e)
    ∧ (∀ fields, (∃ kvp ∈ fields, ∀ acct, fieldParserFails p acct kvp) →
        ∃ e, processAccount p (.OJsonMap fields) = .error e)
    ∧ (∀ before kvp after_ acct,
        processAccount p (.OJsonMap (before ++ kvp :: after_)) = .ok acct →
        ∃ acctB, before.foldlM (processAccountField p) (Account.zero M) = .ok acctB
          ∧ kvp.1 ∈ accountFieldKeys ∧ ¬ fieldParserFails p acctB kvp)
    ∧ (∀ (m : List (String × OJsonObject)) (storage : List (StorageKeyValuePair M)),
        (∃ e, m.foldlM (processStorageEntry p) storage = .error e)
          ↔ ∃ entry ∈ m, (∃ e, p.InterpretString entry.1 = .error e)
              ∨ ∃ e, p.processSubTreeAsByteArray entry.2 = .error e)
    ∧ (∀ (m : List (String × OJsonObject)) (items : List M.ESDTData),
        (∃ e, m.foldlM (processESDTEntry p) items = .error e)
          ↔ ∃ before entry after_ items1, m = before ++ entry :: after_
              ∧ before.foldlM (processESDTEntry p) items = .ok items1
              ∧ ((∃ e, p.InterpretString entry.1 = .error e)
                ∨ ∃ tokenName e, p.InterpretString entry.1 = .ok tokenName
                    ∧ p.processAppendESDTData tokenName entry.2 items1 = .error e)) := by
  have hunknown : ∀ fields, (∃ kvp ∈ fields, kvp.1 ∉ accountFieldKeys) →
      ∃ e, processAccount p (.OJsonMap fields) = .error e := by
    rintro fields ⟨kvp, hmem, hk⟩
    exact foldlM_error_of_mem (processAccountField p) fields kvp hmem
      (fun acct => ⟨_, processAccountField_unknown p acct kvp hk⟩) (Account.zero M)
  have hfails : ∀ before kvp after_,
      (∀ acct, before.foldlM (processAccountField p) (Account.zero M) = .ok acct →
        fieldParserFails p acct kvp) →
      ∃ e, processAccount p (.OJsonMap (before ++ kvp :: after_)) = .error e := by
    intro before kvp after_ h
    cases hb : before.foldlM (processAccountField p) (Account.zero M) with
    | error e => exact ⟨e, foldlM_error_prefix _ _ _ _ _ hb⟩
    | ok acct =>
      obtain ⟨e, he⟩ := processAccountField_fails p kvp acct (h acct hb)
      exact ⟨e, foldlM_error_at _ _ _ _ _ _ _ hb he⟩
  refine ⟨?_, ?_, fun acct kvp hk => processAccountField_unknown p acct kvp hk, ?_, hunknown,
    ?_, hfails, ?_, ?_, ?_, ?_⟩
  · intro acctRaw hnm
    cases acctRaw with
    | OJsonMap m => exact absurd rfl (hnm m)
    | OJsonString x => rfl
    | OJsonList x => rfl
    | OJsonBool x => rfl
  · intro fields e
    constructor
    · intro h
      exact foldlM_error_split (processAccountField p) fields (Account.zero M) e h
    · rintro ⟨before, kvp, after_, acct, rfl, hb, hx⟩
      exact foldlM_error_at _ _ _ _ _ _ _ hb hx
  · intro acct kvp hk
    constructor
    · rintro ⟨e, he⟩
      exact fieldParserFails_of_error p acct kvp e hk he
    · exact processAccountField_fails p kvp acct
  · intro before kvp after_ acct hk hbefore
    exact foldlM_error_at (processAccountField p) before after_ kvp _ acct _ hbefore
      (processAccountField_unknown p acct kvp hk)
  · rintro fields ⟨kvp, hmem, hk⟩
    obtain ⟨before, after_, rfl⟩ := List.append_of_mem hmem
    exact hfails before kvp after_ (fun acct _ => hk acct)
  · intro before kvp after_ acct hok
    obtain ⟨acctB, hb, hrest⟩ := (foldlM_append_ok _ _ _ _ _).1 hok
    obtain ⟨acctA, hstep, -⟩ := (foldlM_cons_ok _ _ _ _ _).1 hrest
    refine ⟨acctB, hb, ?_, ?_⟩
    · by_contra hk
      rw [processAccountField_unknown p acctB kvp hk] at hstep
      cases hstep
    · intro hf
      obtain ⟨e, he⟩ := processAccountField_fails p kvp acctB hf
      rw [he] at hstep
      cases hstep
  · intro m storage
    constructor
    · rintro ⟨e, he⟩
      obtain ⟨before, entry, after_, b1, hm, -, hb1⟩ :=
        foldlM_error_split (processStorageEntry p) m storage e he
      refine ⟨entry, by rw [hm]; exact List.mem_append_right _ (List.mem_cons_self _ _), ?_⟩
      unfold processStorageEntry at hb1
      cases hk : p.InterpretString entry.1 with
      | error err => exact Or.inl ⟨err, rfl⟩
      | ok byteKey =>
        rw [hk] at hb1
        dsimp only at hb1
        cases hv : p.processSubTreeAsByteArray entry.2 with
        | error err => exact Or.inr ⟨err, rfl⟩
        | ok x => rw [hv] at hb1; cases hb1
    · rintro ⟨entry, hentry, hfail⟩
      exact foldlM_error_of_mem (processStorageEntry p) m entry hentry
        (processStorageEntry_fails p entry hfail) storage
  · intro m items
    constructor
    · rintro ⟨e, he⟩
      obtain ⟨before, entry, after_, items1, hm, hb, hx⟩ :=
        foldlM_error_split (processESDTEntry p) m items e he
      refine ⟨before, entry, after_, items1, hm, hb, ?_⟩
      unfold processESDTEntry at hx
      cases hk : p.InterpretString entry.1 with
      | error err => exact Or.inl ⟨err, rfl⟩
      | ok tokenName =>
        rw [hk] at hx
        dsimp only at hx
        cases hv : p.processAppendESDTData tokenName entry.2 items1 with
        | error err => exact Or.inr ⟨tokenName, err, rfl, hv⟩
        | ok x => rw [hv] at hx; cases hx
    · rintro ⟨before, entry, after_, items1, rfl, hb, hfail⟩
      have hstep : ∃ e, processESDTEntry p items1 entry = .error e := by
        unfold processESDTEntry
        rcases hfail with ⟨e, he⟩ | ⟨tokenName, e, hk, he⟩
        · rw [he]
          exact ⟨_, rfl⟩
        · rw [hk]
          dsimp only
          rw [he]
          exact ⟨_, rfl⟩
      obtain ⟨e, he⟩ := hstep
      exact ⟨e, foldlM_error_at _ _ _ _ _ _ _ hb he⟩

/-! ### The writer's field order -/

theorem keysOf_NewMap : keysOf NewMap = [] := rfl

theorem accountToOJ_keys {M : Model} (w : Writer M) (account : Account M)
    (hESDT : ∀ items m, w.appendESDTToOJ items m = m
      ∨ ∃ v, w.appendESDTToOJ items m = Put m "esdt" v) :
    ∃ esdtKeys, (esdtKeys = [] ∨ esdtKeys = ["esdt"])
      ∧ keysOf (accountToOJ w account)
        = (if account.Comment.length > 0 then ["comment"] else [])
          ++ ["nonce", "balance"] ++ esdtKeys
          ++ (if account.ESDTRoles.length > 0 then ["esdtRoles"] else [])
          ++ (if account.ESDTLastNonces.length > 0 then ["esdtLastNonces"] else [])
          ++ ["storage", "code"]
          ++ (if account.Owner.Value.length > 0 then ["owner"] else [])
          ++ (if account.AsyncCallData.length > 0 then ["asyncCallData"] else []) := by
  unfold accountToOJ
  simp only []
  rcases hESDT account.ESDTData
      (Put (Put (if account.Comment.length > 0 then
        Put NewMap "comment" (stringToOJ account.Comment) else NewMap)
        "nonce" (w.uint64ToOJ account.Nonce)) "balance" (w.bigIntToOJ account.Balance))
    with h | ⟨v, h⟩
  · refine ⟨[], Or.inl rfl, ?_⟩
    rw [h]
    by_cases h1 : account.Comment.length > 0 <;>
    by_cases h2 : account.ESDTRoles.length > 0 <;>
    by_cases h3 : account.ESDTLastNonces.length > 0 <;>
    by_cases h4 : account.Owner.Value.length > 0 <;>
    by_cases h5 : account.AsyncCallData.length > 0 <;>
    simp [h1, h2, h3, h4, h5, keysOf_Put, keysOf_NewMap]
  · refine ⟨["esdt"], Or.inr rfl, ?_⟩
    rw [h]
    by_cases h1 : account.Comment.length > 0 <;>
    by_cases h2 : account.ESDTRoles.length > 0 <;>
    by_cases h3 : account.ESDTLastNonces.length > 0 <;>
    by_cases h4 : account.Owner.Value.length > 0 <;>
    by_cases h5 : account.AsyncCallData.length > 0 <;>
    simp [h1, h2, h3, h4, h5, keysOf_Put, keysOf_NewMap]

theorem accountToOJ_keys_sublist {M : Model} (w : Writer M) (account : Account M)
    (hESDT : ∀ items m, w.appendESDTToOJ items m = m
      ∨ ∃ v, w.appendESDTToOJ items m = Put m "esdt" v) :
    List.Sublist (keysOf (accountToOJ w account)) canonicalOrder := by
  obtain ⟨esdtKeys, hE, hkeys⟩ := accountToOJ_keys w account hESDT
  rw [hkeys]
  rcases hE with rfl | rfl <;>
  by_cases h1 : account.Comment.length > 0 <;>
  by_cases h2 : account.ESDTRoles.length > 0 <;>
  by_cases h3 : account.ESDTLastNonces.length > 0 <;>
  by_cases h4 : account.Owner.Value.length > 0 <;>
  by_cases h5 : account.AsyncCallData.length > 0 <;>
  simp only [h1, h2, h3, h4, h5, if_true, if_false] <;>
  decide

theorem getValue_appendESDTToOJ {M : Model} (w : Writer M)
    (hESDT : ∀ items m, w.appendESDTToOJ items m = m
      ∨ ∃ v, w.appendESDTToOJ items m = Put m "esdt" v)
    (items : List M.ESDTData) (m : List (String × OJsonObject)) (k : String) (hk : k ≠ "esdt") :
    getValue (w.appendESDTToOJ items m) k = getValue m k := by
  rcases hESDT items m with h | ⟨v, h⟩
  · rw [h]
  · rw [h, getValue_Put, if_neg hk]

/-- C14. For every account list, every entry of the map written by `accountsToOJ`
is the map of one account, and (given that the ESDT helper writes nothing or the
one key `esdt`) the keys of an account's map come in the canonical order
comment, nonce, balance, esdt, esdtRoles, esdtLastNonces, storage, code, owner,
asyncCallData, each at most once; nonce, balance, storage and code are always
there; comment, esdtRoles, esdtLastNonces, owner and asyncCallData are there if
and only if the model field is non-empty; and the `storage` value is the map of
the account's `Storage` list, its keys in the order of that list. -/
theorem accountsToOJ_writes_fields_in_canonical_order {M : Model} (w : Writer M)
    (accounts : List (Account M)) (account : Account M)
    (hESDT : ∀ items m, w.appendESDTToOJ items m = m
      ∨ ∃ v, w.appendESDTToOJ items m = Put m "esdt" v) :
    (∀ entry ∈ accountsToMap w accounts, ∃ a ∈ accounts,
        entry = (w.bytesFromStringToString a.Address, .OJsonMap (accountToOJ w a)))
    ∧ List.Sublist (keysOf (accountToOJ w account)) canonicalOrder
    ∧ (keysOf (accountToOJ w account)).Nodup
    ∧ (∀ k ∈ ["nonce", "balance", "storage", "code"], k ∈ keysOf (accountToOJ w account))
    ∧ ("comment" ∈ keysOf (accountToOJ w account) ↔ account.Comment.length > 0)
    ∧ ("esdtRoles" ∈ keysOf (accountToOJ w account) ↔ account.ESDTRoles.length > 0)
    ∧ ("esdtLastNonces" ∈ keysOf (accountToOJ w account)
        ↔ account.ESDTLastNonces.length > 0)
    ∧ ("owner" ∈ keysOf (accountToOJ w account) ↔ account.Owner.Value.length > 0)
    ∧ ("asyncCallData" ∈ keysOf (accountToOJ w account) ↔ account.AsyncCallData.length > 0)
    ∧ getValue (accountToOJ w account) "storage"
        = some (.OJsonMap (storageToOJ w account.Storage))
    ∧ keysOf (storageToOJ w account.Storage)
        = firstOccurrences (account.Storage.map (fun st => w.bytesFromStringToString st.Key))
    ∧ List.Sublist (keysOf (storageToOJ w account.Storage))
        (account.Storage.map (fun st => w.bytesFromStringToString st.Key)) := by
  obtain ⟨esdtKeys, hE, hkeys⟩ := accountToOJ_keys w account hESDT
  have hsub := accountToOJ_keys_sublist w account hESDT
  have hstorage := (accountToOJ_getValue w account (getValue_appendESDTToOJ w hESDT)).2.2.2.1
  refine ⟨?_, hsub, hsub.nodup (by decide), ?_, ?_, ?_, ?_, ?_, ?_, hstorage,
    keysOf_storageToOJ w _, ?_⟩
  · intro entry hentry
    rcases mem_foldl_Put (fun a : Account M => w.bytesFromStringToString a.Address)
      (fun a => .OJsonMap (accountToOJ w a)) accounts NewMap entry hentry with h | h
    · cases h
    · exact h
  · intro k hk
    rw [hkeys]
    simp only [List.mem_cons, List.mem_singleton, List.not_mem_nil, or_false] at hk
    rcases hk with rfl | rfl | rfl | rfl <;> simp
  · rw [hkeys]
    rcases hE with rfl | rfl <;> simp
  · rw [hkeys]
    rcases hE with rfl | rfl <;> simp
  · rw [hkeys]
    rcases hE with rfl | rfl <;> simp
  · rw [hkeys]
    rcases hE with rfl | rfl <;> simp
  · rw [hkeys]
    rcases hE with rfl | rfl <;> simp
  · rw [keysOf_storageToOJ]
    exact firstOccurrences_sublist _

/-! ### Parsing what the writer wrote -/

theorem isInvalidFieldError_wrapError (pre rest : String) (hpre : pre = "invalid" ++ rest)
    (err : GoError) : isInvalidFieldError (wrapError pre err) := by
  refine ⟨rest ++ err.msg, ?_⟩
  simp only [wrapError]
  rw [hpre, String.append_assoc]

theorem isInvalidFieldError_not_unknown (e : GoError) (h : isInvalidFieldError e) :
    ¬ isUnknownFieldError e := by
  rintro ⟨key, rfl⟩
  obtain ⟨rest, hrest⟩ := h
  have hdata := congrArg String.data hrest
  simp only [String.data_append] at hdata
  cases hdata

theorem foldlM_error_prop {α β : Type} (f : β → α → Except GoError β) (P : GoError → Prop)
    (hf : ∀ b x e, f b x = .error e → P e) (l : List α) (b : β) (e : GoError)
    (h : l.foldlM f b = .error e) : P e := by
  induction l generalizing b with
  | nil => cases h
  | cons a rest ih =>
    rw [List.foldlM_cons] at h
    cases hs : f b a with
    | error e2 =>
      rw [hs] at h
      cases h
      exact hf b a _ hs
    | ok b2 =>
      rw [hs] at h
      exact ih b2 h

theorem processESDTEntry_fold_error {M : Model} (p : Parser M) (l : List (String × OJsonObject))
    (items : List M.ESDTData) (e : GoError)
    (h : l.foldlM (processESDTEntry p) items = .error e) : isInvalidFieldError e := by
  refine foldlM_error_prop (processESDTEntry p) isInvalidFieldError ?_ l items e h
  intro b x e2 hstep
  unfold processESDTEntry at hstep
  cases hk : p.InterpretString x.1 with
  | error err =>
    rw [hk] at hstep; cases hstep
    exact isInvalidFieldError_wrapError _ " esdt token identifer: " (by decide) err
  | ok tokenName =>
    rw [hk] at hstep
    simp only at hstep
    cases hv : p.processAppendESDTData tokenName x.2 b with
    | error err =>
      rw [hv] at hstep; cases hstep
      exact isInvalidFieldError_wrapError _ " esdt value: " (by decide) err
    | ok v => rw [hv] at hstep; cases hstep

theorem processStorageEntry_fold_error {M : Model} (p : Parser M) (l : List (String × OJsonObject))
    (storage : List (StorageKeyValuePair M)) (e : GoError)
    (h : l.foldlM (processStorageEntry p) storage = .error e) : isInvalidFieldError e := by
  refine foldlM_error_prop (processStorageEntry p) isInvalidFieldError ?_ l storage e h
  intro b x e2 hstep
  unfold processStorageEntry at hstep
  cases hk : p.InterpretString x.1 with
  | error err =>
    rw [hk] at hstep; cases hstep
    exact isInvalidFieldError_wrapError _ " account storage key: " (by decide) err
  | ok byteKey =>
    rw [hk] at hstep
    simp only at hstep
    cases hv : p.processSubTreeAsByteArray x.2 with
    | error err =>
      rw [hv] at hstep; cases hstep
      exact isInvalidFieldError_wrapError _ " account storage value: " (by decide) err
    | ok v => rw [hv] at hstep; cases hstep

theorem processAccountField_error_of_known {M : Model} (p : Parser M) (acct : Account M)
    (kvp : String × OJsonObject) (e : GoError) (hk : kvp.1 ∈ accountFieldKeys)
    (h : processAccountField p acct kvp = .error e) : isInvalidFieldError e := by
  unfold processAccountField at h
  by_cases h0 : kvp.1 = "comment"
  · rw [if_pos h0] at h
    cases hv : p.parseString kvp.2 with
    | ok v => rw [hv] at h; cases h
    | error err =>
      rw [hv] at h; cases h
      exact isInvalidFieldError_wrapError _ " account comment: " (by decide) err
  rw [if_neg h0] at h
  by_cases h1 : kvp.1 = "shard"
  · rw [if_pos h1] at h
    cases hv : p.processUint64 kvp.2 with
    | ok v => rw [hv] at h; cases h
    | error err =>
      rw [hv] at h; cases h
      exact isInvalidFieldError_wrapError _ " shard number: " (by decide) err
  rw [if_neg h1] at h
  by_cases h2 : kvp.1 = "nonce"
  · rw [if_pos h2] at h
    cases hv : p.processUint64 kvp.2 with
    | ok v => rw [hv] at h; cases h
    | error err =>
      rw [hv] at h; cases h
      exact ⟨" account nonce", by decide⟩
  rw [if_neg h2] at h
  by_cases h3 : kvp.1 = "balance"
  · rw [if_pos h3] at h
    cases hv : p.processBigInt kvp.2 .bigIntUnsignedBytes with
    | ok v => rw [hv] at h; cases h
    | error err =>
      rw [hv] at h; cases h
      exact ⟨" account balance", by decide⟩
  rw [if_neg h3] at h
  by_cases h4 : kvp.1 = "esdt"
  · rw [if_pos h4] at h
    cases hj : kvp.2 with
    | OJsonMap esdtMap =>
      rw [hj] at h
      simp only at h
      cases hv : esdtMap.foldlM (processESDTEntry p) acct.ESDTData with
      | ok v => rw [hv] at h; cases h
      | error err =>
        rw [hv] at h; cases h
        exact processESDTEntry_fold_error _ _ _ _ hv
    | OJsonString x => rw [hj] at h; cases h; exact ⟨" ESDT map", by decide⟩
    | OJsonList x => rw [hj] at h; cases h; exact ⟨" ESDT map", by decide⟩
    | OJsonBool x => rw [hj] at h; cases h; exact ⟨" ESDT map", by decide⟩
  rw [if_neg h4] at h
  by_cases h5 : kvp.1 = "esdtRoles"
  · rw [if_pos h5] at h
    cases hv : p.processESDTRoles kvp.2 with
    | ok v => rw [hv] at h; cases h
    | error err =>
      rw [hv] at h; cases h
      exact isInvalidFieldError_wrapError _ " esdtRoles: " (by decide) err
  rw [if_neg h5] at h
  by_cases h6 : kvp.1 = "esdtLastNonces"
  · rw [if_pos h6] at h
    cases hj : kvp.2 with
    | OJsonMap esdtMap =>
      rw [hj] at h
      simp only at h
      cases hv : p.processESDTLastNonces esdtMap with
      | ok v => rw [hv] at h; cases h
      | error err =>
        rw [hv] at h; cases h
        exact isInvalidFieldError_wrapError _ " esdtLastNonces: " (by decide) err
    | OJsonString x => rw [hj] at h; cases h; exact ⟨" ESDT map for last nonces", by decide⟩
    | OJsonList x => rw [hj] at h; cases h; exact ⟨" ESDT map for last nonces", by decide⟩
    | OJsonBool x => rw [hj] at h; cases h; exact ⟨" ESDT map for last nonces", by decide⟩
  rw [if_neg h6] at h
  by_cases h7 : kvp.1 = "storage"
  · rw [if_pos h7] at h
    cases hj : kvp.2 with
    | OJsonMap esdtMap =>
      rw [hj] at h
      simp only at h
      cases hv : esdtMap.foldlM (processStorageEntry p) acct.Storage with
      | ok v => rw [hv] at h; cases h
      | error err =>
        rw [hv] at h; cases h
        exact processStorageEntry_fold_error _ _ _ _ hv
    | OJsonString x => rw [hj] at h; cases h; exact ⟨" account storage", by decide⟩
    | OJsonList x => rw [hj] at h; cases h; exact ⟨" account storage", by decide⟩
    | OJsonBool x => rw [hj] at h; cases h; exact ⟨" account storage", by decide⟩
  rw [if_neg h7] at h
  by_cases h8 : kvp.1 = "code"
  · rw [if_pos h8] at h
    cases hv : p.processStringAsByteArray kvp.2 with
    | ok v => rw [hv] at h; cases h
    | error err =>
      rw [hv] at h; cases h
      exact isInvalidFieldError_wrapError _ " account code: " (by decide) err
  rw [if_neg h8] at h
  by_cases h9 : kvp.1 = "owner"
  · rw [if_pos h9] at h
    cases hv : p.processStringAsByteArray kvp.2 with
    | ok v => rw [hv] at h; cases h
    | error err =>
      rw [hv] at h; cases h
      exact isInvalidFieldError_wrapError _ " account owner: " (by decide) err
  rw [if_neg h9] at h
  by_cases h10 : kvp.1 = "asyncCallData"
  · rw [if_pos h10] at h
    cases hv : p.parseString kvp.2 with
    | ok v => rw [hv] at h; cases h
    | error err =>
      rw [hv] at h; cases h
      exact isInvalidFieldError_wrapError _ " asyncCallData string: " (by decide) err
  rw [if_neg h10] at h
  exfalso
  simp only [accountFieldKeys, List.mem_cons, List.mem_singleton, List.not_mem_nil, or_false] at hk
  rcases hk with hk | hk | hk | hk | hk | hk | hk | hk | hk | hk | hk
  all_goals first
    | exact h0 hk
    | exact h1 hk
    | exact h2 hk
    | exact h3 hk
    | exact h4 hk
    | exact h5 hk
    | exact h6 hk
    | exact h7 hk
    | exact h8 hk
    | exact h9 hk
    | exact h10 hk

theorem foldlM_error_mem {α β : Type} (f : β → α → Except GoError β) (l : List α) (b : β)
    (e : GoError) (h : l.foldlM f b = .error e) : ∃ x ∈ l, ∃ b1, f b1 x = .error e := by
  induction l generalizing b with
  | nil => cases h
  | cons a rest ih =>
    rw [List.foldlM_cons] at h
    cases hs : f b a with
    | error e2 =>
      rw [hs] at h
      cases h
      exact ⟨a, List.mem_cons_self _ _, b, hs⟩
    | ok b2 =>
      rw [hs] at h
      obtain ⟨x, hx, b1, hb1⟩ := ih b2 h
      exact ⟨x, List.mem_cons_of_mem _ hx, b1, hb1⟩

theorem mem_of_getValue (m : List (String × OJsonObject)) (k : String) (v : OJsonObject)
    (h : getValue m k = some v) : (k, v) ∈ m := by
  induction m with
  | nil => cases h
  | cons kvp rest ih =>
    by_cases hk : kvp.1 = k
    · simp only [getValue, hk, if_true, Option.some.injEq] at h
      subst hk
      subst h
      exact List.mem_cons_self _ _
    · simp only [getValue, hk, if_false] at h
      exact List.mem_cons_of_mem _ (ih h)

theorem map_eq_map_of_forall₂ {α β γ : Type} (R : α → β → Prop) (f : β → γ) (g : α → γ)
    (l1 : List α) (l2 : List β) (h : List.Forall₂ R l1 l2) (hf : ∀ a b, R a b → f b = g a) :
    l2.map f = l1.map g := by
  induction h with
  | nil => rfl
  | cons hab _ ih => simp [hf _ _ hab, ih]

theorem processStorageEntry_fold_keys {M : Model} (p : Parser M)
    (entries : List (String × OJsonObject)) (acc st : List (StorageKeyValuePair M))
    (h : entries.foldlM (processStorageEntry p) acc = .ok st) :
    ∃ new, st = acc ++ new
      ∧ List.Forall₂ (fun e s => p.InterpretString e.1 = .ok s.Key.Value
          ∧ s.Key.Original = e.1) entries new := by
  induction entries generalizing acc with
  | nil =>
    cases h
    exact ⟨[], by simp, List.Forall₂.nil⟩
  | cons e rest ih =>
    obtain ⟨b1, hstep, hrest⟩ := (foldlM_cons_ok _ _ _ _ _).1 h
    obtain ⟨new, rfl, hnew⟩ := ih _ hrest
    unfold processStorageEntry at hstep
    cases hk : p.InterpretString e.1 with
    | error err => rw [hk] at hstep; cases hstep
    | ok byteKey =>
      cases hv : p.processSubTreeAsByteArray e.2 with
      | error err => rw [hk, hv] at hstep; cases hstep
      | ok byteVal =>
        rw [hk, hv] at hstep
        cases hstep
        exact ⟨{ Key := NewJSONBytesFromString byteKey e.1, Value := byteVal } :: new,
          by simp, List.Forall₂.cons ⟨hk, rfl⟩ hnew⟩

theorem forall₂_with_mem {α β : Type} (R : α → β → Prop) (whole l1 : List α) (l2 : List β)
    (h : List.Forall₂ R l1 l2) (hsub : ∀ a ∈ l1, a ∈ whole) :
    List.Forall₂ (fun a b => a ∈ whole ∧ R a b) l1 l2 := by
  induction h with
  | nil => exact List.Forall₂.nil
  | cons hab _ ih =>
    exact List.Forall₂.cons ⟨hsub _ (List.mem_cons_self _ _), hab⟩
      (ih (fun a ha => hsub a (List.mem_cons_of_mem _ ha)))

theorem parsed_written_storage_keys {M : Model} (p : Parser M) (w : Writer M)
    (storage parsed : List (StorageKeyValuePair M))
    (hAddr : ∀ b, w.bytesFromStringToString b = b.Original)
    (hDistinct : (storage.map (fun st => w.bytesFromStringToString st.Key)).Nodup)
    (h : (storageToOJ w storage).foldlM (processStorageEntry p) [] = .ok parsed) :
    parsed.map (fun st => st.Key.Original) = storage.map (fun st => st.Key.Original)
    ∧ ((∀ st ∈ storage, p.InterpretString st.Key.Original = .ok st.Key.Value) →
        parsed.map (fun st => st.Key) = storage.map (fun st => st.Key)) := by
  rw [storageToOJ_of_nodup w storage hDistinct] at h
  obtain ⟨new, hnew, hall⟩ := processStorageEntry_fold_keys p _ [] parsed h
  simp only [List.nil_append] at hnew
  subst hnew
  rw [List.forall₂_map_left_iff] at hall
  simp only [hAddr] at hall
  constructor
  · exact map_eq_map_of_forall₂ _ _ _ _ _ hall (fun st s hs => hs.2)
  · intro hinterp
    refine map_eq_map_of_forall₂ _ _ _ _ _
      (forall₂_with_mem _ storage storage parsed hall (fun _ h => h)) ?_
    rintro st s ⟨hmem, hv, ho⟩
    rw [hinterp st hmem] at hv
    have hval : st.Key.Value = s.Key.Value := Except.ok.inj hv
    cases hs : s.Key with
    | mk kv ko =>
      cases hst : st.Key with
      | mk sv so =>
        rw [hs] at ho hval
        rw [hst] at ho hval
        simp only at ho hval
        rw [ho, hval]

/-- C13, counterexample to the claim as stated: an account object with the
unknown key `color` after a `nonce` that is not a number; `processAccount`
returns the error of the nonce, not an `unknown account field` error. -/
theorem processAccount_unknown_key_after_bad_nonce :
    "color" ∉ accountFieldKeys
    ∧ processAccount refParser
        (.OJsonMap [("nonce", .OJsonString "x"), ("color", .OJsonString "red")])
      = .error ⟨"invalid account nonce"⟩
    ∧ ¬ isUnknownFieldError ⟨"invalid account nonce"⟩ :=
  ⟨by decide, rfl, isInvalidFieldError_not_unknown _ ⟨" account nonce", by decide⟩⟩

theorem refWriter_appendESDTToOJ_shape (items : List refModel.ESDTData)
    (m : List (String × OJsonObject)) :
    refWriter.appendESDTToOJ items m = m
      ∨ ∃ v, refWriter.appendESDTToOJ items m = Put m "esdt" v := by
  simp only [refWriter]
  by_cases h : items.length = 0
  · exact Or.inl (by simp [h])
  · exact Or.inr ⟨.OJsonMap (items.map (fun it => (String.mk (it.1.map Char.ofNat), it.2))),
      by rw [if_neg h]⟩

/-- C14, witness: the map the reference writer gives for `sampleAccount`. -/
theorem accountsToOJ_writes_fields_in_canonical_order_witness :
    List.Sublist (keysOf (accountToOJ refWriter sampleAccount)) canonicalOrder
    ∧ keysOf (accountToOJ refWriter sampleAccount)
      = ["comment", "nonce", "balance", "storage", "code", "owner"]
    ∧ keysOf (storageToOJ refWriter sampleAccount.Storage) = ["k1", "k2"] :=
  ⟨(accountsToOJ_writes_fields_in_canonical_order refWriter [sampleAccount] sampleAccount
      refWriter_appendESDTToOJ_shape).2.1, rfl, rfl⟩

/-- C17. Given that the ESDT helper writes nothing or the one key `esdt`: every
key of the canonical order, and so every key of the map `accountsToOJ` writes
for an account, is a key `processAccount` has a case for, and `processAccount`
on that map never fails with an `unknown account field` error. Given further
that a storage key is written as its original string and that the written keys
are pairwise distinct: parsing the written storage map gives storage entries
whose keys have the same original strings, in the same order, as the account's
`Storage` list (and the same keys altogether when the value interpreter gives
each original string its bytes), also when it is parsed through
`processAccount`. -/
theorem processAccount_recognizes_every_written_key {M : Model} (p : Parser M) (w : Writer M)
    (account : Account M)
    (hESDT : ∀ items m, w.appendESDTToOJ items m = m
      ∨ ∃ v, w.appendESDTToOJ items m = Put m "esdt" v)
    (hAddr : ∀ b, w.bytesFromStringToString b = b.Original)
    (hDistinct : (account.Storage.map (fun st => w.bytesFromStringToString st.Key)).Nodup) :
    (∀ k ∈ canonicalOrder, k ∈ accountFieldKeys)
    ∧ (∀ k ∈ keysOf (accountToOJ w account), k ∈ accountFieldKeys)
    ∧ (∀ e, processAccount p (.OJsonMap (accountToOJ w account)) = .error e →
        ¬ isUnknownFieldError e)
    ∧ (∀ parsed,
        (storageToOJ w account.Storage).foldlM (processStorageEntry p) [] = .ok parsed →
        parsed.map (fun st => st.Key.Original)
            = account.Storage.map (fun st => st.Key.Original)
        ∧ ((∀ st ∈ account.Storage, p.InterpretString st.Key.Original = .ok st.Key.Value) →
            parsed.map (fun st => st.Key) = account.Storage.map (fun st => st.Key)))
    ∧ (∀ acct2, processAccount p (.OJsonMap (accountToOJ w account)) = .ok acct2 →
        acct2.Storage.map (fun st => st.Key.Original)
          = account.Storage.map (fun st => st.Key.Original)) := by
  have hcanon : ∀ k ∈ canonicalOrder, k ∈ accountFieldKeys := by decide
  have hsub := accountToOJ_keys_sublist w account hESDT
  have hknown : ∀ k ∈ keysOf (accountToOJ w account), k ∈ accountFieldKeys :=
    fun k hk => hcanon k (hsub.subset hk)
  refine ⟨hcanon, hknown, ?_, ?_, ?_⟩
  · intro e herr
    obtain ⟨x, hx, b1, hb1⟩ := foldlM_error_mem (processAccountField p) _ _ e herr
    exact isInvalidFieldError_not_unknown e
      (processAccountField_error_of_known p b1 x e
        (hknown x.1 (List.mem_map_of_mem Prod.fst hx)) hb1)
  · intro parsed hparsed
    exact parsed_written_storage_keys p w account.Storage parsed hAddr hDistinct hparsed
  · intro acct2 hok
    have hget := (accountToOJ_getValue w account (getValue_appendESDTToOJ w hESDT)).2.2.2.1
    obtain ⟨-, -, -, -, -, q6, -, -, -⟩ := processAccount_field p (accountToOJ w account) acct2
      "storage" _ (hsub.nodup (by decide)) hok (mem_of_getValue _ _ _ hget)
    obtain ⟨m, hm, hfold⟩ := q6 rfl
    cases hm
    exact (parsed_written_storage_keys p w account.Storage acct2.Storage hAddr hDistinct
      hfold).1

/-- C17, witness: `sampleAccount` written by the reference writer and read back
by the reference parser. -/
theorem processAccount_recognizes_every_written_key_witness :
    (∀ k ∈ keysOf (accountToOJ refWriter sampleAccount), k ∈ accountFieldKeys)
    ∧ (processAccount refParser (.OJsonMap (accountToOJ refWriter sampleAccount))).toOption.map
        (fun acct => acct.Storage.map (fun st => st.Key))
      = some (sampleAccount.Storage.map (fun st => st.Key)) :=
  ⟨(processAccount_recognizes_every_written_key refParser refWriter sampleAccount
      refWriter_appendESDTToOJ_shape (fun _ => rfl) (by decide)).2.1, rfl⟩

/-! ### Go maps -/

theorem mapGet_append {V : Type} (m n : List (List Nat × V)) (k : List Nat) :
    mapGet (m ++ n) k = (mapGet m k).or (mapGet n k) := by
  induction m with
  | nil => simp [mapGet]
  | cons kv rest ih =>
    by_cases h : kv.1 = k
    · simp [mapGet, h]
    · simp [mapGet, h, ih]

theorem mapGet_filter_ne {V : Type} (m : List (List Nat × V)) (k k2 : List Nat) :
    mapGet (m.filter (fun kv => kv.1 ≠ k2)) k = if k = k2 then none else mapGet m k := by
  induction m with
  | nil => simp [mapGet]
  | cons kv rest ih =>
    by_cases h2 : kv.1 = k2
    · have hdrop : List.filter (fun kv => decide (kv.1 ≠ k2)) (kv :: rest)
          = List.filter (fun kv => decide (kv.1 ≠ k2)) rest := by
        simp [List.filter_cons, h2]
      rw [hdrop, ih]
      by_cases hk : k = k2
      · simp [hk]
      · have hne : ¬ kv.1 = k := fun e => hk (e ▸ h2)
        simp [hk, mapGet, hne]
    · have hkeep : List.filter (fun kv => decide (kv.1 ≠ k2)) (kv :: rest)
          = kv :: List.filter (fun kv => decide (kv.1 ≠ k2)) rest := by
        simp [List.filter_cons, h2]
      rw [hkeep]
      by_cases hk : kv.1 = k
      · have hne : ¬ k = k2 := fun e => h2 (hk.trans e)
        simp [mapGet, hk, hne]
      · simp only [mapGet, hk, if_false, ih]

theorem mapGet_mapSet {V : Type} (m : List (List Nat × V)) (k k2 : List Nat) (v : V) :
    mapGet (mapSet m k2 v) k = if k = k2 then some v else mapGet m k := by
  unfold mapSet
  rw [mapGet_append, mapGet_filter_ne]
  by_cases hk : k = k2
  · subst hk
    simp [mapGet]
  · have hk2 : ¬ k2 = k := fun e => hk e.symm
    simp [hk, hk2, mapGet, Option.or_none]

theorem mapGet_eq_none_iff {V : Type} (m : List (List Nat × V)) (k : List Nat) :
    mapGet m k = none ↔ k ∉ mapKeys m := by
  induction m with
  | nil => simp [mapGet, mapKeys]
  | cons kv rest ih =>
    by_cases h : kv.1 = k
    · simp [mapGet, h, mapKeys]
    · have h2 : ¬ k = kv.1 := fun e => h e.symm
      simp only [mapGet, h, if_false, ih, mapKeys, List.map_cons, List.mem_cons, h2, false_or]

theorem mem_mapKeys_mapSet {V : Type} (m : List (List Nat × V)) (k k2 : List Nat) (v : V) :
    k ∈ mapKeys (mapSet m k2 v) ↔ k = k2 ∨ k ∈ mapKeys m := by
  have h := mapGet_eq_none_iff (mapSet m k2 v) k
  have h0 := mapGet_eq_none_iff m k
  rw [mapGet_mapSet] at h
  by_cases hk : k = k2
  · simp only [hk, if_true, true_or, iff_true]
    by_contra hcon
    have := h.2 (hk ▸ hcon)
    rw [if_pos hk] at this
    cases this
  · simp only [hk, if_false, false_or] at h ⊢
    constructor
    · intro hmem
      by_contra hcon
      exact (h.1 (h0.2 hcon)) hmem
    · intro hmem
      by_contra hcon
      exact (h0.1 (h.2 hcon)) hmem

theorem mem_mapKeys_foldl_mapSet (l : List (List Nat)) (m : List (List Nat × Bool))
    (k : List Nat) :
    k ∈ mapKeys (l.foldl (fun allKeys x => mapSet allKeys x true) m) ↔ k ∈ l ∨ k ∈ mapKeys m := by
  induction l generalizing m with
  | nil => simp
  | cons a rest ih =>
    simp only [List.foldl_cons, ih, mem_mapKeys_mapSet, List.mem_cons]
    tauto

theorem mapGet_expectedStorage_fold (l : List ij.StorageKeyValuePair)
    (m : List (List Nat × List Nat)) (k : List Nat) :
    mapGet (l.foldl (fun es stkvp => mapSet es stkvp.Key.Value stkvp.Value.Value) m) k
      = match l.reverse.find? (fun stkvp => stkvp.Key.Value = k) with
        | some stkvp => some stkvp.Value.Value
        | none => mapGet m k := by
  induction l generalizing m with
  | nil => simp
  | cons a rest ih =>
    simp only [List.foldl_cons, ih, List.reverse_cons, List.find?_append]
    cases hfind : rest.reverse.find? (fun stkvp => stkvp.Key.Value = k) with
    | some st => simp
    | none =>
      by_cases ha : a.Key.Value = k
      · simp [mapGet_mapSet, ha, List.find?]
      · have ha2 : ¬ k = a.Key.Value := fun e => ha e.symm
        simp [mapGet_mapSet, ha, ha2, List.find?]

theorem expectedStorage_value (storage : List ij.StorageKeyValuePair) (k : List Nat) :
    (mapGet (expectedStorageOf storage) k).getD [] = expectedValue storage k := by
  unfold expectedStorageOf expectedValue
  rw [mapGet_expectedStorage_fold]
  cases storage.reverse.find? (fun stkvp => stkvp.Key.Value = k) <;> simp [mapGet]

theorem mem_mapKeys_expectedStorage (storage : List ij.StorageKeyValuePair) (k : List Nat) :
    k ∈ mapKeys (expectedStorageOf storage) ↔ k ∈ storage.map (fun st => st.Key.Value) := by
  have h := mapGet_eq_none_iff (expectedStorageOf storage) k
  have hfold := mapGet_expectedStorage_fold storage [] k
  unfold expectedStorageOf at h ⊢
  rw [hfold] at h
  constructor
  · intro hmem
    by_contra hcon
    apply (h.1 ?_) hmem
    have hnone : storage.reverse.find? (fun stkvp => stkvp.Key.Value = k) = none := by
      rw [List.find?_eq_none]
      intro x hx hxk
      apply hcon
      simp only [decide_eq_true_eq] at hxk
      exact List.mem_map.2 ⟨x, List.mem_reverse.1 hx, hxk⟩
    rw [hnone]
    rfl
  · intro hmem
    by_contra hcon
    have hnone := h.2 hcon
    obtain ⟨x, hx, hxk⟩ := List.mem_map.1 hmem
    cases hfind : storage.reverse.find? (fun stkvp => stkvp.Key.Value = k) with
    | some st => rw [hfind] at hnone; cases hnone
    | none =>
      rw [List.find?_eq_none] at hfind
      exact hfind x (List.mem_reverse.2 hx) (by simpa using hxk)

/-! ### Checking accounts -/

theorem storageErrorStep_length {N B : Type} (lib : TestLib N B)
    (es : List (List Nat × List Nat)) (acct : worldhook.Account) (init : String)
    (k : List Nat) :
    (storageErrorStep lib es acct init k).length = 0
      ↔ init.length = 0 ∧ (mapGet es k).getD [] = lib.StorageValue acct k := by
  unfold storageErrorStep
  have h11 : ("\n  for key " : String).length = 11 := by decide
  by_cases h : (mapGet es k).getD [] = lib.StorageValue acct k
  · simp [h]
  · simp only [ne_eq, h, not_false_eq_true, if_true, String.length_append, h11, and_false,
      iff_false]
    omega

theorem storageError_fold_length {N B : Type} (lib : TestLib N B)
    (es : List (List Nat × List Nat)) (acct : worldhook.Account) (l : List (List Nat))
    (init : String) :
    (l.foldl (storageErrorStep lib es acct) init).length = 0
      ↔ init.length = 0 ∧ ∀ k ∈ l, (mapGet es k).getD [] = lib.StorageValue acct k := by
  induction l generalizing init with
  | nil => simp
  | cons a rest ih =>
    simp only [List.foldl_cons, ih, storageErrorStep_length, List.mem_cons, forall_eq_or_imp]
    tauto

theorem mem_allKeysOf (ρ : RangeOrder) (hFair : ρ.Fair)
    (es storage : List (List Nat × List Nat)) (k : List Nat) :
    k ∈ mapKeys (allKeysOf ρ es storage) ↔ k ∈ mapKeys es ∨ k ∈ mapKeys storage := by
  unfold allKeysOf
  simp only [mem_mapKeys_foldl_mapSet]
  rw [(hFair (mapKeys storage)).2.2.1.mem_iff, (hFair (mapKeys es)).2.1.mem_iff]
  simp only [mapKeys, List.map_nil, List.not_mem_nil, or_false]
  tauto

theorem checkAccountStorage_none_iff {N B : Type} (lib : TestLib N B) (ρ : RangeOrder)
    (hFair : ρ.Fair) (expectedAcct : ij.CheckAccount N B) (matchingAcct : worldhook.Account) :
    checkAccountStorage lib ρ expectedAcct matchingAcct = none
      ↔ ∀ k, (k ∈ expectedAcct.Storage.map (fun st => st.Key.Value)
            ∨ k ∈ mapKeys matchingAcct.Storage) →
          expectedValue expectedAcct.Storage k = lib.StorageValue matchingAcct k := by
  unfold checkAccountStorage
  simp only []
  have hlen := storageError_fold_length lib (expectedStorageOf expectedAcct.Storage) matchingAcct
    (ρ.allKeys (mapKeys (allKeysOf ρ (expectedStorageOf expectedAcct.Storage)
      matchingAcct.Storage))) ""
  have hperm := (hFair (mapKeys (allKeysOf ρ (expectedStorageOf expectedAcct.Storage)
      matchingAcct.Storage))).2.2.2
  have hempty : ("" : String).length = 0 := rfl
  constructor
  · intro h k hk
    have hzero : (List.foldl (storageErrorStep lib (expectedStorageOf expectedAcct.Storage)
        matchingAcct) "" (ρ.allKeys (mapKeys (allKeysOf ρ
          (expectedStorageOf expectedAcct.Storage) matchingAcct.Storage)))).length = 0 := by
      by_contra hcon
      rw [if_pos (Nat.pos_of_ne_zero hcon)] at h
      cases h
    have hall := (hlen.1 hzero).2 k
      (hperm.mem_iff.2 ((mem_allKeysOf ρ hFair _ _ k).2
        (hk.imp (mem_mapKeys_expectedStorage _ k).2 id)))
    rw [expectedStorage_value] at hall
    exact hall
  · intro h
    have hzero := hlen.2 ⟨hempty, fun k hk => by
      rw [expectedStorage_value]
      exact h k (((mem_allKeysOf ρ hFair _ _ k).1 (hperm.mem_iff.1 hk)).imp
        (mem_mapKeys_expectedStorage _ k).1 id)⟩
    rw [if_neg (by omega)]

theorem expectedValue_of_not_listed (storage : List ij.StorageKeyValuePair) (k : List Nat)
    (h : k ∉ storage.map (fun st => st.Key.Value)) : expectedValue storage k = [] := by
  unfold expectedValue
  have hnone : storage.reverse.find? (fun stkvp => stkvp.Key.Value = k) = none := by
    rw [List.find?_eq_none]
    intro x hx hxk
    apply h
    simp only [decide_eq_true_eq] at hxk
    exact List.mem_map.2 ⟨x, List.mem_reverse.1 hx, hxk⟩
  rw [hnone]

theorem listedOrder_fair : listedOrder.Fair :=
  fun l => ⟨List.Perm.refl l, List.Perm.refl l, List.Perm.refl l, List.Perm.refl l⟩

theorem reversedOrder_fair : reversedOrder.Fair :=
  fun l => ⟨List.reverse_perm l, List.reverse_perm l, List.reverse_perm l, List.reverse_perm l⟩

theorem refLib_storageValue_absent (acct : worldhook.Account) (k : List Nat)
    (h : k ∉ mapKeys acct.Storage) : refLib.StorageValue acct k = [] := by
  simp only [refLib]
  rw [(mapGet_eq_none_iff acct.Storage k).2 h]
  rfl

/-- C12. For every expected account and actual account (the `range` loops visiting
every key once): `checkAccountStorage` returns nil if and only if, for every key
among the expected storage keys or the actual storage keys, the expected value
(the last value listed under the key, and empty when the key is not listed) is
equal to the actual stored value, `StorageValue` of the key. In particular, with
a `StorageValue` that reads an absent key as empty, an expected entry with an
empty value matches a key absent from the actual storage, and a key that is not
listed as expected matches an actual empty value. -/
theorem checkAccountStorage_nil_iff_expected_equals_stored {N B : Type} (lib : TestLib N B)
    (ρ : RangeOrder) (expectedAcct : ij.CheckAccount N B) (matchingAcct : worldhook.Account)
    (hFair : ρ.Fair)
    (hAbsent : ∀ acct k, k ∉ mapKeys acct.Storage → lib.StorageValue acct k = []) :
    (checkAccountStorage lib ρ expectedAcct matchingAcct = none
      ↔ ∀ k, (k ∈ expectedAcct.Storage.map (fun st => st.Key.Value)
            ∨ k ∈ mapKeys matchingAcct.Storage) →
          expectedValue expectedAcct.Storage k = lib.StorageValue matchingAcct k)
    ∧ (∀ k, k ∉ expectedAcct.Storage.map (fun st => st.Key.Value) →
        expectedValue expectedAcct.Storage k = [])
    ∧ (∀ k, expectedValue expectedAcct.Storage k = [] → k ∉ mapKeys matchingAcct.Storage →
        expectedValue expectedAcct.Storage k = lib.StorageValue matchingAcct k)
    ∧ (∀ k, k ∉ expectedAcct.Storage.map (fun st => st.Key.Value) →
        lib.StorageValue matchingAcct k = [] →
        expectedValue expectedAcct.Storage k = lib.StorageValue matchingAcct k) := by
  refine ⟨checkAccountStorage_none_iff lib ρ hFair expectedAcct matchingAcct,
    expectedValue_of_not_listed _, ?_, ?_⟩
  · intro k hk habs
    rw [hk, hAbsent _ _ habs]
  · intro k hk hempty
    rw [expectedValue_of_not_listed _ _ hk, hempty]

/-- C12, witness: `expectedOne` lists key `[7]` twice (last value `[3]`) and key
`[8]` with an empty value; `worldOne` stores `[3]` under `[7]` and nothing under
`[8]`; the check returns nil. -/
theorem checkAccountStorage_nil_iff_expected_equals_stored_witness :
    checkAccountStorage refLib listedOrder expectedOne worldOne = none
    ∧ expectedValue expectedOne.Storage [7] = [3]
    ∧ [8] ∉ mapKeys worldOne.Storage
    ∧ (∀ k, (k ∈ expectedOne.Storage.map (fun st => st.Key.Value)
          ∨ k ∈ mapKeys worldOne.Storage) →
        expectedValue expectedOne.Storage k = refLib.StorageValue worldOne k) :=
  ⟨rfl, rfl, by decide,
    (checkAccountStorage_nil_iff_expected_equals_stored refLib listedOrder expectedOne worldOne
      listedOrder_fair refLib_storageValue_absent).1.1 rfl⟩

theorem checkExpectedAccount_none_iff {N B : Type} (lib : TestLib N B) (ρ : RangeOrder)
    (world : worldhook.BlockchainHookMock) (a : ij.CheckAccount N B) :
    checkExpectedAccount lib ρ world a = none
      ↔ ∃ m, mapGet world.AcctMap a.Address.Value = some m
          ∧ m.Address = a.Address.Value
          ∧ lib.nonceCheck a.Nonce m.Nonce = true
          ∧ lib.balanceCheck a.Balance m.Balance = true
          ∧ a.Code.Value = m.Code
          ∧ m.AsyncCallData = a.AsyncCallData
          ∧ checkAccountStorage lib ρ a m = none := by
  unfold checkExpectedAccount
  cases hget : mapGet world.AcctMap a.Address.Value with
  | none => simp
  | some m =>
    simp only [Option.some.injEq, exists_eq_left']
    by_cases h1 : m.Address = a.Address.Value
    · by_cases h2 : lib.nonceCheck a.Nonce m.Nonce = true
      · by_cases h3 : lib.balanceCheck a.Balance m.Balance = true
        · by_cases h4 : a.Code.Value = m.Code
          · by_cases h5 : m.AsyncCallData = a.AsyncCallData
            · simp [h1, h2, h3, h4, h5]
            · simp [h1, h2, h3, h4, h5]
          · simp [h1, h2, h3, h4]
        · simp [h1, h2, h3]
      · simp [h1, h2]
    · simp [h1]

theorem checkAccounts_none_iff {N B : Type} (lib : TestLib N B) (ρ : RangeOrder)
    (hFair : ρ.Fair) (expectedAccounts : List (ij.CheckAccount N B))
    (world : worldhook.BlockchainHookMock) :
    checkAccounts lib ρ expectedAccounts world = none
      ↔ (∀ k ∈ mapKeys world.AcctMap, lib.FindCheckAccount expectedAccounts k ≠ none)
        ∧ ∀ a ∈ expectedAccounts, checkExpectedAccount lib ρ world a = none := by
  unfold checkAccounts
  have hfirst : (ρ.acctMap (mapKeys world.AcctMap)).findSome?
        (checkWorldAccount lib expectedAccounts) = none
      ↔ ∀ k ∈ mapKeys world.AcctMap, lib.FindCheckAccount expectedAccounts k ≠ none := by
    rw [List.findSome?_eq_none_iff]
    constructor
    · intro h k hk
      have := h k ((hFair (mapKeys world.AcctMap)).1.mem_iff.2 hk)
      unfold checkWorldAccount at this
      intro hnone
      rw [hnone] at this
      cases this
    · intro h k hk
      have := h k ((hFair (mapKeys world.AcctMap)).1.mem_iff.1 hk)
      unfold checkWorldAccount
      cases hf : lib.FindCheckAccount expectedAccounts k with
      | none => exact absurd hf this
      | some x => rfl
  cases hres : (ρ.acctMap (mapKeys world.AcctMap)).findSome?
      (checkWorldAccount lib expectedAccounts) with
  | some err =>
    constructor
    · intro h
      cases h
    · intro h
      have := hfirst.2 h.1
      rw [hres] at this
      cases this
  | none =>
    simp only [List.findSome?_eq_none_iff]
    constructor
    · intro h
      exact ⟨hfirst.1 hres, h⟩
    · intro h
      exact h.2

theorem refLib_findCheckAccount (accounts : List (ij.CheckAccount RefCondition RefCondition))
    (address : List Nat) :
    refLib.FindCheckAccount accounts address = none
      ↔ ∀ a ∈ accounts, a.Address.Value ≠ address := by
  simp only [refLib, List.find?_eq_none, decide_eq_true_eq, ne_eq]

/-- C15. For every expected account list and world (the `range` loop visiting
every account once, `FindCheckAccount` finding an account exactly when one of
the list has the address): `checkAccounts` returns nil only if the addresses of
the world's accounts are exactly the addresses of the expected accounts; it
returns an error whenever the world holds an account whose address no expected
account has, and whenever the address of an expected account is not in the
world, whatever the other fields are. -/
theorem checkAccounts_nil_only_if_same_addresses {N B : Type} (lib : TestLib N B)
    (ρ : RangeOrder) (expectedAccounts : List (ij.CheckAccount N B))
    (world : worldhook.BlockchainHookMock) (hFair : ρ.Fair)
    (hFind : ∀ accounts address, lib.FindCheckAccount accounts address = none
      ↔ ∀ a ∈ accounts, a.Address.Value ≠ address) :
    (checkAccounts lib ρ expectedAccounts world = none →
        ∀ k, k ∈ mapKeys world.AcctMap ↔ k ∈ expectedAccounts.map (fun a => a.Address.Value))
    ∧ ((∃ k ∈ mapKeys world.AcctMap, k ∉ expectedAccounts.map (fun a => a.Address.Value)) →
        ∃ err, checkAccounts lib ρ expectedAccounts world = some err)
    ∧ ((∃ a ∈ expectedAccounts, a.Address.Value ∉ mapKeys world.AcctMap) →
        ∃ err, checkAccounts lib ρ expectedAccounts world = some err) := by
  have hiff := checkAccounts_none_iff lib ρ hFair expectedAccounts world
  have hsome : ∀ o : Option GoError, o ≠ none → ∃ err, o = some err := by
    intro o ho
    cases o with
    | none => exact absurd rfl ho
    | some err => exact ⟨err, rfl⟩
  have hworld : (∃ k ∈ mapKeys world.AcctMap,
      k ∉ expectedAccounts.map (fun a => a.Address.Value)) →
      checkAccounts lib ρ expectedAccounts world ≠ none := by
    rintro ⟨k, hk, hnot⟩ hnone
    apply (hiff.1 hnone).1 k hk
    rw [hFind]
    intro a ha heq
    exact hnot (List.mem_map.2 ⟨a, ha, heq⟩)
  have hexpected : (∃ a ∈ expectedAccounts, a.Address.Value ∉ mapKeys world.AcctMap) →
      checkAccounts lib ρ expectedAccounts world ≠ none := by
    rintro ⟨a, ha, hnot⟩ hnone
    obtain ⟨m, hget, -⟩ := (checkExpectedAccount_none_iff lib ρ world a).1 ((hiff.1 hnone).2 a ha)
    rw [(mapGet_eq_none_iff _ _).2 hnot] at hget
    cases hget
  refine ⟨?_, fun h => hsome _ (hworld h), fun h => hsome _ (hexpected h)⟩
  intro hnone k
  constructor
  · intro hk
    by_contra hnot
    exact hworld ⟨k, hk, hnot⟩ hnone
  · intro hk
    obtain ⟨a, ha, rfl⟩ := List.mem_map.1 hk
    by_contra hnot
    exact hexpected ⟨a, ha, hnot⟩ hnone

/-- C15, witness: the world `worldSingle` meets the one expected account
`expectedOne`; the world `worldBoth` holds one more account and is refused. -/
theorem checkAccounts_nil_only_if_same_addresses_witness :
    checkAccounts refLib listedOrder [expectedOne] worldSingle = none
    ∧ (∀ k, k ∈ mapKeys worldSingle.AcctMap
        ↔ k ∈ [expectedOne].map (fun a => a.Address.Value))
    ∧ checkAccounts refLib listedOrder [expectedOne] worldBoth
      = some ⟨"unexpected account address: 2"⟩ :=
  ⟨rfl, (checkAccounts_nil_only_if_same_addresses refLib listedOrder [expectedOne] worldSingle
    listedOrder_fair refLib_findCheckAccount).1 rfl, rfl⟩

/-- C18. Whether `checkAccountStorage` and `checkAccounts` return nil does not
depend on the order in which their `range` loops visit the keys of the maps: for
any two orders that visit every key once, both runs return nil or both return an
error. -/
theorem check_verdict_independent_of_range_order {N B : Type} (lib : TestLib N B)
    (ρ1 ρ2 : RangeOrder) (expectedAccounts : List (ij.CheckAccount N B))
    (world : worldhook.BlockchainHookMock) (expectedAcct : ij.CheckAccount N B)
    (matchingAcct : worldhook.Account) (hFair1 : ρ1.Fair) (hFair2 : ρ2.Fair) :
    (checkAccountStorage lib ρ1 expectedAcct matchingAcct = none
      ↔ checkAccountStorage lib ρ2 expectedAcct matchingAcct = none)
    ∧ (checkAccounts lib ρ1 expectedAccounts world = none
      ↔ checkAccounts lib ρ2 expectedAccounts world = none) := by
  have hstorage : ∀ (e : ij.CheckAccount N B) (m : worldhook.Account),
      checkAccountStorage lib ρ1 e m = none ↔ checkAccountStorage lib ρ2 e m = none := by
    intro e m
    rw [checkAccountStorage_none_iff lib ρ1 hFair1, checkAccountStorage_none_iff lib ρ2 hFair2]
  refine ⟨hstorage _ _, ?_⟩
  rw [checkAccounts_none_iff lib ρ1 hFair1, checkAccounts_none_iff lib ρ2 hFair2]
  simp only [checkExpectedAccount_none_iff, hstorage]

/-- C18, witness: with no account expected, the world `worldBoth` is refused in
both orders, with a different message; `worldSingle` against `expectedOne` is
accepted in both. -/
theorem check_verdict_independent_of_range_order_witness :
    checkAccounts refLib listedOrder [] worldBoth = some ⟨"unexpected account address: 1"⟩
    ∧ checkAccounts refLib reversedOrder [] worldBoth = some ⟨"unexpected account address: 2"⟩
    ∧ checkAccounts refLib reversedOrder [expectedOne] worldSingle = none
    ∧ (checkAccounts refLib listedOrder [] worldBoth = none
        ↔ checkAccounts refLib reversedOrder [] worldBoth = none) :=
  ⟨rfl, rfl, rfl, (check_verdict_independent_of_range_order refLib listedOrder reversedOrder []
    worldBoth expectedOne worldOne listedOrder_fair reversedOrder_fair).2⟩

/-! ### Concrete runs -/

theorem processAccountMap_reports_body_error_first :
    processAccountMap refParser (.OJsonMap [("", .OJsonString "x")])
      = .error ⟨"unmarshalled account object is not a map"⟩
    ∧ processAccountMap refParser (.OJsonMap [("", .OJsonMap [])])
      = .error ⟨"missing account address"⟩
    ∧ processAccountMap refParser
        (.OJsonMap [(addrA, .OJsonMap []), ("short", .OJsonMap []), (addrB, .OJsonString "x")])
      = .error ⟨"account addressis not 32 bytes in length"⟩ :=
  ⟨rfl, rfl, rfl⟩

theorem checkAccountStorage_reports_mismatch :
    checkAccountStorage refLib listedOrder expectedOne { worldOne with Storage := [([7], [2])] }
      = some ⟨"wrong account storage for account 0x0x01:\n  for key 1: Want: 1. Have: 1"⟩ :=
  rfl

end Arwen
